import Mathlib

/-!
# Rectilinear spanning graph and Kruskal extraction: a verification development

Shallow embedding of `mst.hpp`, `bst.hpp` and `rsgc.hpp`.

Conventions of the embedding.
* Point identifiers are array positions; the source keeps them in `int`, here they are `Nat`
  (the `-1` "nothing found" marker of the sweep is `Option.none`).
* Coordinates and weights are `int` in the source and unbounded `Int` here: signed overflow is
  not modelled.
* An array access outside the allocated range, which is undefined behaviour in the source,
  makes the embedded operation return `none`.
* Recursion whose termination depends on the data (the parent chain of `checkRoot`, the
  predecessor walk of the sweep) carries a fuel argument; running out of fuel gives `none`.
-/

namespace RSG

/-! ## Data model -/

/-- The point class `Coor` of `main.cpp`: two integer coordinates. -/
structure Coor where
  x : Int
  y : Int
deriving DecidableEq, Repr, Inhabited

/-- The edge record `EDGE<int>` of `mst.hpp`. -/
structure EDGE where
  p1 : Nat
  p2 : Nat
  weight : Int
deriving DecidableEq, Repr, Inhabited

/-- The class `DisjointSet` of `mst.hpp`: `count`, and the two arrays `table` and `rank`. -/
structure DisjointSet where
  count : Nat
  table : List Nat
  rank : List Nat
deriving DecidableEq, Repr

/-! ## Disjoint set (`mst.hpp`) -/

/-- `DisjointSet::makeSet`: `table[i] = i` and `rank[i] = 0` for `i < size`. -/
def DisjointSet.makeSet (size : Nat) : DisjointSet :=
  { count := size, table := List.range size, rank := List.replicate size 0 }

/-- `DisjointSet::checkRoot` with an explicit recursion budget.  Reads `table[x]`; when the
entry differs from `x` it recurses on the entry and then stores the result in `table[x]`
(path compression). -/
def DisjointSet.checkRootAux : Nat → DisjointSet → Nat → Option (Nat × DisjointSet)
  | 0, _, _ => none
  | fuel + 1, ds, x =>
    match ds.table[x]? with
    | none => none
    | some root =>
      if root ≠ x then
        match DisjointSet.checkRootAux fuel ds root with
        | none => none
        | some (r, ds1) => some (r, { ds1 with table := ds1.table.set x r })
      else some (x, ds)

/-- `DisjointSet::checkRoot`.  A parent chain without a cycle in a table of `count` entries has
at most `count` links, so `count + 1` nested calls are enough. -/
def DisjointSet.checkRoot (ds : DisjointSet) (x : Nat) : Option (Nat × DisjointSet) :=
  DisjointSet.checkRootAux (ds.table.length + 1) ds x

/-- `DisjointSet::unionSet`. -/
def DisjointSet.unionSet (ds : DisjointSet) (x y : Nat) : Option DisjointSet :=
  match ds.checkRoot x with
  | none => none
  | some (root_x, ds1) =>
    match ds1.checkRoot y with
    | none => none
    | some (root_y, ds2) =>
      if root_x ≠ root_y then
        match ds2.rank[root_x]?, ds2.rank[root_y]? with
        | some rx, some ry =>
          if rx < ry then
            some { ds2 with table := ds2.table.set root_x root_y,
                            rank := ds2.rank.set root_x (rx + 1) }
          else
            some { ds2 with table := ds2.table.set root_y root_x,
                            rank := ds2.rank.set root_y (ry + 1) }
        | _, _ => none
      else some ds2

/-! ## Kruskal (`mst.hpp`) -/

/-- Insertion of `a` into a list sorted under `lt`, behind every element that `a` does not
strictly precede. -/
def orderedInsert {α : Type} (lt : α → α → Bool) (a : α) : List α → List α
  | [] => [a]
  | b :: rest => if lt a b then a :: b :: rest else b :: orderedInsert lt a rest

/-- The call `std::sort(first, last, lt)`.  The standard leaves the relative order of
elements that are equivalent under `lt` open; this embedding fixes one order (insertion sort
from the back, which puts equivalent elements in the reverse of their input order).  Results
that must not depend on that choice are stated for every sorted rearrangement. -/
def stdSort {α : Type} (lt : α → α → Bool) : List α → List α
  | [] => []
  | a :: rest => orderedInsert lt a (stdSort lt rest)

/-- The comparator handed to `std::sort` in `findMST`: `lhs.weight < rhs.weight`. -/
def edgeLess (lhs rhs : EDGE) : Bool := decide (lhs.weight < rhs.weight)

/-- The state of the loop of `findMST`: the disjoint set, `mst_weight`, `mst_edge`, `index`. -/
structure MSTState where
  ds : DisjointSet
  mst_weight : Int
  mst_edge : List Bool
  index : Nat
deriving DecidableEq, Repr

/-- One iteration of the loop of `findMST` on the edge `e`.  The source leaves the order of the
two `checkRoot` calls of the comparison open; the embedding runs the left one first. -/
def mstStep (st : MSTState) (e : EDGE) : Option MSTState :=
  match st.ds.checkRoot e.p1 with
  | none => none
  | some (r1, ds1) =>
    match ds1.checkRoot e.p2 with
    | none => none
    | some (r2, ds2) =>
      if r1 ≠ r2 then
        match ds2.unionSet e.p1 e.p2 with
        | none => none
        | some ds3 =>
          some { ds := ds3, mst_weight := st.mst_weight + e.weight,
                 mst_edge := st.mst_edge.set st.index true, index := st.index + 1 }
      else some { st with ds := ds2, index := st.index + 1 }

/-- The loop of `findMST` over the (sorted) edge sequence. -/
def mstLoop : List EDGE → MSTState → Option MSTState
  | [], st => some st
  | e :: rest, st =>
    match mstStep st e with
    | none => none
    | some st1 => mstLoop rest st1

/-- The state before the loop: a disjoint set with `edge_count` slots, weight `0`, and
`mst_edge` filled with `false`. -/
def mstInit (edge_count : Nat) : MSTState :=
  { ds := DisjointSet.makeSet edge_count, mst_weight := 0,
    mst_edge := List.replicate edge_count false, index := 0 }

/-- The loop of `findMST` run on an edge sequence that is already in the order the sort left
it in; gives the returned weight and the final `mst_edge`. -/
def kruskal (sorted : List EDGE) : Option (Int × List Bool) :=
  (mstLoop sorted (mstInit sorted.length)).map fun st => (st.mst_weight, st.mst_edge)

/-- `findMST`: returns `mst_weight` and the array `mst_edge` (indexed by the position of the
edge after the sort, as the source sorts in place). -/
def findMST (edge : List EDGE) : Option (Int × List Bool) :=
  kruskal (stdSort edgeLess edge)

/-! ## Complete graph (`rsgc.hpp`) -/

/-- `computeMD`: the Manhattan distance. -/
def computeMD (x1 y1 x2 y2 : Int) : Int :=
  |x1 - x2| + |y1 - y2|

/-- The inner loop of `buildCompleteGraph`: `end` runs over the points after `beg`, `j` counts
along. -/
def completeInner (p1 : Coor) (i : Nat) : List Coor → Nat → List EDGE → List EDGE
  | [], _, edge_set => edge_set
  | p2 :: rest, j, edge_set =>
    completeInner p1 i rest (j + 1)
      (edge_set ++ [⟨i, j, computeMD p1.x p1.y p2.x p2.y⟩])

/-- The outer loop of `buildCompleteGraph`: `beg` runs over the points, `i` counts along. -/
def completeOuter : List Coor → Nat → List EDGE → List EDGE
  | [], _, edge_set => edge_set
  | p1 :: rest, i, edge_set =>
    completeOuter rest (i + 1) (completeInner p1 i rest (i + 1) edge_set)

/-- `buildCompleteGraph(first, last, edge_set)`. -/
def buildCompleteGraph (pts : List Coor) (edge_set : List EDGE) : List EDGE :=
  completeOuter pts 0 edge_set

/-! ## Binary search tree (`bst.hpp`) -/

/-- The node type `BSTNode<T>`: a null pointer is `nil`, a node owns `lc`, `data`, `rc`. -/
inductive BSTNode (α : Type) where
  | nil : BSTNode α
  | node (lc : BSTNode α) (data : α) (rc : BSTNode α) : BSTNode α
deriving DecidableEq, Repr

/-- The class `BST<T, Compare>`: the root pointer and the comparator. -/
structure BST (α : Type) where
  root : BSTNode α
  cmp : α → α → Bool

namespace BSTNode

variable {α : Type}

/-- In-order sequence of the stored keys. -/
def toList : BSTNode α → List α
  | nil => []
  | node lc data rc => toList lc ++ data :: toList rc

/-- Number of nodes. -/
def size : BSTNode α → Nat
  | nil => 0
  | node lc _ rc => size lc + 1 + size rc

/-- `BST::queryTreeEqual`. -/
def queryTreeEqual (cmp : α → α → Bool) (data : α) : BSTNode α → Option α
  | nil => none
  | node lc d rc =>
    let lt := cmp data d
    let gt := cmp d data
    if lt = false ∧ gt = false then some d
    else if lt then queryTreeEqual cmp data lc
    else if gt then queryTreeEqual cmp data rc
    else none

/-- `BST::queryTreeMaxL`. -/
def queryTreeMaxL (cmp : α → α → Bool) (data : α) : BSTNode α → Option α
  | nil => none
  | node lc d rc =>
    let gt := cmp d data
    if gt then
      match queryTreeMaxL cmp data rc with
      | none => some d
      | some result => if cmp result d then some d else some result
    else queryTreeMaxL cmp data lc

/-- `BST::queryTreeMinG`. -/
def queryTreeMinG (cmp : α → α → Bool) (data : α) : BSTNode α → Option α
  | nil => none
  | node lc d rc =>
    let lt := cmp data d
    if lt then
      match queryTreeMinG cmp data lc with
      | none => some d
      | some result => if cmp d result then some d else some result
    else queryTreeMinG cmp data rc

/-- `BST::insertToTree`. -/
def insertToTree (cmp : α → α → Bool) (data : α) : BSTNode α → BSTNode α
  | nil => node nil data nil
  | node lc d rc =>
    let lt := cmp data d
    let gt := cmp d data
    if lt = false ∧ gt = false then node lc d rc
    else if lt then node (insertToTree cmp data lc) d rc
    else if gt then node lc d (insertToTree cmp data rc)
    else node lc d rc

/-- The loop of case 5 of `BST::eraseFromTree`.  `head` is the node `(hl, hd, head->rc)` with
`head->rc = (rl, rd, rr)`; while `head->rc->rc` is not null the loop moves `head` to
`head->rc`.  At the end it hands back `head->rc->data` and replaces `head->rc` by
`head->rc->lc`.  The result is that key and the subtree that was rooted at the first `head`. -/
def eraseRmleaf (hl : BSTNode α) (hd : α) (rl : BSTNode α) (rd : α) :
    BSTNode α → α × BSTNode α
  | nil => (rd, node hl hd rl)
  | node a b c =>
    let res := eraseRmleaf rl rd a b c
    (res.1, node hl hd res.2)

/-- `BST::eraseFromTree`, with its five cases for the node that holds the key. -/
def eraseFromTree (cmp : α → α → Bool) (data : α) : BSTNode α → BSTNode α
  | nil => nil
  | node lc d rc =>
    let lt := cmp data d
    let gt := cmp d data
    if lt = false ∧ gt = false then
      match lc, rc with
      | nil, nil => nil
      | nil, node a b c => node a b c
      | node a b c, nil => node a b c
      | node ll ld nil, node a b c => node ll ld (node a b c)
      | node ll ld (node rl rd rr), node a b c =>
        let res := eraseRmleaf ll ld rl rd rr
        node res.2 res.1 (node a b c)
    else if lt then node (eraseFromTree cmp data lc) d rc
    else if gt then node lc d (eraseFromTree cmp data rc)
    else node lc d rc

end BSTNode

namespace BST

variable {α : Type}

/-- The constructor `BST(compare)`: an empty tree. -/
def empty (cmp : α → α → Bool) : BST α := { root := BSTNode.nil, cmp := cmp }

/-- `BST::clear`. -/
def clear (t : BST α) : BST α := { t with root := BSTNode.nil }

/-- `BST::insert`. -/
def insert (t : BST α) (data : α) : BST α :=
  { t with root := BSTNode.insertToTree t.cmp data t.root }

/-- `BST::erase`. -/
def erase (t : BST α) (data : α) : BST α :=
  { t with root := BSTNode.eraseFromTree t.cmp data t.root }

/-- `BST::queryEqual`. -/
def queryEqual (t : BST α) (data : α) : Option α := BSTNode.queryTreeEqual t.cmp data t.root

/-- `BST::queryMaxL`. -/
def queryMaxL (t : BST α) (data : α) : Option α := BSTNode.queryTreeMaxL t.cmp data t.root

/-- `BST::queryMinG`. -/
def queryMinG (t : BST α) (data : α) : Option α := BSTNode.queryTreeMinG t.cmp data t.root

end BST

/-! ## Sweep (`rsgc.hpp`) -/

/-- The element access `first[i]` on the point array.  Every identifier the sweep uses comes
from the index array, so the fallback value is never taken there. -/
def pointAt (pts : List Coor) (i : Nat) : Coor := pts.getD i ⟨0, 0⟩

/-- The comparator `XLess`: by `x`, then by `y`. -/
def XLess (pts : List Coor) (lhs rhs : Nat) : Bool :=
  let a := pointAt pts lhs
  let b := pointAt pts rhs
  if a.x ≠ b.x then decide (a.x < b.x) else decide (a.y < b.y)

/-- The comparator `YLess`: by `y`, then by `x`. -/
def YLess (pts : List Coor) (lhs rhs : Nat) : Bool :=
  let a := pointAt pts lhs
  let b := pointAt pts rhs
  if a.y ≠ b.y then decide (a.y < b.y) else decide (a.x < b.x)

/-- The comparator `YLarge`: by decreasing `y`, then by `x`. -/
def YLarge (pts : List Coor) (lhs rhs : Nat) : Bool :=
  let a := pointAt pts lhs
  let b := pointAt pts rhs
  if a.y ≠ b.y then decide (a.y > b.y) else decide (a.x < b.x)

/-- The constant `DBL_MAX` of `<cfloat>` (IEEE double): `(2^53 - 1) * 2^971`. -/
def DBL_MAX : ℚ := (2 ^ 53 - 1) * 2 ^ 971

/-- The constant `DBL_MIN` of `<cfloat>` (IEEE double): the least positive normal number
`2^(-1022)`. -/
def DBL_MIN : ℚ := 1 / 2 ^ 1022

/-- The `double slope` of the region tests: `init` when the two points share `x`, else the
quotient `(b.y - a.y) / (b.x - a.x)`.  The quotient is taken exactly; for `int` coordinates
the rounded quotient of the source compares with `1`, `0` and `-1` as the exact one does. -/
def slopeOf (init : ℚ) (a b : Coor) : ℚ :=
  if a.x ≠ b.x then ((b.y - a.y : Int) : ℚ) / ((b.x - a.x : Int) : ℚ) else init

/-- What distinguishes the four region loops of `buildRSG`: the boundary test that ends the
walk (`stop b a`), and the containment test on the slope between `a` and `b`
(`inside a b`). -/
structure Region where
  stop : Coor → Coor → Bool
  inside : Coor → Coor → Bool

/-- Region R1: stop when `b.x - b.y <= a.x - a.y`; `slope` starts at `DBL_MAX`; test
`slope > 1`. -/
def R1 : Region :=
  { stop := fun b a => decide (b.x - b.y ≤ a.x - a.y),
    inside := fun a b => decide (slopeOf DBL_MAX a b > 1) }

/-- Region R2: stop when `b.x - b.y > a.x - a.y`; `slope` starts at `DBL_MAX`; test
`slope > 0 && slope <= 1`. -/
def R2 : Region :=
  { stop := fun b a => decide (b.x - b.y > a.x - a.y),
    inside := fun a b => decide (slopeOf DBL_MAX a b > 0) && decide (slopeOf DBL_MAX a b ≤ 1) }

/-- Region R3: stop when `b.x + b.y >= a.x + a.y`; `slope` starts at `DBL_MIN`; test
`slope <= 0 && slope > -1`. -/
def R3 : Region :=
  { stop := fun b a => decide (b.x + b.y ≥ a.x + a.y),
    inside := fun a b => decide (slopeOf DBL_MIN a b ≤ 0) && decide (slopeOf DBL_MIN a b > -1) }

/-- Region R4: stop when `b.x + b.y < a.x + a.y`; `slope` starts at `DBL_MIN`; test
`slope <= -1`. -/
def R4 : Region :=
  { stop := fun b a => decide (b.x + b.y < a.x + a.y),
    inside := fun a b => decide (slopeOf DBL_MIN a b ≤ -1) }

/-- The walk `for (pt = as.queryMaxL(index[i]); pt != nullptr; pt = as.queryMaxL(*pt))` of one
region, carrying `min_index` and `min_md`. -/
def walk (pts : List Coor) (rg : Region) (cmp : Nat → Nat → Bool) (as : BSTNode Nat)
    (a : Coor) : Nat → Option Nat → Option Nat × Int → Option (Option Nat × Int)
  | _, none, best => some best
  | 0, some _, _ => none
  | fuel + 1, some pt, best =>
    let b := pointAt pts pt
    if rg.stop b a then some best
    else
      let best1 :=
        if rg.inside a b then
          let wl := computeMD a.x a.y b.x b.y
          if best.1.isNone || decide (wl < best.2) then (some pt, wl) else best
        else best
      walk pts rg cmp as a fuel (BSTNode.queryTreeMaxL cmp pt as) best1

/-- The work of one region for the swept point `index[i] = ai`: the walk, then the new edge and
the eviction when a nearest point was found, then the insertion of `ai`. -/
def regionStep (pts : List Coor) (rg : Region) (ai : Nat) (as : BST Nat)
    (edge_set : List EDGE) : Option (BST Nat × List EDGE) :=
  let a := pointAt pts ai
  match walk pts rg as.cmp as.root a as.root.size (as.queryMaxL ai) (none, 0) with
  | none => none
  | some (some min_index, min_md) =>
    some ((as.erase min_index).insert ai, edge_set ++ [⟨ai, min_index, min_md⟩])
  | some (none, _) => some (as.insert ai, edge_set)

/-- One sweep pass: for every identifier of `index` in turn, the step of the first region on
`asA`, then the step of the second region on `asB`. -/
def sweepPass (pts : List Coor) (rgA rgB : Region) :
    List Nat → BST Nat → BST Nat → List EDGE → Option (List EDGE)
  | [], _, _, edge_set => some edge_set
  | ai :: rest, asA, asB, edge_set =>
    match regionStep pts rgA ai asA edge_set with
    | none => none
    | some (asA1, edge_set1) =>
      match regionStep pts rgB ai asB edge_set1 with
      | none => none
      | some (asB1, edge_set2) => sweepPass pts rgA rgB rest asA1 asB1 edge_set2

/-- The comparator of the first `std::sort` on `index`: by `x + y`. -/
def sumLess (pts : List Coor) (lhs rhs : Nat) : Bool :=
  let a := pointAt pts lhs
  let b := pointAt pts rhs
  decide (a.x + a.y < b.x + b.y)

/-- The comparator of the second `std::sort` on `index`: by `x - y`. -/
def diffLess (pts : List Coor) (lhs rhs : Nat) : Bool :=
  let a := pointAt pts lhs
  let b := pointAt pts rhs
  decide (a.x - a.y < b.x - b.y)

/-- The two passes of the `else` branch of `buildRSG`, given the index array as the two sorts
leave it (`indexA` by `x + y`, `indexB` by `x - y`). -/
def sweepWith (pts : List Coor) (indexA indexB : List Nat) (edge_set : List EDGE) :
    Option (List EDGE) :=
  match sweepPass pts R1 R2 indexA (BST.empty (XLess pts)) (BST.empty (YLess pts)) edge_set with
  | none => none
  | some edge_set1 =>
    sweepPass pts R3 R4 indexB (BST.empty (YLarge pts)) (BST.empty (XLess pts)) edge_set1

/-- The `else` branch of `buildRSG`: `index` is `0 .. size-1`, sorted by `x + y` for the first
pass and sorted again (from that order) by `x - y` for the second. -/
def sweepRSG (pts : List Coor) (edge_set : List EDGE) : Option (List EDGE) :=
  let indexA := stdSort (sumLess pts) (List.range pts.length)
  let indexB := stdSort (diffLess pts) indexA
  sweepWith pts indexA indexB edge_set

/-- `buildRSG(first, last, edge_set)`. -/
def buildRSG (pts : List Coor) (edge_set : List EDGE) : Option (List EDGE) :=
  if pts.length ≤ 25 then some (buildCompleteGraph pts edge_set)
  else sweepRSG pts edge_set

/-! ## Specification vocabulary -/

/-- The edge the complete graph holds for the pair of positions `(i, j)`: weight
`|x_i - x_j| + |y_i - y_j|`. -/
def pairEdge (pts : List Coor) (i j : Nat) : EDGE :=
  ⟨i, j, |(pointAt pts i).x - (pointAt pts j).x| + |(pointAt pts i).y - (pointAt pts j).y|⟩

/-- Written from the specification, for comparison with `buildCompleteGraph`: one edge for
each pair of positions `i < j`, the pairs in lexicographic order. -/
def allPairs (pts : List Coor) : List EDGE :=
  (List.range pts.length).flatMap fun i =>
    (List.range' (i + 1) (pts.length - (i + 1))).map fun j => pairEdge pts i j

/-- Lexicographic order on the pair of endpoints of an edge. -/
def lexBefore (e f : EDGE) : Prop := e.p1 < f.p1 ∨ (e.p1 = f.p1 ∧ e.p2 < f.p2)

/-- The search-tree invariant: at every node, each key of the left subtree is strictly less
than the key of the node and each key of the right subtree strictly greater, under `cmp`. -/
def BSTNode.Ordered {α : Type} (cmp : α → α → Bool) : BSTNode α → Prop
  | BSTNode.nil => True
  | BSTNode.node lc d rc =>
    BSTNode.Ordered cmp lc ∧ BSTNode.Ordered cmp rc ∧
      (∀ k ∈ lc.toList, cmp k d = true) ∧ (∀ k ∈ rc.toList, cmp d k = true)

/-- One call on the public interface of `BST` that changes the tree. -/
inductive BSTOp (α : Type) where
  | insert (data : α) : BSTOp α
  | erase (data : α) : BSTOp α

/-- Running one operation. -/
def BST.run {α : Type} (t : BST α) : BSTOp α → BST α
  | BSTOp.insert data => t.insert data
  | BSTOp.erase data => t.erase data

/-- Running a sequence of operations, first to last. -/
def BST.runAll {α : Type} (t : BST α) (ops : List (BSTOp α)) : BST α :=
  ops.foldl BST.run t

/-- The usual strict order of the natural numbers as a comparator (`std::less`). -/
def natLess (a b : Nat) : Bool := decide (a < b)

/-- A sample run: six keys inserted, the key at the root erased. -/
def sampleOps : List (BSTOp Nat) :=
  [BSTOp.insert 5, BSTOp.insert 2, BSTOp.insert 8, BSTOp.insert 1, BSTOp.insert 3,
    BSTOp.insert 9, BSTOp.erase 5]

/-- The tree the sample run builds. -/
def sampleTree : BST Nat := (BST.empty natLess).runAll sampleOps

/-- `RootOf table x r`: following the parent links of `table` from `x` ends at `r`, an
identifier that is its own parent. -/
inductive RootOf (table : List Nat) : Nat → Nat → Prop where
  | root {x : Nat} : table[x]? = some x → RootOf table x x
  | step {x p r : Nat} : table[x]? = some p → p ≠ x → RootOf table p r → RootOf table x r

/-- Number of roots of a parent table: the identifiers `i` with `table[i] = i`. -/
def numRoots (table : List Nat) : Nat :=
  (List.range table.length).countP fun i => table[i]? == some i

/-- The parent table stays inside its range and `h` grows strictly along every parent link
that is not a self-loop, so the links have no cycle but the self-loops. -/
def HeightOK (table : List Nat) (h : Nat → Nat) : Prop :=
  ∀ x p, table[x]? = some p → p < table.length ∧ (p ≠ x → h x < h p)

/-- Well-formedness of a disjoint set: the two arrays have `count` entries, the parent links
are acyclic with a height `h`, and heights are bounded by the number of links that are not
self-loops. -/
def DSInv (ds : DisjointSet) (h : Nat → Nat) : Prop :=
  ds.table.length = ds.count ∧ ds.rank.length = ds.count ∧ HeightOK ds.table h ∧
    ∀ x, h x + numRoots ds.table ≤ ds.table.length

/-- Two identifiers are in the same set: their parent chains end at the same root. -/
def Same (table : List Nat) (x y : Nat) : Prop :=
  ∃ r, RootOf table x r ∧ RootOf table y r

/-- What a call of `checkRoot` leaves unchanged. -/
def Compressed (ds ds1 : DisjointSet) (h : Nat → Nat) : Prop :=
  ds1.rank = ds.rank ∧ ds1.count = ds.count ∧ ds1.table.length = ds.table.length ∧
    numRoots ds1.table = numRoots ds.table ∧ HeightOK ds1.table h ∧
    ∀ y r, RootOf ds1.table y r ↔ RootOf ds.table y r

/-- Some edge of `F` joins `a` and `b` (read from `p1` to `p2`). -/
def Adj (F : List EDGE) (a b : Nat) : Prop := ∃ e ∈ F, e.p1 = a ∧ e.p2 = b

/-- `a` and `b` are connected in the graph whose edges are those of `F`: the least equivalence
relation that contains the edges. -/
def Conn (F : List EDGE) : Nat → Nat → Prop := Relation.EqvGen (Adj F)

/-- The points below `N` that are not the least point of their class under `R`. -/
def nonLeast (N : Nat) (R : Nat → Nat → Prop) : Set Nat :=
  {x | x < N ∧ ∃ y, y < x ∧ R y x}

/-- No cycle: taking any one edge `e` out of `T`, the rest `F` does not connect the endpoints
of `e`. -/
def Acyclic (T : List EDGE) : Prop :=
  ∀ e F, List.Perm T (e :: F) → ¬ Conn F e.p1 e.p2

/-- A list built edge by edge, each edge joining two points the edges before it left apart. -/
def ForestL : List EDGE → Prop
  | [] => True
  | e :: F => ¬ Conn F e.p1 e.p2 ∧ ForestL F

/-- Sum of the weights of a list of edges. -/
def weightSum (F : List EDGE) : Int := (F.map EDGE.weight).sum

/-- The edges of `es` whose position is marked `true` in `mask`. -/
def selected : List EDGE → List Bool → List EDGE
  | e :: es, true :: bs => e :: selected es bs
  | _ :: es, false :: bs => selected es bs
  | _, _ => []

/-- Kruskal's rule on the edge sequence `s`, after the edges `done` have been processed: an
edge is marked exactly when the edges before it do not connect its endpoints. -/
inductive Greedy : List EDGE → List EDGE → List Bool → Prop where
  | nil (done : List EDGE) : Greedy done [] []
  | take {done : List EDGE} {e : EDGE} {s : List EDGE} {bs : List Bool} :
      ¬ Conn done e.p1 e.p2 → Greedy (e :: done) s bs → Greedy done (e :: s) (true :: bs)
  | skip {done : List EDGE} {e : EDGE} {s : List EDGE} {bs : List Bool} :
      Conn done e.p1 e.p2 → Greedy (e :: done) s bs → Greedy done (e :: s) (false :: bs)

/-- A spanning tree of the graph with points `0 .. n-1` and edge list `es`: edges taken from
`es` (each at most as often as it occurs there), without a cycle, connecting all points. -/
def IsSpanningTree (n : Nat) (es T : List EDGE) : Prop :=
  List.Subperm T es ∧ Acyclic T ∧ ∀ x y, x < n → y < n → Conn T x y

/-- The disjoint set `ds` is well formed and its sets are the connected components of the
graph with the edges `done`. -/
def Represents (ds : DisjointSet) (done : List EDGE) : Prop :=
  (∃ h, DSInv ds h) ∧
    ∀ u v, u < ds.table.length → v < ds.table.length →
      (Same ds.table u v ↔ Conn done u v)

/-- `reps` holds exactly one point of every connected component of the graph with points
`0 .. n-1` and edges `es`; its size is the number of connected components. -/
def IsTransversal (n : Nat) (es : List EDGE) (reps : Finset Nat) : Prop :=
  (∀ r ∈ reps, r < n) ∧ ∀ x, x < n → ∃! r, r ∈ reps ∧ Conn es x r

/-- The square of the concrete scenario: `(0,0), (0,3), (3,0), (3,3)`. -/
def squarePts : List Coor := [⟨0, 0⟩, ⟨0, 3⟩, ⟨3, 0⟩, ⟨3, 3⟩]

/-- The points below `N` that are the least point of their class under `R`. -/
def leastOnes (N : Nat) (R : Nat → Nat → Prop) : Set Nat :=
  {x | x < N ∧ ∀ y, y < x → ¬ R y x}

/-- Twenty-six points on a horizontal line: `(0,0), (1,0), ..., (25,0)`. -/
def line26 : List Coor := (List.range 26).map fun i => ⟨(i : Int), 0⟩

/-- The containment tests of the four regions with the division cleared: for `dx ≠ 0` the
sign of `dx` decides the direction of the comparison between `dy` and a multiple of `dx`;
for `dx = 0` the test is what the initial value of `slope` gives. -/
def insideInt (region : Nat) (a b : Coor) : Bool :=
  let dy := b.y - a.y
  let dx := b.x - a.x
  match region with
  | 1 => if a.x ≠ b.x then
           (decide (0 < dx) && decide (dx < dy)) || (decide (dx < 0) && decide (dy < dx))
         else true
  | 2 => if a.x ≠ b.x then
           (decide (0 < dx) && decide (0 < dy) && decide (dy ≤ dx))
             || (decide (dx < 0) && decide (dy < 0) && decide (dx ≤ dy))
         else false
  | 3 => if a.x ≠ b.x then
           (decide (0 < dx) && decide (dy ≤ 0) && decide (-dx < dy))
             || (decide (dx < 0) && decide (0 ≤ dy) && decide (dy < -dx))
         else false
  | _ => if a.x ≠ b.x then
           (decide (0 < dx) && decide (dy ≤ -dx)) || (decide (dx < 0) && decide (-dx ≤ dy))
         else false

/-- Region R1 with the containment test in integer form. -/
def R1int : Region :=
  { stop := fun b a => decide (b.x - b.y ≤ a.x - a.y), inside := insideInt 1 }

/-- Region R2 with the containment test in integer form. -/
def R2int : Region :=
  { stop := fun b a => decide (b.x - b.y > a.x - a.y), inside := insideInt 2 }

/-- Region R3 with the containment test in integer form. -/
def R3int : Region :=
  { stop := fun b a => decide (b.x + b.y ≥ a.x + a.y), inside := insideInt 3 }

/-- Region R4 with the containment test in integer form. -/
def R4int : Region :=
  { stop := fun b a => decide (b.x + b.y < a.x + a.y), inside := insideInt 4 }

/-- The chain of unit edges `(1,0), (2,1), ..., (25,24)`. -/
def chain25 : List EDGE := (List.range 25).map fun i => ⟨i + 1, i, 1⟩

/-- A graph on five points with three components: `{0, 1}`, `{2, 3}` and `{4}`; four edges. -/
def threeParts : List EDGE := [⟨0, 1, 1⟩, ⟨2, 3, 1⟩, ⟨1, 0, 2⟩, ⟨3, 2, 5⟩]

/-- A single edge between the two points `0` and `1`. -/
def oneEdge : List EDGE := [⟨0, 1, 5⟩]

/-- A path on the three points `0, 1, 2`: a tree with two edges. -/
def path3 : List EDGE := [⟨0, 1, 2⟩, ⟨1, 2, 3⟩]

/-- Two keys are equivalent under the comparator: neither precedes the other. -/
def Equivalent {α : Type} (cmp : α → α → Bool) (a b : α) : Prop :=
  cmp a b = false ∧ cmp b a = false

/-- A strict weak order, the contract `BST` puts on its comparator: irreflexive, transitive,
and a key that precedes another precedes, or is preceded by, every third key (so that
equivalence is transitive). -/
def StrictWeak {α : Type} (cmp : α → α → Bool) : Prop :=
  (∀ a, cmp a a = false) ∧
  (∀ a b c, cmp a b = true → cmp b c = true → cmp a c = true) ∧
  (∀ a b c, cmp a b = true → cmp a c = true ∨ cmp c b = true)

/-- The filter that drops the keys equivalent to `k`. -/
def notEquivalent {α : Type} (cmp : α → α → Bool) (k : α) (x : α) : Bool :=
  cmp x k || cmp k x

/-- An operation that keeps a stored key equivalent to `k` in the tree: any `insert`, and an
`erase` of a key that is not equivalent to `k`. -/
def BSTOp.Keeps {α : Type} (cmp : α → α → Bool) (k : α) : BSTOp α → Prop
  | BSTOp.insert _ => True
  | BSTOp.erase data => ¬ Equivalent cmp data k

/-- The states of a `DisjointSet` that calls of `checkRoot` and `unionSet` can produce from
`makeSet(n)`.  A call with an argument outside the arrays is undefined and produces no
state. -/
inductive Reachable (n : Nat) : DisjointSet → Prop where
  | init : Reachable n (DisjointSet.makeSet n)
  | checkRoot {ds ds1 : DisjointSet} {x r : Nat} :
      Reachable n ds → ds.checkRoot x = some (r, ds1) → Reachable n ds1
  | unionSet {ds ds1 : DisjointSet} {x y : Nat} :
      Reachable n ds → ds.unionSet x y = some ds1 → Reachable n ds1

/-- The parent link of `x` in `table` (an identifier outside the table is left alone). -/
def parentOf (table : List Nat) (x : Nat) : Nat := table.getD x x

/-- Number of parent links from `x` up to `r`, when `r` lies on the parent chain of `x`. -/
def linksTo (table : List Nat) : Nat → Nat → Nat → Option Nat
  | 0, x, r => if x = r then some 0 else none
  | fuel + 1, x, r =>
    if x = r then some 0
    else
      match table[x]? with
      | some p => if p = x then none else (linksTo table fuel p r).map (· + 1)
      | none => none

/-- Depth of the subtree rooted at `r`: the length of the longest chain of parent links that
ends at `r`. -/
def subtreeDepth (table : List Nat) (r : Nat) : Nat :=
  ((List.range table.length).map fun x => (linksTo table table.length x r).getD 0).foldl max 0

/-- Two singletons joined: the state `unionSet(0, 1)` leaves from `makeSet(2)`. -/
def joinedPair : DisjointSet := { count := 2, table := [0, 0], rank := [0, 1] }

/-- The state `unionSet(0, 1)` leaves from `makeSet(5)`. -/
def fiveJoined : DisjointSet := { count := 5, table := [0, 0, 2, 3, 4], rank := [0, 1, 0, 0, 0] }

/-- The edges one region contributes over a whole pass: the steps of that region alone, run
on its own active set for every identifier of `index` in turn. -/
def regionEdges (pts : List Coor) (rg : Region) : List Nat → BST Nat → Option (List EDGE)
  | [], _ => some []
  | ai :: rest, as =>
    match regionStep pts rg ai as [] with
    | none => none
    | some (as1, e) => (regionEdges pts rg rest as1).map fun es => e ++ es

/-- Number of edges of `es` whose first endpoint is `a`. -/
def countFirst (a : Nat) (es : List EDGE) : Nat := es.countP fun e => e.p1 == a

/-- What the walk keeps true of `min_index` and `min_md`: a recorded point is stored in the
active set, precedes the swept identifier `ai` in the order of the set, and `min_md` is its
Manhattan distance to the swept point `a`. -/
def GoodBest (pts : List Coor) (cmp : Nat → Nat → Bool) (as : BSTNode Nat) (a : Coor)
    (ai : Nat) (best : Option Nat × Int) : Prop :=
  ∀ m, best.1 = some m →
    m ∈ as.toList ∧ cmp m ai = true ∧
      best.2 = computeMD a.x a.y (pointAt pts m).x (pointAt pts m).y

/-- The index array as the first `std::sort` of `buildRSG` leaves it. -/
def indexA (pts : List Coor) : List Nat := stdSort (sumLess pts) (List.range pts.length)

/-- The index array as the second `std::sort` of `buildRSG` leaves it. -/
def indexB (pts : List Coor) : List Nat := stdSort (diffLess pts) (indexA pts)

/-! # Theorems -/

/-! ## The complete graph -/

theorem pointAt_of_lt (pts : List Coor) (k : Nat) (h : k < pts.length) :
    pointAt pts k = pts[k] := by
  unfold pointAt
  exact List.getD_eq_getElem _ _ h

theorem completeInner_drop (pts : List Coor) (i : Nat) :
    ∀ (m k : Nat) (acc : List EDGE), pts.length - k = m →
      completeInner (pointAt pts i) i (pts.drop k) k acc
        = acc ++ (List.range' k (pts.length - k)).map fun j => pairEdge pts i j := by
  intro m
  induction m with
  | zero =>
    intro k acc hk
    have hle : pts.length ≤ k := by omega
    rw [List.drop_eq_nil_of_le hle, hk]
    simp [completeInner]
  | succ m ih =>
    intro k acc hk
    have hlt : k < pts.length := by omega
    rw [List.drop_eq_getElem_cons hlt, hk, List.range'_succ]
    simp only [completeInner, List.map_cons]
    rw [ih (k + 1) _ (by omega)]
    have hm : pts.length - (k + 1) = m := by omega
    rw [hm, List.append_assoc]
    simp [pairEdge, computeMD, pointAt_of_lt pts k hlt]

theorem completeOuter_drop (pts : List Coor) :
    ∀ (m i : Nat) (acc : List EDGE), pts.length - i = m →
      completeOuter (pts.drop i) i acc
        = acc ++ (List.range' i (pts.length - i)).flatMap fun i =>
            (List.range' (i + 1) (pts.length - (i + 1))).map fun j => pairEdge pts i j := by
  intro m
  induction m with
  | zero =>
    intro i acc hi
    have hle : pts.length ≤ i := by omega
    rw [List.drop_eq_nil_of_le hle, hi]
    simp [completeOuter]
  | succ m ih =>
    intro i acc hi
    have hlt : i < pts.length := by omega
    rw [List.drop_eq_getElem_cons hlt, hi, List.range'_succ]
    simp only [completeOuter, List.flatMap_cons]
    rw [← pointAt_of_lt pts i hlt, completeInner_drop pts i _ (i + 1) acc rfl,
      ih (i + 1) _ (by omega)]
    have hm : pts.length - (i + 1) = m := by omega
    rw [hm, List.append_assoc]

theorem buildCompleteGraph_eq (pts : List Coor) (edge_set : List EDGE) :
    buildCompleteGraph pts edge_set = edge_set ++ allPairs pts := by
  have h := completeOuter_drop pts pts.length 0 edge_set rfl
  simp only [List.drop_zero, Nat.sub_zero] at h
  rw [buildCompleteGraph, h, allPairs, List.range_eq_range']

theorem sum_gaps (n : Nat) : ∀ k, k ≤ n →
    (List.map (fun i => n - (i + 1)) (List.range k)).sum * 2 = k * (2 * n - k - 1) := by
  intro k
  induction k with
  | zero => simp
  | succ k ih =>
    intro hk
    rw [List.sum_range_succ, Nat.add_mul, ih (by omega)]
    obtain ⟨d, rfl⟩ : ∃ d, n = k + 1 + d := ⟨n - (k + 1), by omega⟩
    have e1 : 2 * (k + 1 + d) - k - 1 = k + 2 * d + 1 := by omega
    have e2 : k + 1 + d - (k + 1) = d := by omega
    have e3 : 2 * (k + 1 + d) - (k + 1) - 1 = k + 2 * d := by omega
    rw [e1, e2, e3]
    ring

theorem allPairs_length (pts : List Coor) :
    (allPairs pts).length = pts.length * (pts.length - 1) / 2 := by
  unfold allPairs
  rw [List.length_flatMap]
  have : (List.map (List.length ∘ fun i =>
      (List.range' (i + 1) (pts.length - (i + 1))).map fun j => pairEdge pts i j)
      (List.range pts.length)) = List.map (fun i => pts.length - (i + 1)) (List.range pts.length) := by
    apply List.map_congr_left
    intro i _
    simp
  rw [this]
  have h := sum_gaps pts.length pts.length (le_refl _)
  have e : 2 * pts.length - pts.length - 1 = pts.length - 1 := by omega
  rw [e] at h
  omega

theorem mem_allPairs (pts : List Coor) (e : EDGE) :
    e ∈ allPairs pts ↔ ∃ i j, i < j ∧ j < pts.length ∧ e = pairEdge pts i j := by
  unfold allPairs
  simp only [List.mem_flatMap, List.mem_range, List.mem_map, List.mem_range'_1]
  constructor
  · rintro ⟨i, hi, j, ⟨h1, h2⟩, rfl⟩
    exact ⟨i, j, by omega, by omega, rfl⟩
  · rintro ⟨i, j, h1, h2, rfl⟩
    exact ⟨i, by omega, j, ⟨by omega, by omega⟩, rfl⟩

theorem allPairs_pairwise (pts : List Coor) : (allPairs pts).Pairwise lexBefore := by
  unfold allPairs
  rw [List.pairwise_flatMap]
  constructor
  · intro i _
    rw [List.pairwise_map]
    have := List.pairwise_lt_range' (i + 1) (pts.length - (i + 1))
    exact this.imp (fun h => Or.inr ⟨rfl, h⟩)
  · have := List.pairwise_lt_range pts.length
    refine this.imp ?_
    intro i i2 h e he f hf
    simp only [List.mem_map] at he hf
    obtain ⟨j, _, rfl⟩ := he
    obtain ⟨j2, _, rfl⟩ := hf
    exact Or.inl h

/-- The square of the concrete scenario: `(0,0), (0,3), (3,0), (3,3)`. -/
theorem square_weights :
    (buildCompleteGraph [⟨0, 0⟩, ⟨0, 3⟩, ⟨3, 0⟩, ⟨3, 3⟩] []).map EDGE.weight
      = [3, 3, 6, 6, 3, 3] := by
  decide

/-- C7: `buildCompleteGraph` appends to `edge_set` exactly the list `allPairs pts`; that list
has `n (n - 1) / 2` entries, holds the edge of a pair `(i, j)` exactly for `i < j < n`, with
weight `|x_i - x_j| + |y_i - y_j|`, and is strictly increasing in the lexicographic order of
`(i, j)` (so every pair occurs once); on the square `(0,0), (0,3), (3,0), (3,3)` the weights
are `3, 3, 6, 6, 3, 3` in that order. -/
theorem buildCompleteGraph_spec (pts : List Coor) (edge_set : List EDGE) :
    buildCompleteGraph pts edge_set = edge_set ++ allPairs pts ∧
    (allPairs pts).length = pts.length * (pts.length - 1) / 2 ∧
    (∀ e, e ∈ allPairs pts ↔ ∃ i j, i < j ∧ j < pts.length ∧ e = pairEdge pts i j) ∧
    (allPairs pts).Pairwise lexBefore ∧
    (buildCompleteGraph [⟨0, 0⟩, ⟨0, 3⟩, ⟨3, 0⟩, ⟨3, 3⟩] []).map EDGE.weight
      = [3, 3, 6, 6, 3, 3] :=
  ⟨buildCompleteGraph_eq pts edge_set, allPairs_length pts, mem_allPairs pts,
    allPairs_pairwise pts, square_weights⟩

/-- C8: with at most 25 points `buildRSG` returns what `buildCompleteGraph` returns, which is
`edge_set` followed by `allPairs pts`; with 26 points or more it returns what the sweep
returns. -/
theorem buildRSG_threshold (pts : List Coor) (edge_set : List EDGE) :
    (pts.length ≤ 25 →
      buildRSG pts edge_set = some (buildCompleteGraph pts edge_set) ∧
      buildRSG pts edge_set = some (edge_set ++ allPairs pts)) ∧
    (26 ≤ pts.length → buildRSG pts edge_set = sweepRSG pts edge_set) := by
  constructor
  · intro h
    have e : buildRSG pts edge_set = some (buildCompleteGraph pts edge_set) := by
      unfold buildRSG
      rw [if_pos h]
    exact ⟨e, by rw [e, buildCompleteGraph_eq]⟩
  · intro h
    unfold buildRSG
    rw [if_neg (by omega)]

theorem buildRSG_threshold_witness :
    (buildRSG [⟨0, 0⟩, ⟨0, 3⟩, ⟨3, 0⟩, ⟨3, 3⟩] []
        = some (buildCompleteGraph [⟨0, 0⟩, ⟨0, 3⟩, ⟨3, 0⟩, ⟨3, 3⟩] []) ∧
      buildRSG [⟨0, 0⟩, ⟨0, 3⟩, ⟨3, 0⟩, ⟨3, 3⟩] []
        = some ([] ++ allPairs [⟨0, 0⟩, ⟨0, 3⟩, ⟨3, 0⟩, ⟨3, 3⟩])) ∧
    buildRSG line26 [] = sweepRSG line26 [] :=
  ⟨(buildRSG_threshold [⟨0, 0⟩, ⟨0, 3⟩, ⟨3, 0⟩, ⟨3, 3⟩] []).1 (by decide),
    (buildRSG_threshold line26 []).2 (by decide)⟩

/-! ## The binary search tree -/

section BSTProofs

variable {α : Type} (cmp : α → α → Bool)

theorem BSTNode.mem_insertToTree (data : α) (t : BSTNode α) (x : α)
    (h : x ∈ (BSTNode.insertToTree cmp data t).toList) : x = data ∨ x ∈ t.toList := by
  induction t with
  | nil =>
    simp [BSTNode.insertToTree, BSTNode.toList] at h
    exact Or.inl h
  | node lc d rc ihl ihr =>
    simp only [BSTNode.insertToTree] at h
    split_ifs at h with h1 h2 h3
    · exact Or.inr h
    · simp only [BSTNode.toList, List.mem_append, List.mem_cons] at h ⊢
      rcases h with h | h | h
      · rcases ihl h with h | h
        · exact Or.inl h
        · exact Or.inr (Or.inl h)
      · exact Or.inr (Or.inr (Or.inl h))
      · exact Or.inr (Or.inr (Or.inr h))
    · simp only [BSTNode.toList, List.mem_append, List.mem_cons] at h ⊢
      rcases h with h | h | h
      · exact Or.inr (Or.inl h)
      · exact Or.inr (Or.inr (Or.inl h))
      · rcases ihr h with h | h
        · exact Or.inl h
        · exact Or.inr (Or.inr (Or.inr h))
    · exact Or.inr h

theorem BSTNode.ordered_insertToTree (data : α) (t : BSTNode α)
    (h : BSTNode.Ordered cmp t) : BSTNode.Ordered cmp (BSTNode.insertToTree cmp data t) := by
  induction t with
  | nil => simp [BSTNode.insertToTree, BSTNode.Ordered, BSTNode.toList]
  | node lc d rc ihl ihr =>
    obtain ⟨hl, hr, hlk, hrk⟩ := h
    simp only [BSTNode.insertToTree]
    split_ifs with h1 h2 h3
    · exact ⟨hl, hr, hlk, hrk⟩
    · refine ⟨ihl hl, hr, ?_, hrk⟩
      intro k hk
      rcases BSTNode.mem_insertToTree cmp data lc k hk with rfl | hk
      · exact h2
      · exact hlk k hk
    · refine ⟨hl, ihr hr, hlk, ?_⟩
      intro k hk
      rcases BSTNode.mem_insertToTree cmp data rc k hk with rfl | hk
      · exact h3
      · exact hrk k hk
    · exact ⟨hl, hr, hlk, hrk⟩

/-- The loop of case 5 removes the last key of the in-order sequence of the subtree it
starts at and hands that key back. -/
theorem BSTNode.toList_eraseRmleaf (rr : BSTNode α) :
    ∀ (hl : BSTNode α) (hd : α) (rl : BSTNode α) (rd : α),
      (BSTNode.node hl hd (BSTNode.node rl rd rr)).toList
        = (BSTNode.eraseRmleaf hl hd rl rd rr).2.toList
            ++ [(BSTNode.eraseRmleaf hl hd rl rd rr).1] := by
  induction rr with
  | nil =>
    intro hl hd rl rd
    simp [BSTNode.eraseRmleaf, BSTNode.toList]
  | node a b c _ ihc =>
    intro hl hd rl rd
    have ih := ihc rl rd a b
    simp only [BSTNode.eraseRmleaf]
    rw [BSTNode.toList, ih]
    simp [BSTNode.toList]

theorem BSTNode.ordered_eraseRmleaf
    (htrans : ∀ a b c, cmp a b = true → cmp b c = true → cmp a c = true) (rr : BSTNode α) :
    ∀ (hl : BSTNode α) (hd : α) (rl : BSTNode α) (rd : α),
      BSTNode.Ordered cmp (BSTNode.node hl hd (BSTNode.node rl rd rr)) →
      BSTNode.Ordered cmp (BSTNode.eraseRmleaf hl hd rl rd rr).2 ∧
      ∀ k ∈ (BSTNode.eraseRmleaf hl hd rl rd rr).2.toList,
        cmp k (BSTNode.eraseRmleaf hl hd rl rd rr).1 = true := by
  induction rr with
  | nil =>
    intro hl hd rl rd h
    obtain ⟨hhl, ⟨hrl, _, hrlk, _⟩, hlk, hrk⟩ := h
    simp only [BSTNode.eraseRmleaf]
    refine ⟨⟨hhl, hrl, hlk, ?_⟩, ?_⟩
    · intro k hk
      exact hrk k (by simp [BSTNode.toList, hk])
    · intro k hk
      simp only [BSTNode.toList, List.mem_append, List.mem_cons] at hk
      have hd_rd : cmp hd rd = true := hrk rd (by simp [BSTNode.toList])
      rcases hk with hk | rfl | hk
      · exact htrans _ _ _ (hlk k hk) hd_rd
      · exact hd_rd
      · exact hrlk k hk
  | node a b c _ ihc =>
    intro hl hd rl rd h
    obtain ⟨hhl, hr, hlk, hrk⟩ := h
    have ih := ihc rl rd a b hr
    have hlist := BSTNode.toList_eraseRmleaf c rl rd a b
    simp only [BSTNode.eraseRmleaf]
    have hmem : ∀ k, k ∈ (BSTNode.eraseRmleaf rl rd a b c).2.toList →
        k ∈ (BSTNode.node rl rd (BSTNode.node a b c)).toList := by
      intro k hk
      rw [hlist]
      exact List.mem_append_left _ hk
    have hlast : (BSTNode.eraseRmleaf rl rd a b c).1
        ∈ (BSTNode.node rl rd (BSTNode.node a b c)).toList := by
      rw [hlist]
      simp
    refine ⟨⟨hhl, ih.1, hlk, fun k hk => hrk k (hmem k hk)⟩, ?_⟩
    intro k hk
    simp only [BSTNode.toList, List.mem_append, List.mem_cons] at hk
    have hd_last : cmp hd (BSTNode.eraseRmleaf rl rd a b c).1 = true := hrk _ hlast
    rcases hk with hk | rfl | hk
    · exact htrans _ _ _ (hlk k hk) hd_last
    · exact hd_last
    · exact ih.2 k hk

theorem BSTNode.mem_eraseRmleaf (rr : BSTNode α) (hl : BSTNode α) (hd : α) (rl : BSTNode α)
    (rd : α) (x : α) :
    x ∈ (BSTNode.node hl hd (BSTNode.node rl rd rr)).toList ↔
      x ∈ (BSTNode.eraseRmleaf hl hd rl rd rr).2.toList
        ∨ x = (BSTNode.eraseRmleaf hl hd rl rd rr).1 := by
  rw [BSTNode.toList_eraseRmleaf rr hl hd rl rd]
  simp

theorem BSTNode.mem_eraseFromTree (data : α) (t : BSTNode α) (x : α)
    (h : x ∈ (BSTNode.eraseFromTree cmp data t).toList) : x ∈ t.toList := by
  induction t with
  | nil => simpa [BSTNode.eraseFromTree] using h
  | node lc d rc ihl ihr =>
    simp only [BSTNode.eraseFromTree] at h
    split_ifs at h with h1 h2 h3
    · split at h
      · simp [BSTNode.toList] at h
      · simp only [BSTNode.toList, List.mem_append, List.mem_cons] at h ⊢
        tauto
      · simp only [BSTNode.toList, List.mem_append, List.mem_cons] at h ⊢
        tauto
      · simp only [BSTNode.toList, List.mem_append, List.mem_cons] at h ⊢
        tauto
      · rename_i ll ld rl rd rr a b c
        have hm := BSTNode.mem_eraseRmleaf rr ll ld rl rd x
        rw [BSTNode.toList, List.mem_append, List.mem_cons] at h
        rw [BSTNode.toList, List.mem_append, List.mem_cons]
        rcases h with h | h | h
        · exact Or.inl (hm.2 (Or.inl h))
        · exact Or.inl (hm.2 (Or.inr h))
        · exact Or.inr (Or.inr h)
    · simp only [BSTNode.toList, List.mem_append, List.mem_cons] at h ⊢
      rcases h with h | h | h
      · exact Or.inl (ihl h)
      · exact Or.inr (Or.inl h)
      · exact Or.inr (Or.inr h)
    · simp only [BSTNode.toList, List.mem_append, List.mem_cons] at h ⊢
      rcases h with h | h | h
      · exact Or.inl h
      · exact Or.inr (Or.inl h)
      · exact Or.inr (Or.inr (ihr h))
    · exact h

theorem BSTNode.ordered_eraseFromTree
    (htrans : ∀ a b c, cmp a b = true → cmp b c = true → cmp a c = true)
    (data : α) (t : BSTNode α) (h : BSTNode.Ordered cmp t) :
    BSTNode.Ordered cmp (BSTNode.eraseFromTree cmp data t) := by
  induction t with
  | nil => simp [BSTNode.eraseFromTree, BSTNode.Ordered]
  | node lc d rc ihl ihr =>
    obtain ⟨hl, hr, hlk, hrk⟩ := h
    simp only [BSTNode.eraseFromTree]
    split_ifs with h1 h2 h3
    · split
      · trivial
      · exact hr
      · exact hl
      · rename_i ll ld a b c
        obtain ⟨hll, _, hllk, _⟩ := hl
        refine ⟨hll, hr, hllk, ?_⟩
        intro k hk
        exact htrans _ _ _ (hlk ld (by simp [BSTNode.toList])) (hrk k hk)
      · rename_i ll ld rl rd rr a b c
        have ho := BSTNode.ordered_eraseRmleaf cmp htrans rr ll ld rl rd hl
        have hm := BSTNode.mem_eraseRmleaf rr ll ld rl rd
        refine ⟨ho.1, hr, ho.2, ?_⟩
        intro k hk
        exact htrans _ _ _ (hlk _ ((hm _).2 (Or.inr rfl))) (hrk k hk)
    · refine ⟨ihl hl, hr, ?_, hrk⟩
      intro k hk
      exact hlk k (BSTNode.mem_eraseFromTree cmp data lc k hk)
    · refine ⟨hl, ihr hr, hlk, ?_⟩
      intro k hk
      exact hrk k (BSTNode.mem_eraseFromTree cmp data rc k hk)
    · exact ⟨hl, hr, hlk, hrk⟩

/-- Under the search-tree invariant the in-order sequence is strictly increasing. -/
theorem BSTNode.pairwise_toList
    (htrans : ∀ a b c, cmp a b = true → cmp b c = true → cmp a c = true)
    (t : BSTNode α) (h : BSTNode.Ordered cmp t) :
    t.toList.Pairwise (fun a b => cmp a b = true) := by
  induction t with
  | nil => simp [BSTNode.toList]
  | node lc d rc ihl ihr =>
    obtain ⟨hl, hr, hlk, hrk⟩ := h
    rw [BSTNode.toList, List.pairwise_append]
    refine ⟨ihl hl, ?_, ?_⟩
    · rw [List.pairwise_cons]
      exact ⟨hrk, ihr hr⟩
    · intro a ha b hb
      rw [List.mem_cons] at hb
      rcases hb with rfl | hb
      · exact hlk a ha
      · exact htrans _ _ _ (hlk a ha) (hrk b hb)

theorem BST.ordered_runAll
    (htrans : ∀ a b c, cmp a b = true → cmp b c = true → cmp a c = true)
    (ops : List (BSTOp α)) :
    ∀ t : BST α, t.cmp = cmp → BSTNode.Ordered cmp t.root →
      (t.runAll ops).cmp = cmp ∧ BSTNode.Ordered cmp (t.runAll ops).root := by
  induction ops with
  | nil =>
    intro t hc ho
    exact ⟨hc, ho⟩
  | cons op ops ih =>
    intro t hc ho
    have hstep : (t.run op).cmp = cmp ∧ BSTNode.Ordered cmp (t.run op).root := by
      cases op with
      | insert data =>
        refine ⟨hc, ?_⟩
        simp only [BST.run, BST.insert, hc]
        exact BSTNode.ordered_insertToTree cmp data t.root ho
      | erase data =>
        refine ⟨hc, ?_⟩
        simp only [BST.run, BST.erase, hc]
        exact BSTNode.ordered_eraseFromTree cmp htrans data t.root ho
    simpa [BST.runAll] using ih (t.run op) hstep.1 hstep.2

theorem BSTNode.queryTreeMaxL_spec
    (hirr : ∀ a, cmp a a = false)
    (htrans : ∀ a b c, cmp a b = true → cmp b c = true → cmp a c = true)
    (data : α) (t : BSTNode α) (h : BSTNode.Ordered cmp t) :
    (∀ r, BSTNode.queryTreeMaxL cmp data t = some r →
      r ∈ t.toList ∧ cmp r data = true ∧
        ∀ s ∈ t.toList, cmp s data = true → s = r ∨ cmp s r = true) ∧
    (BSTNode.queryTreeMaxL cmp data t = none ↔ ∀ s ∈ t.toList, cmp s data = false) := by
  induction t with
  | nil => simp [BSTNode.queryTreeMaxL, BSTNode.toList]
  | node lc d rc ihl ihr =>
    obtain ⟨hl, hr, hlk, hrk⟩ := h
    have ihl := ihl hl
    have ihr := ihr hr
    simp only [BSTNode.queryTreeMaxL]
    by_cases hgt : cmp d data = true
    · rw [if_pos hgt]
      cases hq : BSTNode.queryTreeMaxL cmp data rc with
      | none =>
        have hnone := ihr.2.1 hq
        constructor
        · intro r hr'
          simp only [Option.some.injEq] at hr'
          subst hr'
          refine ⟨by simp [BSTNode.toList], hgt, ?_⟩
          intro s hs hsd
          simp only [BSTNode.toList, List.mem_append, List.mem_cons] at hs
          rcases hs with hs | hs | hs
          · exact Or.inr (hlk s hs)
          · exact Or.inl hs
          · rw [hnone s hs] at hsd
            exact absurd hsd (by simp)
        · constructor
          · intro hc
            simp at hc
          · intro hall
            have := hall d (by simp [BSTNode.toList])
            rw [hgt] at this
            exact absurd this (by simp)
      | some r1 =>
        obtain ⟨hmem, hlt, hmax⟩ := ihr.1 r1 hq
        have hdr : cmp d r1 = true := hrk r1 hmem
        have hrd : ¬ cmp r1 d = true := by
          intro hc
          have := htrans _ _ _ hdr hc
          rw [hirr d] at this
          exact absurd this (by simp)
        simp only [if_neg hrd]
        constructor
        · intro r hr'
          simp only [Option.some.injEq] at hr'
          subst hr'
          refine ⟨by simp [BSTNode.toList, hmem], hlt, ?_⟩
          intro s hs hsd
          simp only [BSTNode.toList, List.mem_append, List.mem_cons] at hs
          rcases hs with hs | hs | hs
          · exact Or.inr (htrans _ _ _ (hlk s hs) hdr)
          · subst hs
            exact Or.inr hdr
          · exact hmax s hs hsd
        · constructor
          · intro hc
            simp at hc
          · intro hall
            have := hall d (by simp [BSTNode.toList])
            rw [hgt] at this
            exact absurd this (by simp)
    · rw [if_neg hgt]
      have hrest : ∀ s, s = d ∨ s ∈ rc.toList → cmp s data = false := by
        intro s hs
        rcases hs with rfl | hs
        · simpa using hgt
        · by_contra hc
          have hc : cmp s data = true := by simpa using hc
          exact hgt (htrans _ _ _ (hrk s hs) hc)
      constructor
      · intro r hr'
        obtain ⟨hmem, hlt, hmax⟩ := ihl.1 r hr'
        refine ⟨by simp [BSTNode.toList, hmem], hlt, ?_⟩
        intro s hs hsd
        simp only [BSTNode.toList, List.mem_append, List.mem_cons] at hs
        rcases hs with hs | hs | hs
        · exact hmax s hs hsd
        · rw [hrest s (Or.inl hs)] at hsd
          exact absurd hsd (by simp)
        · rw [hrest s (Or.inr hs)] at hsd
          exact absurd hsd (by simp)
      · rw [ihl.2]
        constructor
        · intro hall s hs
          simp only [BSTNode.toList, List.mem_append, List.mem_cons] at hs
          rcases hs with hs | hs | hs
          · exact hall s hs
          · exact hrest s (Or.inl hs)
          · exact hrest s (Or.inr hs)
        · intro hall s hs
          exact hall s (by simp [BSTNode.toList, hs])

/-- C9: for a transitive comparator (so for every strict total order) and every finite
sequence of `insert` and `erase` calls on an empty `BST`, the resulting tree satisfies the
search-tree invariant; its in-order sequence is strictly increasing under the comparator and
no two of its keys are equivalent. -/
theorem BST.search_tree_invariant
    (htrans : ∀ a b c, cmp a b = true → cmp b c = true → cmp a c = true)
    (ops : List (BSTOp α)) :
    BSTNode.Ordered cmp ((BST.empty cmp).runAll ops).root ∧
    ((BST.empty cmp).runAll ops).root.toList.Pairwise (fun a b => cmp a b = true) ∧
    ((BST.empty cmp).runAll ops).root.toList.Pairwise
      (fun a b => ¬ (cmp a b = false ∧ cmp b a = false)) := by
  have h := BST.ordered_runAll cmp htrans ops (BST.empty cmp) rfl trivial
  have hp := BSTNode.pairwise_toList cmp htrans _ h.2
  refine ⟨h.2, hp, hp.imp ?_⟩
  intro a b hab hc
  rw [hc.1] at hab
  exact absurd hab (by simp)

/-- C10: on a tree with the search-tree invariant, under an irreflexive and transitive
comparator, `queryMaxL(k)` returns a stored key that is strictly less than `k` and that every
other stored key strictly less than `k` is strictly less than; it returns "not found" exactly
when no stored key is strictly less than `k`.  A returned key `r` has `cmp r k`, so it is never
`k` itself nor a key after `k`. -/
theorem BST.queryMaxL_spec (t : BST α)
    (hirr : ∀ a, t.cmp a a = false)
    (htrans : ∀ a b c, t.cmp a b = true → t.cmp b c = true → t.cmp a c = true)
    (hord : BSTNode.Ordered t.cmp t.root) (k : α) :
    (∀ r, t.queryMaxL k = some r →
      r ∈ t.root.toList ∧ t.cmp r k = true ∧ t.cmp k r = false ∧
        ∀ s ∈ t.root.toList, t.cmp s k = true → s = r ∨ t.cmp s r = true) ∧
    (t.queryMaxL k = none ↔ ∀ s ∈ t.root.toList, t.cmp s k = false) := by
  have h := BSTNode.queryTreeMaxL_spec t.cmp hirr htrans k t.root hord
  refine ⟨?_, h.2⟩
  intro r hr
  obtain ⟨h1, h2, h3⟩ := h.1 r hr
  refine ⟨h1, h2, ?_, h3⟩
  by_contra hc
  have hc : t.cmp k r = true := by simpa using hc
  have := htrans _ _ _ h2 hc
  rw [hirr r] at this
  exact absurd this (by simp)

end BSTProofs

theorem natLess_irrefl (a : Nat) : natLess a a = false := by
  simp [natLess]

theorem natLess_trans (a b c : Nat) (h1 : natLess a b = true) (h2 : natLess b c = true) :
    natLess a c = true := by
  simp only [natLess, decide_eq_true_eq] at *
  omega

theorem sampleTree_cmp : sampleTree.cmp = natLess :=
  (BST.ordered_runAll natLess natLess_trans sampleOps (BST.empty natLess) rfl trivial).1

theorem sampleTree_ordered : BSTNode.Ordered sampleTree.cmp sampleTree.root := by
  rw [sampleTree_cmp]
  exact (BST.ordered_runAll natLess natLess_trans sampleOps (BST.empty natLess) rfl trivial).2

theorem BST.search_tree_invariant_witness :
    (∀ a b c, natLess a b = true → natLess b c = true → natLess a c = true) ∧
    BSTNode.Ordered natLess ((BST.empty natLess).runAll sampleOps).root ∧
    ((BST.empty natLess).runAll sampleOps).root.toList.Pairwise
      (fun a b => natLess a b = true) ∧
    ((BST.empty natLess).runAll sampleOps).root.toList.Pairwise
      (fun a b => ¬ (natLess a b = false ∧ natLess b a = false)) :=
  ⟨natLess_trans, BST.search_tree_invariant natLess natLess_trans sampleOps⟩

theorem BST.queryMaxL_spec_witness :
    BSTNode.Ordered sampleTree.cmp sampleTree.root ∧
    sampleTree.queryMaxL 4 = some 3 ∧
    ((∀ r, sampleTree.queryMaxL 4 = some r →
      r ∈ sampleTree.root.toList ∧ sampleTree.cmp r 4 = true ∧ sampleTree.cmp 4 r = false ∧
        ∀ s ∈ sampleTree.root.toList, sampleTree.cmp s 4 = true →
          s = r ∨ sampleTree.cmp s r = true) ∧
    (sampleTree.queryMaxL 4 = none ↔ ∀ s ∈ sampleTree.root.toList, sampleTree.cmp s 4 = false)) :=
  ⟨sampleTree_ordered, by decide,
    BST.queryMaxL_spec sampleTree
      (by rw [sampleTree_cmp]; exact natLess_irrefl)
      (by rw [sampleTree_cmp]; exact natLess_trans)
      sampleTree_ordered 4⟩

/-! ## The disjoint set -/

theorem RootOf.functional {t : List Nat} {x r r' : Nat} (h : RootOf t x r)
    (h' : RootOf t x r') : r = r' := by
  induction h with
  | root hx =>
    cases h' with
    | root _ => rfl
    | step hp hne _ =>
      rw [hx] at hp
      exact absurd (Option.some.inj hp).symm hne
  | step hp hne _ ih =>
    cases h' with
    | root hx =>
      rw [hx] at hp
      exact absurd (Option.some.inj hp).symm hne
    | step hp' _ hr' =>
      rw [hp] at hp'
      cases Option.some.inj hp'
      exact ih hr'

theorem RootOf.is_root {t : List Nat} {x r : Nat} (h : RootOf t x r) : t[r]? = some r := by
  induction h with
  | root hx => exact hx
  | step _ _ _ ih => exact ih

theorem RootOf.lt_length {t : List Nat} {x r : Nat} (h : RootOf t x r) : x < t.length := by
  cases h with
  | root hx => exact (List.getElem?_eq_some_iff.1 hx).1
  | step hp _ _ => exact (List.getElem?_eq_some_iff.1 hp).1

theorem RootOf.root_lt_length {t : List Nat} {x r : Nat} (h : RootOf t x r) :
    r < t.length :=
  (List.getElem?_eq_some_iff.1 h.is_root).1

theorem RootOf.height_le {t : List Nat} {h : Nat → Nat} (hok : HeightOK t h) {x r : Nat}
    (hr : RootOf t x r) : x = r ∨ h x < h r := by
  induction hr with
  | root _ => exact Or.inl rfl
  | step hp hne _ ih =>
    have := (hok _ _ hp).2 hne
    rcases ih with rfl | ih
    · exact Or.inr this
    · exact Or.inr (lt_trans this ih)

theorem countP_range_flip (p q : Nat → Bool) (i0 : Nat) (hp : p i0 = true) (hq : q i0 = false)
    (hrest : ∀ i, i ≠ i0 → p i = q i) :
    ∀ n, i0 < n → (List.range n).countP p = (List.range n).countP q + 1 := by
  intro n
  induction n with
  | zero => intro h; omega
  | succ n ih =>
    intro hn
    rw [List.range_succ, List.countP_append, List.countP_append]
    by_cases hi : i0 = n
    · subst hi
      have hc : (List.range i0).countP p = (List.range i0).countP q := by
        apply List.countP_congr
        intro i hi
        rw [List.mem_range] at hi
        rw [hrest i (by omega)]
      simp [List.countP_cons, hp, hq, hc]
    · have := ih (by omega)
      have hn' := hrest n (fun h => hi h.symm)
      simp only [List.countP_cons, List.countP_nil, hn']
      omega

theorem numRoots_le (t : List Nat) : numRoots t ≤ t.length := by
  unfold numRoots
  have := List.countP_le_length (fun i => t[i]? == some i) (l := List.range t.length)
  simpa using this

/-- Path compression of one entry: `table[z] := r`, where `r` is the root of `z`. -/
theorem compress_step {t : List Nat} {h : Nat → Nat} (hok : HeightOK t h) {z r : Nat}
    (hz : RootOf t z r) :
    (t.set z r).length = t.length ∧ numRoots (t.set z r) = numRoots t ∧
      HeightOK (t.set z r) h ∧ ∀ y r', RootOf (t.set z r) y r' ↔ RootOf t y r' := by
  have hzlt := hz.lt_length
  have hroot := hz.is_root
  have hget : ∀ y, (t.set z r)[y]? = if z = y then some r else t[y]? := by
    intro y
    rw [List.getElem?_set]
    by_cases hzy : z = y
    · rw [if_pos hzy, if_pos hzy, if_pos hzlt]
    · rw [if_neg hzy, if_neg hzy]
  -- `z` is a root exactly when `r = z`
  have hzr : t[z]? = some z ↔ r = z := by
    constructor
    · intro h1
      exact (RootOf.functional (RootOf.root h1) hz).symm
    · intro h1
      rw [← h1]
      exact h1 ▸ hroot
  refine ⟨List.length_set _ _ _, ?_, ?_, ?_⟩
  · unfold numRoots
    rw [List.length_set]
    apply List.countP_congr
    intro i _
    rw [hget i]
    by_cases hzi : z = i
    · subst hzi
      simp only [if_true]
      by_cases hrz : r = z
      · simp [hrz, hzr.2 hrz]
      · have : ¬ t[z]? = some z := fun hc => hrz (hzr.1 hc)
        simp [hrz, this]
    · simp [hzi]
  · intro x p hx
    rw [List.length_set]
    rw [hget x] at hx
    by_cases hzx : z = x
    · subst hzx
      simp only [if_true, Option.some.injEq] at hx
      subst hx
      refine ⟨hz.root_lt_length, ?_⟩
      intro hne
      rcases hz.height_le hok with h1 | h1
      · exact absurd h1.symm hne
      · exact h1
    · rw [if_neg hzx] at hx
      exact hok x p hx
  · intro y r'
    constructor
    · intro hy
      induction hy with
      | @root x hx =>
        rw [hget x] at hx
        by_cases hzx : z = x
        · subst hzx
          simp only [if_true, Option.some.injEq] at hx
          subst hx
          exact hz
        · rw [if_neg hzx] at hx
          exact RootOf.root hx
      | @step x p r1 hp hne _ ih =>
        rw [hget x] at hp
        by_cases hzx : z = x
        · subst hzx
          simp only [if_true, Option.some.injEq] at hp
          subst hp
          have : r = r1 := RootOf.functional (RootOf.root hroot) ih
          subst this
          exact hz
        · rw [if_neg hzx] at hp
          exact RootOf.step hp hne ih
    · intro hy
      induction hy with
      | @root x hx =>
        by_cases hzx : z = x
        · subst hzx
          have : r = z := hzr.1 hx
          subst this
          apply RootOf.root
          rw [hget]
          simp
        · apply RootOf.root
          rw [hget, if_neg hzx]
          exact hx
      | @step x p r1 hp hne hr1 ih =>
        by_cases hzx : z = x
        · subst hzx
          have : r = r1 := RootOf.functional hz (RootOf.step hp hne hr1)
          subst this
          have hrz : r ≠ z := by
            intro hc
            have := hzr.2 hc
            rw [hp] at this
            exact hne (Option.some.inj this)
          refine RootOf.step (p := r) ?_ hrz ?_
          · rw [hget]; simp
          · apply RootOf.root
            rw [hget, if_neg (fun hc => hrz hc.symm)]
            exact hroot
        · refine RootOf.step ?_ hne ih
          rw [hget, if_neg hzx]
          exact hp

/-- Attaching the root `b` under another root `a`: `table[b] := a`. -/
theorem link_step {t : List Nat} {h : Nat → Nat} (hok : HeightOK t h)
    (hbound : ∀ x, h x + numRoots t ≤ t.length) {a b : Nat}
    (ha : t[a]? = some a) (hb : t[b]? = some b) (hab : a ≠ b) :
    (t.set b a).length = t.length ∧ numRoots (t.set b a) + 1 = numRoots t ∧
      (∃ h', HeightOK (t.set b a) h' ∧ ∀ x, h' x + numRoots (t.set b a) ≤ (t.set b a).length) ∧
      ∀ y r, RootOf (t.set b a) y r ↔
        (RootOf t y r ∧ r ≠ b) ∨ (RootOf t y b ∧ r = a) := by
  have hblt : b < t.length := (List.getElem?_eq_some_iff.1 hb).1
  have halt : a < t.length := (List.getElem?_eq_some_iff.1 ha).1
  have hget : ∀ y, (t.set b a)[y]? = if b = y then some a else t[y]? := by
    intro y
    rw [List.getElem?_set]
    by_cases hby : b = y
    · rw [if_pos hby, if_pos hby, if_pos hblt]
    · rw [if_neg hby, if_neg hby]
  have hroots : numRoots (t.set b a) + 1 = numRoots t := by
    unfold numRoots
    rw [List.length_set]
    refine (countP_range_flip _ _ b ?_ ?_ ?_ t.length hblt).symm
    · simp [hb]
    · rw [hget b]
      simp [hab]
    · intro i hi
      rw [hget i, if_neg (fun hc => hi hc.symm)]
  refine ⟨List.length_set _ _ _, hroots, ?_, ?_⟩
  · refine ⟨fun v => if v = a then max (h a) (h b + 1) else h v, ?_, ?_⟩
    · intro x p hx
      rw [List.length_set]
      rw [hget x] at hx
      by_cases hbx : b = x
      · subst hbx
        simp only [if_true, Option.some.injEq] at hx
        subst hx
        refine ⟨halt, fun _ => ?_⟩
        simp only [if_neg (fun hc : b = a => hab hc.symm), if_true]
        omega
      · rw [if_neg hbx] at hx
        refine ⟨(hok x p hx).1, fun hne => ?_⟩
        have hlt := (hok x p hx).2 hne
        have hxa : x ≠ a := by
          intro hc
          subst hc
          rw [ha] at hx
          exact hne (Option.some.inj hx).symm
        simp only [if_neg hxa]
        by_cases hpa : p = a
        · subst hpa
          simp only [if_true]
          omega
        · simp only [if_neg hpa]
          exact hlt
    · intro x
      rw [List.length_set]
      have h1 := hbound x
      have h2 := hbound a
      have h3 := hbound b
      by_cases hxa : x = a
      · simp only [if_pos hxa]
        omega
      · simp only [if_neg hxa]
        omega
  · intro y r
    constructor
    · intro hy
      induction hy with
      | @root x hx =>
        rw [hget x] at hx
        by_cases hbx : b = x
        · subst hbx
          simp only [if_true, Option.some.injEq] at hx
          exact absurd hx hab
        · rw [if_neg hbx] at hx
          exact Or.inl ⟨RootOf.root hx, fun hc => hbx hc.symm⟩
      | @step x p r1 hp hne _ ih =>
        rw [hget x] at hp
        by_cases hbx : b = x
        · subst hbx
          simp only [if_true, Option.some.injEq] at hp
          subst hp
          rcases ih with ⟨h1, _⟩ | ⟨h1, _⟩
          · have : a = r1 := RootOf.functional (RootOf.root ha) h1
            exact Or.inr ⟨RootOf.root hb, this.symm⟩
          · have : a = b := RootOf.functional (RootOf.root ha) h1
            exact absurd this hab
        · rw [if_neg hbx] at hp
          rcases ih with ⟨h1, h2⟩ | ⟨h1, h2⟩
          · exact Or.inl ⟨RootOf.step hp hne h1, h2⟩
          · exact Or.inr ⟨RootOf.step hp hne h1, h2⟩
    · have hnb : ∀ {x p : Nat}, t[x]? = some p → p ≠ x → b ≠ x := by
        intro x p hx hne hc
        subst hc
        rw [hb] at hx
        exact hne (Option.some.inj hx).symm
      rintro (⟨h1, h2⟩ | ⟨h1, h2⟩)
      · induction h1 with
        | @root x hx =>
          apply RootOf.root
          rw [hget, if_neg (fun hc => h2 hc.symm)]
          exact hx
        | @step x p r1 hp hne _ ih =>
          refine RootOf.step ?_ hne (ih h2)
          rw [hget, if_neg (hnb hp hne)]
          exact hp
      · have key : ∀ {y r : Nat}, RootOf t y r → r = b → RootOf (t.set b a) y a := by
          intro y r hyr
          induction hyr with
          | @root x hx =>
            intro hxb
            rw [hxb]
            refine RootOf.step (p := a) ?_ hab ?_
            · rw [hget]; simp
            · apply RootOf.root
              rw [hget, if_neg (fun hc => hab hc.symm)]
              exact ha
          | @step x p r1 hp hne _ ih =>
            intro hrb
            refine RootOf.step ?_ hne (ih hrb)
            rw [hget, if_neg (hnb hp hne)]
            exact hp
        rw [h2]
        exact key h1 rfl

theorem checkRootAux_spec (ds : DisjointSet) (h : Nat → Nat) (hok : HeightOK ds.table h)
    (B : Nat) (hB : ∀ x, h x ≤ B) :
    ∀ fuel x, x < ds.table.length → B - h x < fuel →
      ∃ r ds1, DisjointSet.checkRootAux fuel ds x = some (r, ds1) ∧
        RootOf ds.table x r ∧ Compressed ds ds1 h := by
  intro fuel
  induction fuel with
  | zero => intro x _ hf; omega
  | succ fuel ih =>
    intro x hx hf
    have hp : ds.table[x]? = some ds.table[x] := List.getElem?_eq_getElem hx
    generalize ds.table[x] = p at hp
    simp only [DisjointSet.checkRootAux, hp]
    by_cases hpx : p = x
    · subst hpx
      simp only [ne_eq, not_true_eq_false, if_false]
      exact ⟨p, ds, rfl, RootOf.root hp, rfl, rfl, rfl, rfl, hok, fun _ _ => Iff.rfl⟩
    · simp only [ne_eq, hpx, not_false_eq_true, if_true]
      have hplt := (hok x p hp).1
      have hlt := (hok x p hp).2 hpx
      have hBp := hB p
      obtain ⟨r, ds1, he, hr, h1, h2, h3, h4, h5, h6⟩ := ih p hplt (by omega)
      rw [he]
      have hxr : RootOf ds.table x r := RootOf.step hp hpx hr
      have hxr1 : RootOf ds1.table x r := (h6 x r).2 hxr
      obtain ⟨c1, c2, c3, c4⟩ := compress_step h5 hxr1
      refine ⟨r, _, rfl, hxr, h1, h2, ?_, ?_, c3, ?_⟩
      · simp only
        rw [c1, h3]
      · simp only
        rw [c2, h4]
      · intro y r'
        simp only
        rw [c4, h6]

theorem checkRoot_spec (ds : DisjointSet) (h : Nat → Nat) (hinv : DSInv ds h) (x : Nat)
    (hx : x < ds.table.length) :
    ∃ r ds1, ds.checkRoot x = some (r, ds1) ∧ RootOf ds.table x r ∧ Compressed ds ds1 h ∧
      DSInv ds1 h := by
  obtain ⟨i1, i2, i3, i4⟩ := hinv
  have hB : ∀ y, h y ≤ ds.table.length := fun y => by have := i4 y; omega
  obtain ⟨r, ds1, he, hr, hc⟩ :=
    checkRootAux_spec ds h i3 ds.table.length hB (ds.table.length + 1) x hx (by omega)
  refine ⟨r, ds1, he, hr, hc, ?_⟩
  obtain ⟨h1, h2, h3, h4, h5, _⟩ := hc
  refine ⟨by rw [h3, h2, i1], by rw [h1, h2, i2], h5, ?_⟩
  intro y
  rw [h4, h3]
  exact i4 y

theorem checkRoot_out_of_range (ds : DisjointSet) (x : Nat) (hx : ds.table.length ≤ x) :
    ds.checkRoot x = none := by
  have : ds.table[x]? = none := List.getElem?_eq_none hx
  simp [DisjointSet.checkRoot, DisjointSet.checkRootAux, this]

/-- What `unionSet(x, y)` does to the sets, in terms of the roots `rx` of `x` and `ry` of `y`
before the call. -/
theorem unionSet_spec (ds : DisjointSet) (h : Nat → Nat) (hinv : DSInv ds h) (x y : Nat)
    (hx : x < ds.table.length) (hy : y < ds.table.length) :
    ∃ rx ry ds1, RootOf ds.table x rx ∧ RootOf ds.table y ry ∧
      ds.unionSet x y = some ds1 ∧ ds1.table.length = ds.table.length ∧
      (∃ h1, DSInv ds1 h1) ∧
      (rx = ry → numRoots ds1.table = numRoots ds.table ∧
        ∀ z r, RootOf ds1.table z r ↔ RootOf ds.table z r) ∧
      (rx ≠ ry → numRoots ds1.table + 1 = numRoots ds.table ∧
        ∃ a b, ((a = rx ∧ b = ry) ∨ (a = ry ∧ b = rx)) ∧
          ∀ z r, RootOf ds1.table z r ↔
            (RootOf ds.table z r ∧ r ≠ b) ∨ (RootOf ds.table z b ∧ r = a)) := by
  obtain ⟨rx, dsa, hea, hrx, hca, hia⟩ := checkRoot_spec ds h hinv x hx
  have hy' : y < dsa.table.length := by rw [hca.2.2.1]; exact hy
  obtain ⟨ry, dsb, heb, hry, hcb, hib⟩ := checkRoot_spec dsa h hia y hy'
  have hry0 : RootOf ds.table y ry := (hca.2.2.2.2.2 y ry).1 hry
  have hiff : ∀ z r, RootOf dsb.table z r ↔ RootOf ds.table z r := by
    intro z r
    rw [hcb.2.2.2.2.2, hca.2.2.2.2.2]
  have hlen : dsb.table.length = ds.table.length := by rw [hcb.2.2.1, hca.2.2.1]
  have hnr : numRoots dsb.table = numRoots ds.table := by rw [hcb.2.2.2.1, hca.2.2.2.1]
  refine ⟨rx, ry, ?_⟩
  simp only [DisjointSet.unionSet, hea, heb]
  by_cases hxy : rx = ry
  · subst hxy
    simp only [ne_eq, not_true_eq_false, if_false]
    refine ⟨dsb, hrx, hry0, rfl, hlen, ⟨h, hib⟩, fun _ => ⟨hnr, hiff⟩, fun hc => hc.elim⟩
  · simp only [ne_eq, hxy, not_false_eq_true, if_true]
    have hrxb : RootOf dsb.table x rx := (hiff x rx).2 hrx
    have hryb : RootOf dsb.table y ry := (hiff y ry).2 hry0
    have hrxlt : rx < dsb.rank.length := by
      rw [hib.2.1, ← hib.1]; exact hrxb.root_lt_length
    have hrylt : ry < dsb.rank.length := by
      rw [hib.2.1, ← hib.1]; exact hryb.root_lt_length
    rw [List.getElem?_eq_getElem hrxlt, List.getElem?_eq_getElem hrylt]
    simp only
    by_cases hrk : dsb.rank[rx] < dsb.rank[ry]
    · simp only [hrk, if_true]
      obtain ⟨l1, l2, ⟨h1, l3a, l3b⟩, l4⟩ :=
        link_step hib.2.2.1 hib.2.2.2 hryb.is_root hrxb.is_root (fun hc => hxy hc.symm)
      refine ⟨_, hrx, hry0, rfl, by simp only; rw [l1, hlen], ⟨h1, ?_⟩,
        fun hc => hc.elim, fun _ => ⟨by simp only; rw [← hnr]; exact l2, ry, rx,
          Or.inr ⟨rfl, rfl⟩, ?_⟩⟩
      · refine ⟨by simp only; rw [l1]; exact hib.1, ?_, l3a, l3b⟩
        simp only [List.length_set]
        exact hib.2.1
      · intro z r
        simp only
        rw [l4, hiff, hiff]
    · simp only [hrk, if_false]
      obtain ⟨l1, l2, ⟨h1, l3a, l3b⟩, l4⟩ :=
        link_step hib.2.2.1 hib.2.2.2 hrxb.is_root hryb.is_root hxy
      refine ⟨_, hrx, hry0, rfl, by simp only; rw [l1, hlen], ⟨h1, ?_⟩,
        fun hc => hc.elim, fun _ => ⟨by simp only; rw [← hnr]; exact l2, rx, ry,
          Or.inl ⟨rfl, rfl⟩, ?_⟩⟩
      · refine ⟨by simp only; rw [l1]; exact hib.1, ?_, l3a, l3b⟩
        simp only [List.length_set]
        exact hib.2.1
      · intro z r
        simp only
        rw [l4, hiff, hiff]

/-! ## Connectivity, forests and Kruskal's rule -/

theorem Conn.refl (F : List EDGE) (x : Nat) : Conn F x x := Relation.EqvGen.refl x

theorem Conn.symm {F : List EDGE} {x y : Nat} (h : Conn F x y) : Conn F y x :=
  Relation.EqvGen.symm x y h

theorem Conn.trans {F : List EDGE} {x y z : Nat} (h1 : Conn F x y) (h2 : Conn F y z) :
    Conn F x z :=
  Relation.EqvGen.trans x y z h1 h2

theorem Conn.of_mem {F : List EDGE} {e : EDGE} (h : e ∈ F) : Conn F e.p1 e.p2 :=
  Relation.EqvGen.rel _ _ ⟨e, h, rfl, rfl⟩

theorem Conn.mono {F G : List EDGE} (hsub : ∀ e ∈ F, e ∈ G) {x y : Nat} (h : Conn F x y) :
    Conn G x y := by
  induction h with
  | rel a b hab =>
    obtain ⟨e, he, h1, h2⟩ := hab
    exact Relation.EqvGen.rel _ _ ⟨e, hsub e he, h1, h2⟩
  | refl a => exact Conn.refl G a
  | symm a b _ ih => exact ih.symm
  | trans a b c _ _ ih1 ih2 => exact ih1.trans ih2

theorem conn_nil_iff (x y : Nat) : Conn [] x y ↔ x = y := by
  constructor
  · intro h
    induction h with
    | rel a b hab =>
      obtain ⟨e, he, _⟩ := hab
      simp at he
    | refl a => rfl
    | symm a b _ ih => exact ih.symm
    | trans a b c _ _ ih1 ih2 => exact ih1.trans ih2
  · rintro rfl
    exact Conn.refl _ _

/-- Connectivity after one more edge, in terms of connectivity before it. -/
theorem conn_cons_iff (e : EDGE) (F : List EDGE) (x y : Nat) :
    Conn (e :: F) x y ↔
      Conn F x y ∨ (Conn F x e.p1 ∧ Conn F e.p2 y) ∨ (Conn F x e.p2 ∧ Conn F e.p1 y) := by
  constructor
  · intro h
    induction h with
    | rel a b hab =>
      obtain ⟨f, hf, h1, h2⟩ := hab
      rw [List.mem_cons] at hf
      rcases hf with rfl | hf
      · subst h1 h2
        exact Or.inr (Or.inl ⟨Conn.refl _ _, Conn.refl _ _⟩)
      · subst h1 h2
        exact Or.inl (Conn.of_mem hf)
    | refl a => exact Or.inl (Conn.refl _ _)
    | symm a b _ ih =>
      rcases ih with h | ⟨h1, h2⟩ | ⟨h1, h2⟩
      · exact Or.inl h.symm
      · exact Or.inr (Or.inr ⟨h2.symm, h1.symm⟩)
      · exact Or.inr (Or.inl ⟨h2.symm, h1.symm⟩)
    | trans a b c _ _ ih1 ih2 =>
      rcases ih1 with h | ⟨h1, h2⟩ | ⟨h1, h2⟩ <;> rcases ih2 with k | ⟨k1, k2⟩ | ⟨k1, k2⟩
      · exact Or.inl (h.trans k)
      · exact Or.inr (Or.inl ⟨h.trans k1, k2⟩)
      · exact Or.inr (Or.inr ⟨h.trans k1, k2⟩)
      · exact Or.inr (Or.inl ⟨h1, h2.trans k⟩)
      · exact Or.inr (Or.inl ⟨h1, k2⟩)
      · exact Or.inl (h1.trans k2)
      · exact Or.inr (Or.inr ⟨h1, h2.trans k⟩)
      · exact Or.inl (h1.trans k2)
      · exact Or.inr (Or.inr ⟨h1, k2⟩)
  · have hm : ∀ {u v : Nat}, Conn F u v → Conn (e :: F) u v :=
      fun h => Conn.mono (fun f hf => List.mem_cons_of_mem _ hf) h
    have he : Conn (e :: F) e.p1 e.p2 := Conn.of_mem (List.mem_cons_self _ _)
    rintro (h | ⟨h1, h2⟩ | ⟨h1, h2⟩)
    · exact hm h
    · exact ((hm h1).trans he).trans (hm h2)
    · exact ((hm h1).trans he.symm).trans (hm h2)

theorem conn_cons_of_conn {e : EDGE} {F : List EDGE} (h : Conn F e.p1 e.p2) (x y : Nat) :
    Conn (e :: F) x y ↔ Conn F x y := by
  rw [conn_cons_iff]
  constructor
  · rintro (k | ⟨h1, h2⟩ | ⟨h1, h2⟩)
    · exact k
    · exact (h1.trans h).trans h2
    · exact (h1.trans h.symm).trans h2
  · exact Or.inl

theorem nonLeast_finite (N : Nat) (R : Nat → Nat → Prop) : (nonLeast N R).Finite :=
  (Set.finite_lt_nat N).subset fun _ hx => hx.1

theorem nonLeast_mono (N : Nat) {R R' : Nat → Nat → Prop}
    (h : ∀ x y, x < N → y < N → R x y → R' x y) : nonLeast N R ⊆ nonLeast N R' := by
  rintro x ⟨hx, y, hy, hr⟩
  exact ⟨hx, y, hy, h y x (by omega) hx hr⟩

theorem nonLeast_ncard_mono (N : Nat) {R R' : Nat → Nat → Prop}
    (h : ∀ x y, x < N → y < N → R x y → R' x y) :
    (nonLeast N R).ncard ≤ (nonLeast N R').ncard :=
  Set.ncard_le_ncard (nonLeast_mono N h) (nonLeast_finite N R')

theorem nonLeast_ncard_congr (N : Nat) {R R' : Nat → Nat → Prop}
    (h : ∀ x y, x < N → y < N → (R x y ↔ R' x y)) :
    (nonLeast N R).ncard = (nonLeast N R').ncard :=
  le_antisymm (nonLeast_ncard_mono N fun x y hx hy => (h x y hx hy).1)
    (nonLeast_ncard_mono N fun x y hx hy => (h x y hx hy).2)

/-- Every point has a least point connected to it. -/
theorem exists_least_conn (F : List EDGE) (x : Nat) :
    ∃ m, Conn F m x ∧ ∀ z, Conn F z x → m ≤ z := by
  classical
  have hex : ∃ m, Conn F m x := ⟨x, Conn.refl F x⟩
  exact ⟨Nat.find hex, Nat.find_spec hex, fun z hz => Nat.find_min' hex hz⟩

/-- An edge between two points that were apart lowers the number of classes by one: exactly
one more point stops being the least of its class. -/
theorem nonLeast_cons_bridge (N : Nat) (e : EDGE) (F : List EDGE) (h1 : e.p1 < N)
    (h2 : e.p2 < N) (hne : ¬ Conn F e.p1 e.p2) :
    (nonLeast N (Conn (e :: F))).ncard = (nonLeast N (Conn F)).ncard + 1 := by
  obtain ⟨ma, hma, hmina⟩ := exists_least_conn F e.p1
  obtain ⟨mb, hmb, hminb⟩ := exists_least_conn F e.p2
  have hab : ma ≠ mb := by
    intro hc
    subst hc
    exact hne (hma.symm.trans hmb)
  have hma_le : ma ≤ e.p1 := hmina _ (Conn.refl _ _)
  have hmb_le : mb ≤ e.p2 := hminb _ (Conn.refl _ _)
  have hnew : Conn (e :: F) ma mb :=
    (conn_cons_iff e F ma mb).2 (Or.inr (Or.inl ⟨hma, hmb.symm⟩))
  -- the larger of the two least points is the one that stops being least
  have key : ∃ M, M < N ∧ M ∉ nonLeast N (Conn F) ∧ M ∈ nonLeast N (Conn (e :: F)) ∧
      ∀ x, x ∈ nonLeast N (Conn (e :: F)) → x = M ∨ x ∈ nonLeast N (Conn F) := by
    have hcase : ∀ x, x ∈ nonLeast N (Conn (e :: F)) → x ∉ nonLeast N (Conn F) →
        (x = mb ∧ ma < mb) ∨ (x = ma ∧ mb < ma) := by
      rintro x ⟨hxN, y, hyx, hyx'⟩ hnot
      have hleast : ∀ z, z < x → ¬ Conn F z x := fun z hz hc => hnot ⟨hxN, z, hz, hc⟩
      rcases (conn_cons_iff e F y x).1 hyx' with k | ⟨k1, k2⟩ | ⟨k1, k2⟩
      · exact absurd k (hleast y hyx)
      · have hx_mb : x = mb := by
          have h3 : mb ≤ x := hminb x k2.symm
          rcases Nat.lt_or_ge mb x with h4 | h4
          · exact absurd (hmb.trans k2) (hleast mb h4)
          · omega
        have : ma ≤ y := hmina y k1
        exact Or.inl ⟨hx_mb, by omega⟩
      · have hx_ma : x = ma := by
          have h3 : ma ≤ x := hmina x k2.symm
          rcases Nat.lt_or_ge ma x with h4 | h4
          · exact absurd (hma.trans k2) (hleast ma h4)
          · omega
        have : mb ≤ y := hminb y k1
        exact Or.inr ⟨hx_ma, by omega⟩
    rcases Nat.lt_or_ge ma mb with hlt | hge
    · refine ⟨mb, by omega, ?_, ⟨by omega, ma, hlt, hnew⟩, ?_⟩
      · rintro ⟨_, z, hz, hc⟩
        have := hminb z (hc.trans hmb)
        omega
      · intro x hx
        by_cases hxs : x ∈ nonLeast N (Conn F)
        · exact Or.inr hxs
        · rcases hcase x hx hxs with ⟨h3, _⟩ | ⟨_, h4⟩
          · exact Or.inl h3
          · omega
    · have hlt : mb < ma := by omega
      refine ⟨ma, by omega, ?_, ⟨by omega, mb, hlt, hnew.symm⟩, ?_⟩
      · rintro ⟨_, z, hz, hc⟩
        have := hmina z (hc.trans hma)
        omega
      · intro x hx
        by_cases hxs : x ∈ nonLeast N (Conn F)
        · exact Or.inr hxs
        · rcases hcase x hx hxs with ⟨_, h4⟩ | ⟨h3, _⟩
          · omega
          · exact Or.inl h3
  obtain ⟨M, _, hM1, hM2, hM3⟩ := key
  have hset : nonLeast N (Conn (e :: F)) = insert M (nonLeast N (Conn F)) := by
    apply Set.eq_of_subset_of_subset
    · intro x hx
      rcases hM3 x hx with h | h
      · exact Set.mem_insert_iff.2 (Or.inl h)
      · exact Set.mem_insert_iff.2 (Or.inr h)
    · intro x hx
      rcases Set.mem_insert_iff.1 hx with h | h
      · rw [h]; exact hM2
      · exact nonLeast_mono N
          (fun u v _ _ huv => Conn.mono (fun f hf => List.mem_cons_of_mem _ hf) huv) h
  rw [hset, Set.ncard_insert_of_not_mem hM1 (nonLeast_finite N _)]

theorem nonLeast_nil (N : Nat) : (nonLeast N (Conn [])).ncard = 0 := by
  have : nonLeast N (Conn []) = ∅ := by
    apply Set.eq_empty_of_forall_not_mem
    rintro x ⟨_, y, hy, hc⟩
    have := (conn_nil_iff y x).1 hc
    omega
  rw [this, Set.ncard_empty]

/-- A forest has as many edges as points that are not the least of their class. -/
theorem forestL_length (N : Nat) :
    ∀ F : List EDGE, ForestL F → (∀ e ∈ F, e.p1 < N ∧ e.p2 < N) →
      F.length = (nonLeast N (Conn F)).ncard := by
  intro F
  induction F with
  | nil =>
    intro _ _
    rw [nonLeast_nil]
    rfl
  | cons e F ih =>
    intro hf hN
    have he := hN e (List.mem_cons_self _ _)
    rw [nonLeast_cons_bridge N e F he.1 he.2 hf.1, List.length_cons,
      ih hf.2 (fun f hf' => hN f (List.mem_cons_of_mem _ hf'))]

theorem conn_congr {F G : List EDGE} (h : ∀ e, e ∈ F ↔ e ∈ G) (x y : Nat) :
    Conn F x y ↔ Conn G x y :=
  ⟨Conn.mono fun e he => (h e).1 he, Conn.mono fun e he => (h e).2 he⟩

theorem nonLeast_conn_congr (N : Nat) {F G : List EDGE} (h : ∀ e, e ∈ F ↔ e ∈ G) :
    (nonLeast N (Conn F)).ncard = (nonLeast N (Conn G)).ncard :=
  nonLeast_ncard_congr N fun x y _ _ => conn_congr h x y

theorem nonLeast_cons_of_conn (N : Nat) {e : EDGE} {F : List EDGE}
    (h : Conn F e.p1 e.p2) :
    (nonLeast N (Conn (e :: F))).ncard = (nonLeast N (Conn F)).ncard :=
  nonLeast_ncard_congr N fun x y _ _ => conn_cons_of_conn h x y

/-- No graph has more non-least points than edges. -/
theorem nonLeast_le_length (N : Nat) :
    ∀ F : List EDGE, (∀ e ∈ F, e.p1 < N ∧ e.p2 < N) →
      (nonLeast N (Conn F)).ncard ≤ F.length := by
  intro F
  induction F with
  | nil => intro _; rw [nonLeast_nil]; exact Nat.zero_le _
  | cons e F ih =>
    intro hN
    have he := hN e (List.mem_cons_self _ _)
    have ih' := ih (fun f hf => hN f (List.mem_cons_of_mem _ hf))
    by_cases hc : Conn F e.p1 e.p2
    · rw [nonLeast_cons_of_conn N hc, List.length_cons]
      omega
    · rw [nonLeast_cons_bridge N e F he.1 he.2 hc, List.length_cons]
      omega

theorem forestL_of_append : ∀ (A B : List EDGE), ForestL (A ++ B) → ForestL B := by
  intro A
  induction A with
  | nil => intro B h; exact h
  | cons a A ih => intro B h; exact ih B h.2

theorem forestL_of_acyclic {T : List EDGE} (hT : Acyclic T) :
    ∀ L : List EDGE, List.Subperm L T → ForestL L := by
  intro L
  induction L with
  | nil => intro _; trivial
  | cons e L ih =>
    intro hsub
    refine ⟨?_, ih ((List.sublist_cons_self e L).subperm.trans hsub)⟩
    obtain ⟨l, hl, hlT⟩ := hsub
    obtain ⟨G, hG⟩ := hlT.exists_perm_append
    have hperm : List.Perm T (e :: (L ++ G)) := hG.trans (List.Perm.append_right G hl)
    intro hc
    exact hT e (L ++ G) hperm (Conn.mono (fun f hf => List.mem_append_left _ hf) hc)

theorem acyclic_of_length_eq (N : Nat) {L : List EDGE} (hN : ∀ e ∈ L, e.p1 < N ∧ e.p2 < N)
    (hlen : L.length = (nonLeast N (Conn L)).ncard) : Acyclic L := by
  intro e G hperm hc
  have hmem : ∀ f, f ∈ L ↔ f ∈ e :: G := fun f => hperm.mem_iff
  have h1 : (nonLeast N (Conn L)).ncard = (nonLeast N (Conn G)).ncard := by
    rw [nonLeast_conn_congr N hmem, nonLeast_cons_of_conn N hc]
  have h2 := nonLeast_le_length N G
    (fun f hf => hN f ((hmem f).2 (List.mem_cons_of_mem _ hf)))
  have h3 : L.length = G.length + 1 := by rw [hperm.length_eq, List.length_cons]
  omega

theorem greedy_length {done s : List EDGE} {bs : List Bool} (h : Greedy done s bs) :
    bs.length = s.length := by
  induction h with
  | nil _ => rfl
  | take _ _ ih => simp [ih]
  | skip _ _ ih => simp [ih]

theorem selected_length_eq_count {done s : List EDGE} {bs : List Bool}
    (h : Greedy done s bs) : (selected s bs).length = bs.count true := by
  induction h with
  | nil _ => rfl
  | take _ _ ih => simp [selected, ih]
  | skip _ _ ih => simp [selected, ih]

theorem selected_sublist : ∀ (s : List EDGE) (bs : List Bool), List.Sublist (selected s bs) s
  | [], _ => by simp [selected]
  | _ :: _, [] => by simp [selected]
  | e :: s, true :: bs => by
    simp only [selected]
    exact (selected_sublist s bs).cons₂ e
  | e :: s, false :: bs => by
    simp only [selected]
    exact (selected_sublist s bs).cons e

/-- The marked edges connect what all the edges connect. -/
theorem greedy_conn {done s : List EDGE} {bs : List Bool} (h : Greedy done s bs) :
    ∀ x y, Conn (selected s bs ++ done) x y ↔ Conn (s ++ done) x y := by
  induction h with
  | nil _ => intro x y; exact Iff.rfl
  | @take done e s bs _ _ ih =>
    intro x y
    have e1 : ∀ f, f ∈ selected (e :: s) (true :: bs) ++ done ↔ f ∈ selected s bs ++ e :: done := by
      intro f; simp only [selected, List.mem_append, List.mem_cons]; tauto
    have e2 : ∀ f, f ∈ (e :: s) ++ done ↔ f ∈ s ++ e :: done := by
      intro f; simp only [List.mem_append, List.mem_cons]; tauto
    rw [conn_congr e1, conn_congr e2]
    exact ih x y
  | @skip done e s bs hc _ ih =>
    intro x y
    have e2 : ∀ f, f ∈ (e :: s) ++ done ↔ f ∈ s ++ e :: done := by
      intro f; simp only [List.mem_append, List.mem_cons]; tauto
    have e3 : ∀ f, f ∈ selected s bs ++ e :: done ↔ f ∈ e :: (selected s bs ++ done) := by
      intro f; simp only [List.mem_append, List.mem_cons]; tauto
    rw [conn_congr e2, ← ih x y, conn_congr e3]
    simp only [selected]
    exact (conn_cons_of_conn (Conn.mono (fun f hf => List.mem_append_right _ hf) hc) x y).symm

/-- Each marked edge raises the count of non-least points by one, no other edge changes
it. -/
theorem greedy_count (N : Nat) {done s : List EDGE} {bs : List Bool} (h : Greedy done s bs)
    (hs : ∀ e ∈ s, e.p1 < N ∧ e.p2 < N) :
    (nonLeast N (Conn (s ++ done))).ncard
      = (nonLeast N (Conn done)).ncard + (selected s bs).length := by
  induction h with
  | nil _ => simp [selected]
  | @take done e s bs hne _ ih =>
    have he := hs e (List.mem_cons_self _ _)
    have e2 : ∀ f, f ∈ (e :: s) ++ done ↔ f ∈ s ++ e :: done := by
      intro f; simp only [List.mem_append, List.mem_cons]; tauto
    rw [nonLeast_conn_congr N e2, ih (fun f hf => hs f (List.mem_cons_of_mem _ hf)),
      nonLeast_cons_bridge N e done he.1 he.2 hne]
    simp only [selected, List.length_cons]
    omega
  | @skip done e s bs hc _ ih =>
    have e2 : ∀ f, f ∈ (e :: s) ++ done ↔ f ∈ s ++ e :: done := by
      intro f; simp only [List.mem_append, List.mem_cons]; tauto
    rw [nonLeast_conn_congr N e2, ih (fun f hf => hs f (List.mem_cons_of_mem _ hf)),
      nonLeast_cons_of_conn N hc]
    simp only [selected]

theorem weightSum_cons (e : EDGE) (F : List EDGE) :
    weightSum (e :: F) = e.weight + weightSum F := by
  simp [weightSum]

theorem weightSum_perm {F G : List EDGE} (h : List.Perm F G) : weightSum F = weightSum G := by
  unfold weightSum
  exact (h.map EDGE.weight).sum_eq

/-- The exchange-free core of the optimality of Kruskal's rule.  `Td` is the part of a forest
`T` among the processed edges `done`, `Ts` its part among the edges `s` still to come, and `T`
has as many edges as the whole graph has non-least points.  Then, from here on, the marked
edges weigh no more than `Ts`, by a margin that grows with the lead in edge count. -/
theorem greedy_le (N : Nat) {done s : List EDGE} {bs : List Bool} (hg : Greedy done s bs) :
    ∀ (Ts Td : List EDGE) (w0 : Int),
      s.Pairwise (fun e f => e.weight ≤ f.weight) → (∀ e ∈ s, w0 ≤ e.weight) →
      (∀ e ∈ s, e.p1 < N ∧ e.p2 < N) → (∀ e ∈ done, e.p1 < N ∧ e.p2 < N) →
      List.Sublist Ts s → ForestL (Ts.reverse ++ Td) → (∀ e ∈ Td, e ∈ done) →
      (nonLeast N (Conn (s ++ done))).ncard = Ts.length + Td.length →
      weightSum (selected s bs) - weightSum Ts
        ≤ - (w0 * (((nonLeast N (Conn done)).ncard : Int) - (Td.length : Int))) := by
  induction hg with
  | nil done =>
    intro Ts Td w0 _ _ _ _ hsub _ _ hfin
    have hTs : Ts = [] := List.sublist_nil.1 hsub
    subst hTs
    simp only [List.nil_append, List.length_nil, Nat.zero_add] at hfin
    rw [hfin]
    simp [selected, weightSum]
  | @take done e s bs hne _ ih =>
    intro Ts Td w0 hsorted hw0 hs hdone hsub hforest hTd hfin
    have he := hs e (List.mem_cons_self _ _)
    have hs' : ∀ f ∈ s, f.p1 < N ∧ f.p2 < N := fun f hf => hs f (List.mem_cons_of_mem _ hf)
    have hdone' : ∀ f ∈ e :: done, f.p1 < N ∧ f.p2 < N := by
      intro f hf
      rcases List.mem_cons.1 hf with rfl | hf
      · exact he
      · exact hdone f hf
    have hsorted' := (List.pairwise_cons.1 hsorted).2
    have hwe : ∀ f ∈ s, e.weight ≤ f.weight := (List.pairwise_cons.1 hsorted).1
    have hw0e : w0 ≤ e.weight := hw0 e (List.mem_cons_self _ _)
    have e2 : ∀ f, f ∈ (e :: s) ++ done ↔ f ∈ s ++ e :: done := by
      intro f; simp only [List.mem_append, List.mem_cons]; tauto
    have hrk := nonLeast_cons_bridge N e done he.1 he.2 hne
    -- the lead is not negative
    have hTdF : ForestL Td := forestL_of_append _ _ hforest
    have hlead : Td.length ≤ (nonLeast N (Conn done)).ncard := by
      rw [forestL_length N Td hTdF (fun f hf => hdone f (hTd f hf))]
      exact nonLeast_ncard_mono N fun x y _ _ h => Conn.mono hTd h
    have hD : (0 : Int) ≤ ((nonLeast N (Conn done)).ncard : Int) - (Td.length : Int) := by
      omega
    cases hsub with
    | cons _ hsub' =>
      have hTd' : ∀ f ∈ Td, f ∈ e :: done := fun f hf => List.mem_cons_of_mem _ (hTd f hf)
      have hfin' : (nonLeast N (Conn (s ++ e :: done))).ncard = Ts.length + Td.length := by
        rw [← nonLeast_conn_congr N e2]; exact hfin
      have := ih Ts Td e.weight hsorted' hwe hs' hdone' hsub' hforest hTd' hfin'
      rw [hrk] at this
      simp only [selected, weightSum_cons]
      push_cast at this
      nlinarith
    | @cons₂ Ts' _ _ hsub' =>
      have hforest' : ForestL (Ts'.reverse ++ e :: Td) := by
        simpa [List.reverse_cons, List.append_assoc] using hforest
      have hTd' : ∀ f ∈ e :: Td, f ∈ e :: done := by
        intro f hf
        rcases List.mem_cons.1 hf with rfl | hf
        · exact List.mem_cons_self _ _
        · exact List.mem_cons_of_mem _ (hTd f hf)
      have hfin' : (nonLeast N (Conn (s ++ e :: done))).ncard
          = Ts'.length + (e :: Td).length := by
        rw [← nonLeast_conn_congr N e2, hfin]
        simp only [List.length_cons]
        omega
      have := ih Ts' (e :: Td) e.weight hsorted' hwe hs' hdone' hsub' hforest' hTd' hfin'
      rw [hrk] at this
      simp only [selected, weightSum_cons]
      simp only [List.length_cons] at this
      push_cast at this
      nlinarith
  | @skip done e s bs hc _ ih =>
    intro Ts Td w0 hsorted hw0 hs hdone hsub hforest hTd hfin
    have he := hs e (List.mem_cons_self _ _)
    have hs' : ∀ f ∈ s, f.p1 < N ∧ f.p2 < N := fun f hf => hs f (List.mem_cons_of_mem _ hf)
    have hdone' : ∀ f ∈ e :: done, f.p1 < N ∧ f.p2 < N := by
      intro f hf
      rcases List.mem_cons.1 hf with rfl | hf
      · exact he
      · exact hdone f hf
    have hsorted' := (List.pairwise_cons.1 hsorted).2
    have hwe : ∀ f ∈ s, e.weight ≤ f.weight := (List.pairwise_cons.1 hsorted).1
    have hw0e : w0 ≤ e.weight := hw0 e (List.mem_cons_self _ _)
    have e2 : ∀ f, f ∈ (e :: s) ++ done ↔ f ∈ s ++ e :: done := by
      intro f; simp only [List.mem_append, List.mem_cons]; tauto
    have hrk := nonLeast_cons_of_conn N hc
    have hTdF : ForestL Td := forestL_of_append _ _ hforest
    have hlead : Td.length ≤ (nonLeast N (Conn done)).ncard := by
      rw [forestL_length N Td hTdF (fun f hf => hdone f (hTd f hf))]
      exact nonLeast_ncard_mono N fun x y _ _ h => Conn.mono hTd h
    have hD : (0 : Int) ≤ ((nonLeast N (Conn done)).ncard : Int) - (Td.length : Int) := by
      omega
    cases hsub with
    | cons _ hsub' =>
      have hTd' : ∀ f ∈ Td, f ∈ e :: done := fun f hf => List.mem_cons_of_mem _ (hTd f hf)
      have hfin' : (nonLeast N (Conn (s ++ e :: done))).ncard = Ts.length + Td.length := by
        rw [← nonLeast_conn_congr N e2]; exact hfin
      have := ih Ts Td e.weight hsorted' hwe hs' hdone' hsub' hforest hTd' hfin'
      rw [hrk] at this
      simp only [selected]
      nlinarith
    | @cons₂ Ts' _ _ hsub' =>
      have hforest' : ForestL (Ts'.reverse ++ e :: Td) := by
        simpa [List.reverse_cons, List.append_assoc] using hforest
      have hTd' : ∀ f ∈ e :: Td, f ∈ e :: done := by
        intro f hf
        rcases List.mem_cons.1 hf with rfl | hf
        · exact List.mem_cons_self _ _
        · exact List.mem_cons_of_mem _ (hTd f hf)
      have hfin' : (nonLeast N (Conn (s ++ e :: done))).ncard
          = Ts'.length + (e :: Td).length := by
        rw [← nonLeast_conn_congr N e2, hfin]
        simp only [List.length_cons]
        omega
      have := ih Ts' (e :: Td) e.weight hsorted' hwe hs' hdone' hsub' hforest' hTd' hfin'
      rw [hrk] at this
      simp only [selected, weightSum_cons]
      simp only [List.length_cons] at this
      push_cast at this
      nlinarith

/-- Kruskal's rule on a sorted edge sequence marks a set of edges that weighs no more than
any forest of the graph that connects whatever the graph connects. -/
theorem greedy_optimal (N : Nat) {s : List EDGE} {bs : List Bool} (hg : Greedy [] s bs)
    (hsorted : s.Pairwise (fun e f => e.weight ≤ f.weight))
    (hs : ∀ e ∈ s, e.p1 < N ∧ e.p2 < N) (T : List EDGE) (hT : List.Subperm T s)
    (hac : Acyclic T) (hspan : ∀ x y, x < N → y < N → Conn s x y → Conn T x y) :
    weightSum (selected s bs) ≤ weightSum T := by
  obtain ⟨T1, hperm, hsub⟩ := hT
  have hmemT : ∀ e, e ∈ T1 → e ∈ s := fun e he => hsub.subset he
  have hforest : ForestL (T1.reverse ++ []) := by
    rw [List.append_nil]
    exact forestL_of_acyclic hac _ ((List.reverse_perm T1).trans hperm).subperm
  have hrev : ∀ e, e ∈ T1.reverse ↔ e ∈ T := by
    intro e
    rw [List.mem_reverse]
    exact hperm.mem_iff
  have hfin : (nonLeast N (Conn (s ++ []))).ncard = T1.length + ([] : List EDGE).length := by
    have h1 := forestL_length N T1.reverse (by rw [List.append_nil] at hforest; exact hforest)
      (fun e he => hs e (hmemT e (List.mem_reverse.1 he)))
    rw [List.length_reverse] at h1
    rw [List.append_nil, List.length_nil, Nat.add_zero, h1]
    apply nonLeast_ncard_congr
    intro x y hx hy
    constructor
    · intro h
      exact (conn_congr hrev x y).2 (hspan x y hx hy h)
    · intro h
      exact Conn.mono (fun e he => hmemT e (List.mem_reverse.1 he)) h
  rw [← weightSum_perm hperm]
  cases s with
  | nil =>
    have : T1 = [] := List.sublist_nil.1 hsub
    subst this
    cases hg
    simp [selected, weightSum]
  | cons e s =>
    have hw0 : ∀ f ∈ e :: s, e.weight ≤ f.weight := by
      intro f hf
      rcases List.mem_cons.1 hf with rfl | hf
      · exact le_refl _
      · exact (List.pairwise_cons.1 hsorted).1 f hf
    have := greedy_le N hg T1 [] e.weight hsorted hw0 hs (by simp) hsub hforest (by simp) hfin
    rw [nonLeast_nil] at this
    simp only [List.length_nil, Nat.cast_zero, sub_self, mul_zero, neg_zero] at this
    omega

/-! ## The loop of findMST -/

theorem same_of_rootOf {t : List Nat} {x u rx : Nat} (hx : RootOf t x rx) :
    RootOf t u rx ↔ Same t u x := by
  constructor
  · intro hu
    exact ⟨rx, hu, hx⟩
  · rintro ⟨r, hu, hx'⟩
    rw [RootOf.functional hx hx']
    exact hu

theorem same_after_link {t t1 : List Nat} {a b : Nat} (hab : a ≠ b)
    (hiff : ∀ z r, RootOf t1 z r ↔ (RootOf t z r ∧ r ≠ b) ∨ (RootOf t z b ∧ r = a))
    (u v : Nat) :
    Same t1 u v ↔
      Same t u v ∨ (RootOf t u a ∧ RootOf t v b) ∨ (RootOf t u b ∧ RootOf t v a) := by
  constructor
  · rintro ⟨r, hu, hv⟩
    rcases (hiff u r).1 hu with ⟨u1, _⟩ | ⟨u1, u2⟩ <;>
      rcases (hiff v r).1 hv with ⟨v1, _⟩ | ⟨v1, v2⟩
    · exact Or.inl ⟨r, u1, v1⟩
    · subst v2
      exact Or.inr (Or.inl ⟨u1, v1⟩)
    · subst u2
      exact Or.inr (Or.inr ⟨u1, v1⟩)
    · exact Or.inl ⟨b, u1, v1⟩
  · rintro (⟨r, hu, hv⟩ | ⟨hu, hv⟩ | ⟨hu, hv⟩)
    · by_cases hrb : r = b
      · subst hrb
        exact ⟨a, (hiff u a).2 (Or.inr ⟨hu, rfl⟩), (hiff v a).2 (Or.inr ⟨hv, rfl⟩)⟩
      · exact ⟨r, (hiff u r).2 (Or.inl ⟨hu, hrb⟩), (hiff v r).2 (Or.inl ⟨hv, hrb⟩)⟩
    · exact ⟨a, (hiff u a).2 (Or.inl ⟨hu, hab⟩), (hiff v a).2 (Or.inr ⟨hv, rfl⟩)⟩
    · exact ⟨a, (hiff u a).2 (Or.inr ⟨hu, rfl⟩), (hiff v a).2 (Or.inl ⟨hv, hab⟩)⟩

theorem Same.swap {t : List Nat} {x y : Nat} (h : Same t x y) : Same t y x := by
  obtain ⟨r, h1, h2⟩ := h
  exact ⟨r, h2, h1⟩

/-- The sets after `unionSet(x, y)` joined two different sets. -/
theorem same_after_union {t t1 : List Nat} {x y rx ry a b : Nat} (hx : RootOf t x rx)
    (hy : RootOf t y ry) (hne : rx ≠ ry)
    (hab : (a = rx ∧ b = ry) ∨ (a = ry ∧ b = rx))
    (hiff : ∀ z r, RootOf t1 z r ↔ (RootOf t z r ∧ r ≠ b) ∨ (RootOf t z b ∧ r = a))
    (u v : Nat) :
    Same t1 u v ↔ Same t u v ∨ (Same t u x ∧ Same t y v) ∨ (Same t u y ∧ Same t x v) := by
  have hab' : a ≠ b := by
    rcases hab with ⟨h1, h2⟩ | ⟨h1, h2⟩
    · rw [h1, h2]; exact hne
    · rw [h1, h2]; exact fun hc => hne hc.symm
  rw [same_after_link hab' hiff u v]
  rcases hab with ⟨h1, h2⟩ | ⟨h1, h2⟩
  · subst h1 h2
    rw [same_of_rootOf hx, same_of_rootOf hy, same_of_rootOf hx, same_of_rootOf hy]
    constructor
    · rintro (h | ⟨h1, h2⟩ | ⟨h1, h2⟩)
      · exact Or.inl h
      · exact Or.inr (Or.inl ⟨h1, h2.swap⟩)
      · exact Or.inr (Or.inr ⟨h1, h2.swap⟩)
    · rintro (h | ⟨h1, h2⟩ | ⟨h1, h2⟩)
      · exact Or.inl h
      · exact Or.inr (Or.inl ⟨h1, h2.swap⟩)
      · exact Or.inr (Or.inr ⟨h1, h2.swap⟩)
  · subst h1 h2
    rw [same_of_rootOf hx, same_of_rootOf hy, same_of_rootOf hx, same_of_rootOf hy]
    constructor
    · rintro (h | ⟨h1, h2⟩ | ⟨h1, h2⟩)
      · exact Or.inl h
      · exact Or.inr (Or.inr ⟨h1, h2.swap⟩)
      · exact Or.inr (Or.inl ⟨h1, h2.swap⟩)
    · rintro (h | ⟨h1, h2⟩ | ⟨h1, h2⟩)
      · exact Or.inl h
      · exact Or.inr (Or.inr ⟨h1, h2.swap⟩)
      · exact Or.inr (Or.inl ⟨h1, h2.swap⟩)

/-- One iteration of the loop of `findMST` on an edge with both endpoints in range: it marks
and adds the edge exactly when the processed edges do not connect its endpoints, and the
disjoint set then holds the components of the processed edges with this one. -/
theorem mstStep_spec (st : MSTState) (done : List EDGE) (e : EDGE)
    (hrep : Represents st.ds done) (h1 : e.p1 < st.ds.table.length)
    (h2 : e.p2 < st.ds.table.length) :
    ∃ st1, mstStep st e = some st1 ∧ Represents st1.ds (e :: done) ∧
      st1.ds.table.length = st.ds.table.length ∧ st1.index = st.index + 1 ∧
      ((¬ Conn done e.p1 e.p2 ∧ st1.mst_weight = st.mst_weight + e.weight ∧
          st1.mst_edge = st.mst_edge.set st.index true ∧
          numRoots st1.ds.table + 1 = numRoots st.ds.table) ∨
        (Conn done e.p1 e.p2 ∧ st1.mst_weight = st.mst_weight ∧
          st1.mst_edge = st.mst_edge ∧ numRoots st1.ds.table = numRoots st.ds.table)) := by
  obtain ⟨⟨h, hinv⟩, hsame⟩ := hrep
  obtain ⟨r1, dsa, hea, hr1, hca, hia⟩ := checkRoot_spec st.ds h hinv e.p1 h1
  have hlena : dsa.table.length = st.ds.table.length := hca.2.2.1
  obtain ⟨r2, dsb, heb, hr2, hcb, hib⟩ := checkRoot_spec dsa h hia e.p2 (by rw [hlena]; exact h2)
  have hlenb : dsb.table.length = st.ds.table.length := by rw [hcb.2.2.1, hlena]
  have hiff : ∀ z r, RootOf dsb.table z r ↔ RootOf st.ds.table z r := by
    intro z r
    rw [hcb.2.2.2.2.2, hca.2.2.2.2.2]
  have hnr : numRoots dsb.table = numRoots st.ds.table := by rw [hcb.2.2.2.1, hca.2.2.2.1]
  have hr2' : RootOf st.ds.table e.p2 r2 := (hca.2.2.2.2.2 _ _).1 hr2
  have hsameb : ∀ u v, Same dsb.table u v ↔ Same st.ds.table u v := by
    intro u v
    constructor
    · rintro ⟨r, hu, hv⟩
      exact ⟨r, (hiff _ _).1 hu, (hiff _ _).1 hv⟩
    · rintro ⟨r, hu, hv⟩
      exact ⟨r, (hiff _ _).2 hu, (hiff _ _).2 hv⟩
  have hconn : r1 = r2 ↔ Conn done e.p1 e.p2 := by
    rw [← hsame _ _ h1 h2]
    constructor
    · intro hc
      exact ⟨r1, hr1, hc ▸ hr2'⟩
    · rintro ⟨r, hu, hv⟩
      rw [RootOf.functional hr1 hu, RootOf.functional hr2' hv]
  simp only [mstStep, hea, heb]
  by_cases hrr : r1 = r2
  · simp only [ne_eq, hrr, not_true_eq_false, if_false]
    refine ⟨_, rfl, ⟨⟨h, hib⟩, ?_⟩, hlenb, rfl, Or.inr ⟨hconn.1 hrr, rfl, rfl, hnr⟩⟩
    intro u v hu hv
    simp only at hu hv ⊢
    rw [hlenb] at hu hv
    rw [hsameb, hsame u v hu hv, conn_cons_of_conn (hconn.1 hrr)]
  · simp only [ne_eq, hrr, not_false_eq_true, if_true]
    obtain ⟨rx, ry, dsc, hrx, hry, heu, hlenc, hinvc, _, hdiff⟩ :=
      unionSet_spec dsb h hib e.p1 e.p2 (by rw [hlenb]; exact h1) (by rw [hlenb]; exact h2)
    have hrx1 : rx = r1 := RootOf.functional ((hiff _ _).1 hrx) hr1
    have hry2 : ry = r2 := RootOf.functional ((hiff _ _).1 hry) hr2'
    have hne : rx ≠ ry := by rw [hrx1, hry2]; exact hrr
    obtain ⟨hnrc, a, b, hab, hiffc⟩ := hdiff hne
    rw [heu]
    refine ⟨_, rfl, ⟨hinvc, ?_⟩, by simp only; rw [hlenc, hlenb], rfl,
      Or.inl ⟨fun hc => hrr (hconn.2 hc), rfl, rfl, by simp only; rw [← hnr]; exact hnrc⟩⟩
    intro u v hu hv
    simp only at hu hv ⊢
    rw [hlenc, hlenb] at hu hv
    rw [same_after_union hrx hry hne hab hiffc u v, conn_cons_iff]
    rw [hsameb, hsameb, hsameb, hsameb, hsameb, hsame u v hu hv, hsame u e.p1 hu h1,
      hsame e.p2 v h2 hv, hsame u e.p2 hu h2, hsame e.p1 v h1 hv]

theorem set_first_false (pre : List Bool) (k : Nat) :
    (pre ++ List.replicate (k + 1) false).set pre.length true
      = (pre ++ [true]) ++ List.replicate k false := by
  induction pre with
  | nil => simp [List.replicate_succ]
  | cons b pre ih => simpa using ih

theorem skip_first_false (pre : List Bool) (k : Nat) :
    pre ++ List.replicate (k + 1) false = (pre ++ [false]) ++ List.replicate k false := by
  simp [List.replicate_succ]

/-- The loop of `findMST` on edges that are all in range returns, follows Kruskal's rule, adds
up the weights of the marked edges and records the marks at the positions of the edges. -/
theorem mstLoop_spec :
    ∀ (s : List EDGE) (st : MSTState) (done : List EDGE) (pre : List Bool) (k : Nat),
      Represents st.ds done →
      (∀ e ∈ s, e.p1 < st.ds.table.length ∧ e.p2 < st.ds.table.length) →
      st.mst_edge = pre ++ List.replicate k false → pre.length = st.index → s.length ≤ k →
      ∃ st1 bs, mstLoop s st = some st1 ∧ Greedy done s bs ∧
        st1.mst_weight = st.mst_weight + weightSum (selected s bs) ∧
        st1.mst_edge = pre ++ bs ++ List.replicate (k - s.length) false ∧
        numRoots st1.ds.table + (selected s bs).length = numRoots st.ds.table ∧
        st1.ds.table.length = st.ds.table.length := by
  intro s
  induction s with
  | nil =>
    intro st done pre k _ _ hmask _ _
    refine ⟨st, [], rfl, Greedy.nil done, ?_, ?_, ?_, rfl⟩
    · simp [selected, weightSum]
    · simpa using hmask
    · simp [selected]
  | cons e s ih =>
    intro st done pre k hrep hrange hmask hpre hk
    have he := hrange e (List.mem_cons_self _ _)
    obtain ⟨st1, hstep, hrep1, hlen1, hidx1, hcase⟩ := mstStep_spec st done e hrep he.1 he.2
    have hrange1 : ∀ f ∈ s, f.p1 < st1.ds.table.length ∧ f.p2 < st1.ds.table.length := by
      intro f hf
      rw [hlen1]
      exact hrange f (List.mem_cons_of_mem _ hf)
    obtain ⟨k1, rfl⟩ : ∃ k1, k = k1 + 1 := ⟨k - 1, by simp only [List.length_cons] at hk; omega⟩
    have hk1 : s.length ≤ k1 := by simp only [List.length_cons] at hk; omega
    have hsub : k1 + 1 - (e :: s).length = k1 - s.length := by
      simp only [List.length_cons]; omega
    simp only [mstLoop, hstep]
    rcases hcase with ⟨hne, hw, hm, hnr⟩ | ⟨hc, hw, hm, hnr⟩
    · have hmask1 : st1.mst_edge = (pre ++ [true]) ++ List.replicate k1 false := by
        rw [hm, hmask, ← hpre, set_first_false]
      obtain ⟨st2, bs, hloop, hg, hw2, hm2, hnr2, hlen2⟩ :=
        ih st1 (e :: done) (pre ++ [true]) k1 hrep1 hrange1 hmask1 (by simp [hidx1, hpre]) hk1
      refine ⟨st2, true :: bs, hloop, Greedy.take hne hg, ?_, ?_, ?_, by rw [hlen2, hlen1]⟩
      · rw [hw2, hw]
        simp only [selected, weightSum_cons]
        ring
      · rw [hm2, hsub]
        simp
      · simp only [selected, List.length_cons]
        omega
    · have hmask1 : st1.mst_edge = (pre ++ [false]) ++ List.replicate k1 false := by
        rw [hm, hmask, skip_first_false]
      obtain ⟨st2, bs, hloop, hg, hw2, hm2, hnr2, hlen2⟩ :=
        ih st1 (e :: done) (pre ++ [false]) k1 hrep1 hrange1 hmask1 (by simp [hidx1, hpre]) hk1
      refine ⟨st2, false :: bs, hloop, Greedy.skip hc hg, ?_, ?_, ?_, by rw [hlen2, hlen1]⟩
      · rw [hw2, hw]
        simp only [selected]
      · rw [hm2, hsub]
        simp
      · simp only [selected]
        omega

theorem rootOf_range (m : Nat) (u r : Nat) : RootOf (List.range m) u r ↔ u < m ∧ r = u := by
  constructor
  · intro h
    induction h with
    | @root x hx =>
      exact ⟨by simpa using (List.getElem?_eq_some_iff.1 hx).1, rfl⟩
    | @step x p r hp hne _ _ =>
      obtain ⟨hlt, hv⟩ := List.getElem?_eq_some_iff.1 hp
      rw [List.getElem_range] at hv
      exact absurd hv.symm hne
  · rintro ⟨hu, rfl⟩
    apply RootOf.root
    rw [List.getElem?_range hu]

theorem dsInv_makeSet (m : Nat) : DSInv (DisjointSet.makeSet m) (fun _ => 0) := by
  refine ⟨by simp [DisjointSet.makeSet], by simp [DisjointSet.makeSet], ?_, ?_⟩
  · intro x p hp
    simp only [DisjointSet.makeSet] at hp ⊢
    obtain ⟨hlt, hv⟩ := List.getElem?_eq_some_iff.1 hp
    rw [List.getElem_range] at hv
    rw [List.length_range] at hlt ⊢
    subst hv
    exact ⟨hlt, fun hne => absurd rfl hne⟩
  · intro x
    simp only [Nat.zero_add]
    exact numRoots_le _

theorem numRoots_range (m : Nat) : numRoots (List.range m) = m := by
  unfold numRoots
  rw [List.length_range]
  have : (List.range m).countP (fun i => (List.range m)[i]? == some i)
      = (List.range m).countP (fun _ => true) := by
    apply List.countP_congr
    intro i hi
    rw [List.mem_range] at hi
    simp [List.getElem?_range hi]
  rw [this]
  simp

theorem represents_makeSet (m : Nat) : Represents (DisjointSet.makeSet m) [] := by
  refine ⟨⟨_, dsInv_makeSet m⟩, ?_⟩
  intro u v hu hv
  simp only [DisjointSet.makeSet, List.length_range] at hu hv ⊢
  rw [conn_nil_iff]
  constructor
  · rintro ⟨r, h1, h2⟩
    rw [rootOf_range] at h1 h2
    rw [← h1.2, ← h2.2]
  · rintro rfl
    exact ⟨u, (rootOf_range m u u).2 ⟨hu, rfl⟩, (rootOf_range m u u).2 ⟨hu, rfl⟩⟩

theorem orderedInsert_perm {α : Type} (lt : α → α → Bool) (a : α) :
    ∀ l : List α, List.Perm (orderedInsert lt a l) (a :: l) := by
  intro l
  induction l with
  | nil => exact List.Perm.refl _
  | cons b l ih =>
    simp only [orderedInsert]
    split_ifs
    · exact List.Perm.refl _
    · exact (List.Perm.cons b ih).trans (List.Perm.swap a b l)

theorem stdSort_perm {α : Type} (lt : α → α → Bool) :
    ∀ l : List α, List.Perm (stdSort lt l) l := by
  intro l
  induction l with
  | nil => exact List.Perm.refl _
  | cons a l ih =>
    simp only [stdSort]
    exact (orderedInsert_perm lt a _).trans (List.Perm.cons a ih)

theorem orderedInsert_edges_sorted (e : EDGE) :
    ∀ l : List EDGE, l.Pairwise (fun a b => a.weight ≤ b.weight) →
      (orderedInsert edgeLess e l).Pairwise (fun a b => a.weight ≤ b.weight) := by
  intro l
  induction l with
  | nil => intro _; simp [orderedInsert]
  | cons f l ih =>
    intro hl
    obtain ⟨hf, hl'⟩ := List.pairwise_cons.1 hl
    simp only [orderedInsert]
    by_cases hlt : edgeLess e f = true
    · rw [if_pos hlt]
      have hef : e.weight < f.weight := by simpa [edgeLess] using hlt
      refine List.pairwise_cons.2 ⟨?_, hl⟩
      intro g hg
      rcases List.mem_cons.1 hg with rfl | hg
      · exact le_of_lt hef
      · exact le_trans (le_of_lt hef) (hf g hg)
    · rw [if_neg hlt]
      have hfe : f.weight ≤ e.weight := by
        have : ¬ e.weight < f.weight := by simpa [edgeLess] using hlt
        omega
      refine List.pairwise_cons.2 ⟨?_, ih hl'⟩
      intro g hg
      rcases List.mem_cons.1 ((orderedInsert_perm edgeLess e l).mem_iff.1 hg) with rfl | hg
      · exact hfe
      · exact hf g hg

theorem stdSort_edges_sorted :
    ∀ l : List EDGE, (stdSort edgeLess l).Pairwise (fun a b => a.weight ≤ b.weight) := by
  intro l
  induction l with
  | nil => simp [stdSort]
  | cons e l ih =>
    simp only [stdSort]
    exact orderedInsert_edges_sorted e _ ih

/-- On an edge sequence whose endpoints are all below the number of edges, the loop of
`findMST` returns: the weight is that of the marked edges and the marks follow Kruskal's
rule. -/
theorem kruskal_spec (s : List EDGE) (hrange : ∀ e ∈ s, e.p1 < s.length ∧ e.p2 < s.length) :
    ∃ bs, kruskal s = some (weightSum (selected s bs), bs) ∧ Greedy [] s bs := by
  have hlen : (mstInit s.length).ds.table.length = s.length := by
    simp [mstInit, DisjointSet.makeSet]
  obtain ⟨st1, bs, hloop, hg, hw, hm, _, _⟩ :=
    mstLoop_spec s (mstInit s.length) [] [] s.length (represents_makeSet s.length)
      (by rw [hlen]; exact hrange) (by simp [mstInit]) rfl (le_refl _)
  refine ⟨bs, ?_, hg⟩
  simp only [kruskal, hloop, Option.map_some']
  rw [hw, hm]
  simp [mstInit]

theorem checkRootAux_length :
    ∀ (fuel : Nat) (ds : DisjointSet) (x r : Nat) (ds1 : DisjointSet),
      DisjointSet.checkRootAux fuel ds x = some (r, ds1) →
      ds1.table.length = ds.table.length := by
  intro fuel
  induction fuel with
  | zero => intro ds x r ds1 h; simp [DisjointSet.checkRootAux] at h
  | succ fuel ih =>
    intro ds x r ds1 h
    simp only [DisjointSet.checkRootAux] at h
    cases hp : ds.table[x]? with
    | none => simp [hp] at h
    | some p =>
      simp only [hp] at h
      by_cases hpx : p = x
      · simp only [ne_eq, hpx, not_true_eq_false, if_false, Option.some.injEq,
          Prod.mk.injEq] at h
        rw [← h.2]
      · simp only [ne_eq, hpx, not_false_eq_true, if_true] at h
        cases hq : DisjointSet.checkRootAux fuel ds p with
        | none => simp [hq] at h
        | some res =>
          obtain ⟨r2, ds2⟩ := res
          simp only [hq, Option.some.injEq, Prod.mk.injEq] at h
          rw [← h.2]
          simp only [List.length_set]
          exact ih ds p r2 ds2 hq

/-- An edge with an endpoint outside the table stops the loop of `findMST`: the access is out
of range. -/
theorem mstStep_out_of_range (st : MSTState) (e : EDGE)
    (h : st.ds.table.length ≤ e.p1 ∨ st.ds.table.length ≤ e.p2) : mstStep st e = none := by
  simp only [mstStep]
  cases h1 : st.ds.checkRoot e.p1 with
  | none => rfl
  | some res =>
    obtain ⟨r1, ds1⟩ := res
    simp only
    have hlen := checkRootAux_length _ _ _ _ _ h1
    rcases h with h | h
    · rw [checkRoot_out_of_range st.ds e.p1 h] at h1
      exact absurd h1 (by simp)
    · rw [checkRoot_out_of_range ds1 e.p2 (by rw [hlen]; exact h)]

theorem mstLoop_out_of_range :
    ∀ (s : List EDGE) (st : MSTState) (done : List EDGE), Represents st.ds done →
      (∃ e ∈ s, st.ds.table.length ≤ e.p1 ∨ st.ds.table.length ≤ e.p2) →
      mstLoop s st = none := by
  intro s
  induction s with
  | nil => intro st done _ h; simp at h
  | cons e s ih =>
    intro st done hrep h
    simp only [mstLoop]
    by_cases he : st.ds.table.length ≤ e.p1 ∨ st.ds.table.length ≤ e.p2
    · rw [mstStep_out_of_range st e he]
    · obtain ⟨st1, hstep, hrep1, hlen1, _⟩ :=
        mstStep_spec st done e hrep (by omega) (by omega)
      rw [hstep]
      simp only
      apply ih st1 (e :: done) hrep1
      obtain ⟨f, hf, hbad⟩ := h
      rcases List.mem_cons.1 hf with rfl | hf
      · exact absurd hbad he
      · exact ⟨f, hf, by rw [hlen1]; exact hbad⟩

theorem kruskal_out_of_range (s : List EDGE)
    (h : ∃ e ∈ s, s.length ≤ e.p1 ∨ s.length ≤ e.p2) : kruskal s = none := by
  have hlen : (mstInit s.length).ds.table.length = s.length := by
    simp [mstInit, DisjointSet.makeSet]
  have := mstLoop_out_of_range s (mstInit s.length) [] (represents_makeSet s.length)
    (by rw [hlen]; exact h)
  simp [kruskal, this]

/-- The edges Kruskal's rule marks, starting from nothing, form a forest that connects what
the whole edge sequence connects. -/
theorem greedy_forest (N : Nat) {s : List EDGE} {bs : List Bool} (hg : Greedy [] s bs)
    (hs : ∀ e ∈ s, e.p1 < N ∧ e.p2 < N) :
    Acyclic (selected s bs) ∧ (∀ x y, Conn (selected s bs) x y ↔ Conn s x y) ∧
      (selected s bs).length = (nonLeast N (Conn s)).ncard := by
  have hconn : ∀ x y, Conn (selected s bs) x y ↔ Conn s x y := by
    intro x y
    have := greedy_conn hg x y
    simpa using this
  have hcount : (selected s bs).length = (nonLeast N (Conn s)).ncard := by
    have := greedy_count N hg hs
    rw [List.append_nil, nonLeast_nil] at this
    omega
  refine ⟨?_, hconn, hcount⟩
  apply acyclic_of_length_eq N
  · intro e he
    exact hs e ((selected_sublist s bs).subset he)
  · rw [hcount]
    exact nonLeast_ncard_congr N fun x y _ _ => (hconn x y).symm

theorem nonLeast_add_leastOnes (N : Nat) (R : Nat → Nat → Prop) :
    (nonLeast N R).ncard + (leastOnes N R).ncard = N := by
  classical
  have hfin : (leastOnes N R).Finite := (Set.finite_lt_nat N).subset fun _ hx => hx.1
  have hdisj : Disjoint (nonLeast N R) (leastOnes N R) := by
    rw [Set.disjoint_left]
    rintro x ⟨_, y, hy, hr⟩ ⟨_, hl⟩
    exact hl y hy hr
  have hunion : nonLeast N R ∪ leastOnes N R = ↑(Finset.range N) := by
    ext x
    simp only [Set.mem_union, Finset.coe_range, Set.mem_Iio]
    constructor
    · rintro (h | h)
      · exact h.1
      · exact h.1
    · intro hx
      by_cases hc : ∃ y, y < x ∧ R y x
      · exact Or.inl ⟨hx, hc⟩
      · refine Or.inr ⟨hx, fun y hy hr => hc ⟨y, hy, hr⟩⟩
  rw [← Set.ncard_union_eq hdisj (nonLeast_finite N R) hfin, hunion, Set.ncard_coe_Finset,
    Finset.card_range]

/-- Any set with one point of every component is as large as the set of least points. -/
theorem transversal_card (n : Nat) (es : List EDGE) (reps : Finset Nat)
    (h : IsTransversal n es reps) : reps.card = (leastOnes n (Conn es)).ncard := by
  obtain ⟨hlt, huniq⟩ := h
  choose f hf using exists_least_conn es
  rw [← Set.ncard_coe_Finset reps]
  refine Set.ncard_congr (fun r _ => f r) ?_ ?_ ?_
  · intro r hr
    show f r ∈ leastOnes n (Conn es)
    have hr' : r < n := hlt r (Finset.mem_coe.1 hr)
    refine ⟨lt_of_le_of_lt ((hf r).2 r (Conn.refl _ _)) hr', ?_⟩
    intro y hy hc
    have := (hf r).2 y (hc.trans (hf r).1)
    omega
  · intro r r1 hr hr1 heq
    have heq : f r = f r1 := heq
    have hconn : Conn es r r1 := by
      have h1 := (hf r).1
      rw [heq] at h1
      exact h1.symm.trans (hf r1).1
    obtain ⟨r0, _, hu⟩ := huniq r (hlt r (Finset.mem_coe.1 hr))
    have e1 := hu r ⟨Finset.mem_coe.1 hr, Conn.refl _ _⟩
    have e2 := hu r1 ⟨Finset.mem_coe.1 hr1, hconn⟩
    rw [e1, e2]
  · rintro x ⟨hx, hleast⟩
    obtain ⟨r, ⟨hr, hxr⟩, _⟩ := huniq x hx
    refine ⟨r, Finset.mem_coe.2 hr, ?_⟩
    show f r = x
    have hle := (hf r).2 x hxr
    rcases Nat.lt_or_ge (f r) x with hlt2 | hge
    · exact absurd ((hf r).1.trans hxr.symm) (hleast _ hlt2)
    · exact le_antisymm hle hge

theorem findMST_eq_kruskal (es : List EDGE) : findMST es = kruskal (stdSort edgeLess es) := rfl

/-- The complete graph on the square connects its four points. -/
theorem square_connected (x y : Nat) (hx : x < 4) (hy : y < 4) :
    Conn (buildCompleteGraph squarePts []) x y := by
  have h01 : Conn (buildCompleteGraph squarePts []) 0 1 :=
    Conn.of_mem (e := ⟨0, 1, 3⟩) (by decide)
  have h02 : Conn (buildCompleteGraph squarePts []) 0 2 :=
    Conn.of_mem (e := ⟨0, 2, 3⟩) (by decide)
  have h03 : Conn (buildCompleteGraph squarePts []) 0 3 :=
    Conn.of_mem (e := ⟨0, 3, 6⟩) (by decide)
  have h0 : ∀ z, z < 4 → Conn (buildCompleteGraph squarePts []) 0 z := by
    intro z hz
    interval_cases z
    · exact Conn.refl _ _
    · exact h01
    · exact h02
    · exact h03
  exact (h0 x hx).symm.trans (h0 y hy)

theorem square_mst : findMST (buildCompleteGraph squarePts []) =
    some (9, [true, true, true, false, false, false]) := by
  decide

/-- C2: on an edge list that connects the points `0 .. n-1` and whose endpoints are all
below the number of edges (so that every disjoint-set access of `findMST` is in range),
`findMST` returns; the edges it marks form a spanning tree whose weight is the returned
value, and no spanning tree of the graph weighs less.  For the complete graph on the square
`(0,0), (0,3), (3,0), (3,3)` the value is `9`. -/
theorem findMST_minimum (n : Nat) (es : List EDGE)
    (hpts : ∀ e ∈ es, e.p1 < n ∧ e.p2 < n)
    (hconn : ∀ x y, x < n → y < n → Conn es x y)
    (hrange : ∀ e ∈ es, e.p1 < es.length ∧ e.p2 < es.length) :
    (∃ w mask, findMST es = some (w, mask) ∧
      IsSpanningTree n es (selected (stdSort edgeLess es) mask) ∧
      w = weightSum (selected (stdSort edgeLess es) mask) ∧
      ∀ T, IsSpanningTree n es T → w ≤ weightSum T) ∧
    (findMST (buildCompleteGraph squarePts [])).map Prod.fst = some 9 := by
  refine ⟨?_, by rw [square_mst]; rfl⟩
  have hperm := stdSort_perm edgeLess es
  have hsorted := stdSort_edges_sorted es
  have hrange' : ∀ e ∈ stdSort edgeLess es,
      e.p1 < (stdSort edgeLess es).length ∧ e.p2 < (stdSort edgeLess es).length := by
    intro e he
    rw [hperm.length_eq]
    exact hrange e (hperm.mem_iff.1 he)
  have hpts' : ∀ e ∈ stdSort edgeLess es, e.p1 < n ∧ e.p2 < n :=
    fun e he => hpts e (hperm.mem_iff.1 he)
  obtain ⟨bs, hk, hg⟩ := kruskal_spec _ hrange'
  obtain ⟨hac, hc, _⟩ := greedy_forest n hg hpts'
  have hcs : ∀ x y, Conn (stdSort edgeLess es) x y ↔ Conn es x y :=
    conn_congr fun e => hperm.mem_iff
  refine ⟨_, bs, hk, ⟨(selected_sublist _ bs).subperm.trans hperm.subperm, hac, ?_⟩, rfl, ?_⟩
  · intro x y hx hy
    exact (hc x y).2 ((hcs x y).2 (hconn x y hx hy))
  · intro T hT
    exact greedy_optimal n hg hsorted hpts' T (hT.1.trans hperm.symm.subperm) hT.2.1
      (fun x y hx hy _ => hT.2.2 x y hx hy)

theorem findMST_minimum_witness :
    (∀ x y, x < 4 → y < 4 → Conn (buildCompleteGraph squarePts []) x y) ∧
    ((∃ w mask, findMST (buildCompleteGraph squarePts []) = some (w, mask) ∧
      IsSpanningTree 4 (buildCompleteGraph squarePts [])
        (selected (stdSort edgeLess (buildCompleteGraph squarePts [])) mask) ∧
      w = weightSum (selected (stdSort edgeLess (buildCompleteGraph squarePts [])) mask) ∧
      ∀ T, IsSpanningTree 4 (buildCompleteGraph squarePts []) T → w ≤ weightSum T) ∧
    (findMST (buildCompleteGraph squarePts [])).map Prod.fst = some 9) :=
  ⟨square_connected,
    findMST_minimum 4 (buildCompleteGraph squarePts []) (by decide) square_connected
      (by decide)⟩

/-- C5: on an edge list over the points `0 .. pointCount-1` whose endpoints are all below
the number of edges (so that every disjoint-set access of `findMST` is in range), `findMST`
returns a mask with one entry per edge, and the number of entries it set to `true` plus the
number of connected components of the graph is `pointCount`. -/
theorem findMST_selected_count (pointCount : Nat) (es : List EDGE)
    (hpts : ∀ e ∈ es, e.p1 < pointCount ∧ e.p2 < pointCount)
    (hrange : ∀ e ∈ es, e.p1 < es.length ∧ e.p2 < es.length) :
    ∃ w mask, findMST es = some (w, mask) ∧ mask.length = es.length ∧
      ∀ reps : Finset Nat, IsTransversal pointCount es reps →
        mask.count true + reps.card = pointCount := by
  have hperm := stdSort_perm edgeLess es
  have hrange' : ∀ e ∈ stdSort edgeLess es,
      e.p1 < (stdSort edgeLess es).length ∧ e.p2 < (stdSort edgeLess es).length := by
    intro e he
    rw [hperm.length_eq]
    exact hrange e (hperm.mem_iff.1 he)
  have hpts' : ∀ e ∈ stdSort edgeLess es, e.p1 < pointCount ∧ e.p2 < pointCount :=
    fun e he => hpts e (hperm.mem_iff.1 he)
  obtain ⟨bs, hk, hg⟩ := kruskal_spec _ hrange'
  obtain ⟨_, _, hcount⟩ := greedy_forest pointCount hg hpts'
  refine ⟨_, bs, hk, by rw [greedy_length hg, hperm.length_eq], ?_⟩
  intro reps hreps
  rw [← selected_length_eq_count hg, hcount, transversal_card pointCount es reps hreps,
    nonLeast_conn_congr pointCount (fun e => hperm.mem_iff)]
  exact nonLeast_add_leastOnes pointCount (Conn es)

theorem DBL_MAX_gt_one : (1 : ℚ) < DBL_MAX := by
  unfold DBL_MAX
  norm_num

theorem DBL_MIN_pos : (0 : ℚ) < DBL_MIN := by
  unfold DBL_MIN
  positivity

theorem slope_cases (init : ℚ) (a b : Coor) (c : ℚ) (hx : a.x ≠ b.x) :
    (slopeOf init a b > c ↔
      (0 < b.x - a.x ∧ c * ((b.x - a.x : Int) : ℚ) < ((b.y - a.y : Int) : ℚ)) ∨
      (b.x - a.x < 0 ∧ ((b.y - a.y : Int) : ℚ) < c * ((b.x - a.x : Int) : ℚ))) ∧
    (slopeOf init a b ≤ c ↔
      (0 < b.x - a.x ∧ ((b.y - a.y : Int) : ℚ) ≤ c * ((b.x - a.x : Int) : ℚ)) ∨
      (b.x - a.x < 0 ∧ c * ((b.x - a.x : Int) : ℚ) ≤ ((b.y - a.y : Int) : ℚ))) := by
  unfold slopeOf
  rw [if_pos hx]
  have hne : b.x - a.x ≠ 0 := fun h => hx (by omega)
  rcases lt_or_gt_of_ne hne with hneg | hpos
  · have hq : (((b.x - a.x : Int)) : ℚ) < 0 := by exact_mod_cast hneg
    constructor
    · rw [gt_iff_lt, lt_div_iff_of_neg hq]
      constructor
      · intro h; exact Or.inr ⟨hneg, h⟩
      · rintro (⟨h, _⟩ | ⟨_, h⟩)
        · omega
        · exact h
    · rw [div_le_iff_of_neg hq]
      constructor
      · intro h; exact Or.inr ⟨hneg, h⟩
      · rintro (⟨h, _⟩ | ⟨_, h⟩)
        · omega
        · exact h
  · have hpos : 0 < b.x - a.x := hpos
    have hq : (0 : ℚ) < (((b.x - a.x : Int)) : ℚ) := by exact_mod_cast hpos
    constructor
    · rw [gt_iff_lt, lt_div_iff₀ hq]
      constructor
      · intro h; exact Or.inl ⟨hpos, h⟩
      · rintro (⟨_, h⟩ | ⟨h, _⟩)
        · exact h
        · omega
    · rw [div_le_iff₀ hq]
      constructor
      · intro h; exact Or.inl ⟨hpos, h⟩
      · rintro (⟨_, h⟩ | ⟨h, _⟩)
        · exact h
        · omega

theorem R1_inside (a b : Coor) : R1.inside a b = insideInt 1 a b := by
  by_cases hx : a.x = b.x
  · simp [R1, insideInt, slopeOf, hx, DBL_MAX_gt_one]
  · have h := (slope_cases DBL_MAX a b 1 hx).1
    rw [Bool.eq_iff_iff]
    simp only [R1, insideInt, decide_eq_true_eq, h, ne_eq, hx, not_false_eq_true, if_true,
      Bool.or_eq_true, Bool.and_eq_true, one_mul]
    norm_cast

theorem R2_inside (a b : Coor) : R2.inside a b = insideInt 2 a b := by
  by_cases hx : a.x = b.x
  · have := DBL_MAX_gt_one
    have h2 : ¬ DBL_MAX ≤ 1 := not_le.2 this
    simp [R2, insideInt, slopeOf, hx, h2]
  · have h0 := (slope_cases DBL_MAX a b 0 hx).1
    have h1 := (slope_cases DBL_MAX a b 1 hx).2
    rw [Bool.eq_iff_iff]
    simp only [R2, insideInt, decide_eq_true_eq, h0, h1, ne_eq, hx, not_false_eq_true,
      if_true, Bool.or_eq_true, Bool.and_eq_true, one_mul, zero_mul]
    norm_cast
    constructor
    · rintro ⟨(⟨p, q⟩ | ⟨p, q⟩), (⟨r, t⟩ | ⟨r, t⟩)⟩
      · exact Or.inl ⟨⟨p, q⟩, t⟩
      · omega
      · omega
      · exact Or.inr ⟨⟨p, q⟩, t⟩
    · rintro (⟨⟨p, q⟩, t⟩ | ⟨⟨p, q⟩, t⟩)
      · exact ⟨Or.inl ⟨p, q⟩, Or.inl ⟨p, t⟩⟩
      · exact ⟨Or.inr ⟨p, q⟩, Or.inr ⟨p, t⟩⟩

theorem R3_inside (a b : Coor) : R3.inside a b = insideInt 3 a b := by
  by_cases hx : a.x = b.x
  · have h2 : ¬ DBL_MIN ≤ 0 := not_le.2 DBL_MIN_pos
    simp [R3, insideInt, slopeOf, hx, h2]
  · have h0 := (slope_cases DBL_MIN a b 0 hx).2
    have h1 := (slope_cases DBL_MIN a b (-1) hx).1
    rw [Bool.eq_iff_iff]
    simp only [R3, insideInt, decide_eq_true_eq, h0, h1, ne_eq, hx, not_false_eq_true,
      if_true, Bool.or_eq_true, Bool.and_eq_true, neg_mul, one_mul, zero_mul]
    norm_cast
    constructor
    · rintro ⟨(⟨p, q⟩ | ⟨p, q⟩), (⟨r, t⟩ | ⟨r, t⟩)⟩
      · exact Or.inl ⟨⟨p, q⟩, t⟩
      · omega
      · omega
      · exact Or.inr ⟨⟨p, q⟩, t⟩
    · rintro (⟨⟨p, q⟩, t⟩ | ⟨⟨p, q⟩, t⟩)
      · exact ⟨Or.inl ⟨p, q⟩, Or.inl ⟨p, t⟩⟩
      · exact ⟨Or.inr ⟨p, q⟩, Or.inr ⟨p, t⟩⟩

theorem R4_inside (a b : Coor) : R4.inside a b = insideInt 4 a b := by
  by_cases hx : a.x = b.x
  · have h1 : ¬ DBL_MIN ≤ -1 := by
      have := DBL_MIN_pos
      intro hc
      linarith
    simp [R4, insideInt, slopeOf, hx, h1]
  · have h := (slope_cases DBL_MIN a b (-1) hx).2
    rw [Bool.eq_iff_iff]
    simp only [R4, insideInt, decide_eq_true_eq, h, ne_eq, hx, not_false_eq_true, if_true,
      Bool.or_eq_true, Bool.and_eq_true, neg_mul, one_mul]
    norm_cast

theorem R1_eq : R1 = R1int := by
  unfold R1 R1int
  congr
  funext a b
  exact R1_inside a b

theorem R2_eq : R2 = R2int := by
  unfold R2 R2int
  congr
  funext a b
  exact R2_inside a b

theorem R3_eq : R3 = R3int := by
  unfold R3 R3int
  congr
  funext a b
  exact R3_inside a b

theorem R4_eq : R4 = R4int := by
  unfold R4 R4int
  congr
  funext a b
  exact R4_inside a b

/-- On the twenty-six collinear points the sweep emits the chain of twenty-five unit edges,
all of them in region R3. -/
theorem line26_rsg : buildRSG line26 [] = some chain25 := by
  unfold buildRSG sweepRSG sweepWith
  rw [R1_eq, R2_eq, R3_eq, R4_eq]
  decide!

theorem line26_mst_undefined : findMST chain25 = none := by
  decide!

/-! ## Trees -/

/-- A point connected to a different point is an endpoint of some edge. -/
theorem conn_endpoint {F : List EDGE} {x y : Nat} (h : Conn F x y) :
    x = y ∨ ((∃ e ∈ F, e.p1 = x ∨ e.p2 = x) ∧ ∃ e ∈ F, e.p1 = y ∨ e.p2 = y) := by
  induction h with
  | rel a b hab =>
    obtain ⟨e, he, h1, h2⟩ := hab
    exact Or.inr ⟨⟨e, he, Or.inl h1⟩, ⟨e, he, Or.inr h2⟩⟩
  | refl a => exact Or.inl rfl
  | symm a b _ ih =>
    rcases ih with h | ⟨h1, h2⟩
    · exact Or.inl h.symm
    · exact Or.inr ⟨h2, h1⟩
  | trans a b c _ _ ih1 ih2 =>
    rcases ih1 with h | ⟨h1, h2⟩
    · subst h; exact ih2
    · rcases ih2 with k | ⟨k1, k2⟩
      · subst k; exact Or.inr ⟨h1, h2⟩
      · exact Or.inr ⟨h1, k2⟩

/-- A tree on the points `0 .. n-1` has `n - 1` edges. -/
theorem tree_length (n : Nat) (es : List EDGE) (hn : 1 ≤ n)
    (hpts : ∀ e ∈ es, e.p1 < n ∧ e.p2 < n) (hac : Acyclic es)
    (hconn : ∀ x y, x < n → y < n → Conn es x y) : es.length + 1 = n := by
  have hlen := forestL_length n es (forestL_of_acyclic hac es (List.Subperm.refl _)) hpts
  have hsum := nonLeast_add_leastOnes n (Conn es)
  have hone : (leastOnes n (Conn es)).ncard = 1 := by
    have : leastOnes n (Conn es) = {0} := by
      ext x
      simp only [leastOnes, Set.mem_setOf_eq, Set.mem_singleton_iff]
      constructor
      · rintro ⟨hx, hl⟩
        by_contra hx0
        exact hl 0 (by omega) (hconn 0 x (by omega) hx)
      · rintro rfl
        exact ⟨by omega, fun y hy => by omega⟩
    rw [this, Set.ncard_singleton]
  omega

/-- On every tree with at least two points the run of `findMST` is undefined: the tree has
one edge less than points, and its last point is an endpoint outside the disjoint set. -/
theorem findMST_undefined_on_trees (n : Nat) (es : List EDGE) (hn : 2 ≤ n)
    (hpts : ∀ e ∈ es, e.p1 < n ∧ e.p2 < n) (htree : IsSpanningTree n es es) :
    findMST es = none := by
  have hlen := tree_length n es (by omega) hpts htree.2.1 htree.2.2
  have hperm := stdSort_perm edgeLess es
  rw [findMST_eq_kruskal]
  apply kruskal_out_of_range
  rw [hperm.length_eq]
  rcases conn_endpoint (htree.2.2 (n - 1) 0 (by omega) (by omega)) with h | ⟨⟨e, he, h⟩, _⟩
  · omega
  · exact ⟨e, hperm.mem_iff.2 he, by omega⟩

/-! ## Failing inputs and sample runs -/

theorem complete_in_range (pts : List Coor) (h3 : 3 ≤ pts.length) :
    ∀ e ∈ buildCompleteGraph pts [],
      e.p1 < (buildCompleteGraph pts []).length ∧ e.p2 < (buildCompleteGraph pts []).length := by
  intro e he
  rw [buildCompleteGraph_eq, List.nil_append] at he ⊢
  rw [allPairs_length]
  obtain ⟨i, j, hij, hj, rfl⟩ := (mem_allPairs pts e).1 he
  have hlen : pts.length ≤ pts.length * (pts.length - 1) / 2 := by
    rw [Nat.le_div_iff_mul_le (by norm_num)]
    obtain ⟨k, hk⟩ : ∃ k, pts.length = k + 3 := ⟨pts.length - 3, by omega⟩
    rw [hk]
    have : k + 3 - 1 = k + 2 := by omega
    rw [this]
    nlinarith
  simp only [pairEdge]
  omega

/-- With three points or more, `findMST` returns on the complete graph. -/
theorem findMST_complete_defined (pts : List Coor) (h3 : 3 ≤ pts.length) :
    findMST (buildCompleteGraph pts []) ≠ none := by
  have hperm := stdSort_perm edgeLess (buildCompleteGraph pts [])
  obtain ⟨bs, hk, _⟩ := kruskal_spec (stdSort edgeLess (buildCompleteGraph pts [])) (by
    intro e he
    rw [hperm.length_eq]
    exact complete_in_range pts h3 e (hperm.mem_iff.1 he))
  rw [findMST_eq_kruskal, hk]
  exact Option.some_ne_none _

/-- C1, at the failing input: on the twenty-six collinear points `(0,0), ..., (25,0)`,
`buildRSG` produces the chain of twenty-five edges; `findMST` on that list allocates the
disjoint set with twenty-five slots and the endpoint `25` is outside it, so the run is
undefined, whereas `findMST` on the complete graph of the same points returns. -/
theorem rsg_pipeline_line26 :
    buildRSG line26 [] = some chain25 ∧
    chain25.length = 25 ∧ (⟨25, 24, 1⟩ : EDGE) ∈ chain25 ∧
    (mstInit chain25.length).ds.table.length = 25 ∧
    findMST chain25 = none ∧
    findMST (buildCompleteGraph line26 []) ≠ none :=
  ⟨line26_rsg, by decide, by decide, by decide, line26_mst_undefined,
    findMST_complete_defined line26 (by decide)⟩

/-- C3, at the failing input: for the single edge `(0, 1)` — two points, both identifiers in
`[0, 2)` — `findMST` builds its disjoint set with one slot (one per edge, not one per point),
`checkRoot(1)` is out of range and the run is undefined. -/
theorem findMST_one_edge_out_of_range :
    (mstInit oneEdge.length).ds.table.length = 1 ∧
    (mstInit oneEdge.length).ds.rank.length = 1 ∧
    (mstInit oneEdge.length).ds.checkRoot 1 = none ∧
    findMST oneEdge = none := by
  decide

theorem path3_acyclic : Acyclic path3 := by
  apply acyclic_of_length_eq 3
  · decide
  · have h1 : ¬ Conn [] (⟨1, 2, 3⟩ : EDGE).p1 (⟨1, 2, 3⟩ : EDGE).p2 := by
      rw [conn_nil_iff]; decide
    have h2 : ¬ Conn [(⟨1, 2, 3⟩ : EDGE)] (⟨0, 1, 2⟩ : EDGE).p1 (⟨0, 1, 2⟩ : EDGE).p2 := by
      rw [conn_cons_iff]
      simp only [conn_nil_iff]
      decide
    unfold path3
    rw [nonLeast_cons_bridge 3 _ _ (by decide) (by decide) h2,
      nonLeast_cons_bridge 3 _ _ (by decide) (by decide) h1, nonLeast_nil]
    rfl

theorem path3_connected (x y : Nat) (hx : x < 3) (hy : y < 3) : Conn path3 x y := by
  have h01 : Conn path3 0 1 := Conn.of_mem (e := ⟨0, 1, 2⟩) (by decide)
  have h12 : Conn path3 1 2 := Conn.of_mem (e := ⟨1, 2, 3⟩) (by decide)
  have h0 : ∀ z, z < 3 → Conn path3 0 z := by
    intro z hz
    interval_cases z
    · exact Conn.refl _ _
    · exact h01
    · exact h01.trans h12
  exact (h0 x hx).symm.trans (h0 y hy)

/-- C4, at the failing input: the path `0 - 1 - 2` is a tree on three points with endpoints
in `[0, 3)`, yet `findMST` allocates two slots (one per edge), the endpoint `2` is out of
range and the run is undefined: no edge is marked and no sum returned. -/
theorem findMST_tree_out_of_range :
    IsSpanningTree 3 path3 path3 ∧ (∀ e ∈ path3, e.p1 < 3 ∧ e.p2 < 3) ∧
    (mstInit path3.length).ds.table.length = 2 ∧
    findMST path3 = none :=
  ⟨⟨List.Subperm.refl _, path3_acyclic, path3_connected⟩, by decide, by decide, by decide⟩

theorem threeParts_transversal : IsTransversal 5 threeParts {0, 2, 4} := by
  have h01 : Conn threeParts 0 1 := Conn.of_mem (e := ⟨0, 1, 1⟩) (by decide)
  have h23 : Conn threeParts 2 3 := Conn.of_mem (e := ⟨2, 3, 1⟩) (by decide)
  -- the parity-free invariant separating the components: the component index
  have hinv : ∀ x y, Conn threeParts x y → x / 2 = y / 2 ∨ (5 ≤ x ∧ x = y) := by
    intro x y h
    induction h with
    | rel a b hab =>
      obtain ⟨e, he, rfl, rfl⟩ := hab
      simp only [threeParts, List.mem_cons, List.mem_singleton, List.not_mem_nil,
        or_false] at he
      rcases he with rfl | rfl | rfl | rfl <;> simp
    | refl a => exact Or.inl rfl
    | symm a b _ ih => omega
    | trans a b c _ _ ih1 ih2 => omega
  refine ⟨by decide, ?_⟩
  intro x hx
  interval_cases x
  · refine ⟨0, ⟨by decide, Conn.refl _ _⟩, ?_⟩
    rintro r ⟨hr, hc⟩
    have := hinv _ _ hc
    simp only [Finset.mem_insert, Finset.mem_singleton] at hr
    omega
  · refine ⟨0, ⟨by decide, h01.symm⟩, ?_⟩
    rintro r ⟨hr, hc⟩
    have := hinv _ _ hc
    simp only [Finset.mem_insert, Finset.mem_singleton] at hr
    omega
  · refine ⟨2, ⟨by decide, Conn.refl _ _⟩, ?_⟩
    rintro r ⟨hr, hc⟩
    have := hinv _ _ hc
    simp only [Finset.mem_insert, Finset.mem_singleton] at hr
    omega
  · refine ⟨2, ⟨by decide, h23.symm⟩, ?_⟩
    rintro r ⟨hr, hc⟩
    have := hinv _ _ hc
    simp only [Finset.mem_insert, Finset.mem_singleton] at hr
    omega
  · refine ⟨4, ⟨by decide, Conn.refl _ _⟩, ?_⟩
    rintro r ⟨hr, hc⟩
    have := hinv _ _ hc
    simp only [Finset.mem_insert, Finset.mem_singleton] at hr
    omega

theorem findMST_selected_count_witness :
    (∀ e ∈ threeParts, e.p1 < 5 ∧ e.p2 < 5) ∧
    (∀ e ∈ threeParts, e.p1 < threeParts.length ∧ e.p2 < threeParts.length) ∧
    IsTransversal 5 threeParts {0, 2, 4} ∧
    findMST threeParts = some (2, [true, true, false, false]) ∧
    ∃ w mask, findMST threeParts = some (w, mask) ∧ mask.length = threeParts.length ∧
      ∀ reps : Finset Nat, IsTransversal 5 threeParts reps →
        mask.count true + reps.card = 5 :=
  ⟨by decide, by decide, threeParts_transversal, by decide,
    findMST_selected_count 5 threeParts (by decide) (by decide)⟩

section BSTProofs2

variable {α : Type} (cmp : α → α → Bool)

theorem BSTNode.queryTreeMinG_spec
    (hirr : ∀ a, cmp a a = false)
    (htrans : ∀ a b c, cmp a b = true → cmp b c = true → cmp a c = true)
    (data : α) (t : BSTNode α) (h : BSTNode.Ordered cmp t) :
    (∀ r, BSTNode.queryTreeMinG cmp data t = some r →
      r ∈ t.toList ∧ cmp data r = true ∧
        ∀ s ∈ t.toList, cmp data s = true → s = r ∨ cmp r s = true) ∧
    (BSTNode.queryTreeMinG cmp data t = none ↔ ∀ s ∈ t.toList, cmp data s = false) := by
  induction t with
  | nil => simp [BSTNode.queryTreeMinG, BSTNode.toList]
  | node lc d rc ihl ihr =>
    obtain ⟨hl, hr, hlk, hrk⟩ := h
    have ihl := ihl hl
    have ihr := ihr hr
    simp only [BSTNode.queryTreeMinG]
    by_cases hlt : cmp data d = true
    · rw [if_pos hlt]
      cases hq : BSTNode.queryTreeMinG cmp data lc with
      | none =>
        have hnone := ihl.2.1 hq
        constructor
        · intro r hr'
          simp only [Option.some.injEq] at hr'
          subst hr'
          refine ⟨by simp [BSTNode.toList], hlt, ?_⟩
          intro s hs hsd
          simp only [BSTNode.toList, List.mem_append, List.mem_cons] at hs
          rcases hs with hs | hs | hs
          · rw [hnone s hs] at hsd
            exact absurd hsd (by simp)
          · exact Or.inl hs
          · exact Or.inr (hrk s hs)
        · constructor
          · intro hc
            simp at hc
          · intro hall
            have := hall d (by simp [BSTNode.toList])
            rw [hlt] at this
            exact absurd this (by simp)
      | some r1 =>
        obtain ⟨hmem, hgt, hmin⟩ := ihl.1 r1 hq
        have hrd : cmp r1 d = true := hlk r1 hmem
        have hdr : ¬ cmp d r1 = true := by
          intro hc
          have := htrans _ _ _ hc hrd
          rw [hirr d] at this
          exact absurd this (by simp)
        simp only [if_neg hdr]
        constructor
        · intro r hr'
          simp only [Option.some.injEq] at hr'
          subst hr'
          refine ⟨by simp [BSTNode.toList, hmem], hgt, ?_⟩
          intro s hs hsd
          simp only [BSTNode.toList, List.mem_append, List.mem_cons] at hs
          rcases hs with hs | hs | hs
          · exact hmin s hs hsd
          · subst hs
            exact Or.inr hrd
          · exact Or.inr (htrans _ _ _ hrd (hrk s hs))
        · constructor
          · intro hc
            simp at hc
          · intro hall
            have := hall d (by simp [BSTNode.toList])
            rw [hlt] at this
            exact absurd this (by simp)
    · rw [if_neg hlt]
      have hrest : ∀ s, s = d ∨ s ∈ lc.toList → cmp data s = false := by
        intro s hs
        rcases hs with rfl | hs
        · simpa using hlt
        · by_contra hc
          have hc : cmp data s = true := by simpa using hc
          exact hlt (htrans _ _ _ hc (hlk s hs))
      constructor
      · intro r hr'
        obtain ⟨hmem, hgt, hmin⟩ := ihr.1 r hr'
        refine ⟨by simp [BSTNode.toList, hmem], hgt, ?_⟩
        intro s hs hsd
        simp only [BSTNode.toList, List.mem_append, List.mem_cons] at hs
        rcases hs with hs | hs | hs
        · rw [hrest s (Or.inr hs)] at hsd
          exact absurd hsd (by simp)
        · rw [hrest s (Or.inl hs)] at hsd
          exact absurd hsd (by simp)
        · exact hmin s hs hsd
      · rw [ihr.2]
        constructor
        · intro hall s hs
          simp only [BSTNode.toList, List.mem_append, List.mem_cons] at hs
          rcases hs with hs | hs | hs
          · exact hrest s (Or.inr hs)
          · exact hrest s (Or.inl hs)
          · exact hall s hs
        · intro hall s hs
          exact hall s (by simp [BSTNode.toList, hs])

/-- C11: on a tree with the search-tree invariant, under an irreflexive and transitive
comparator, `queryMinG(k)` returns a stored key that is strictly greater than `k` and that is
strictly less than every other stored key strictly greater than `k`; it returns "not found"
exactly when no stored key is strictly greater than `k`.  A returned key `r` has `cmp k r`, so
it is never `k` itself nor a key before `k`. -/
theorem BST.queryMinG_spec (t : BST α)
    (hirr : ∀ a, t.cmp a a = false)
    (htrans : ∀ a b c, t.cmp a b = true → t.cmp b c = true → t.cmp a c = true)
    (hord : BSTNode.Ordered t.cmp t.root) (k : α) :
    (∀ r, t.queryMinG k = some r →
      r ∈ t.root.toList ∧ t.cmp k r = true ∧ t.cmp r k = false ∧
        ∀ s ∈ t.root.toList, t.cmp k s = true → s = r ∨ t.cmp r s = true) ∧
    (t.queryMinG k = none ↔ ∀ s ∈ t.root.toList, t.cmp k s = false) := by
  have h := BSTNode.queryTreeMinG_spec t.cmp hirr htrans k t.root hord
  refine ⟨?_, h.2⟩
  intro r hr
  obtain ⟨h1, h2, h3⟩ := h.1 r hr
  refine ⟨h1, h2, ?_, h3⟩
  by_contra hc
  have hc : t.cmp r k = true := by simpa using hc
  have := htrans _ _ _ h2 hc
  rw [hirr k] at this
  exact absurd this (by simp)

theorem notEquivalent_iff (k x : α) : notEquivalent cmp k x = true ↔ ¬ Equivalent cmp x k := by
  unfold notEquivalent Equivalent
  cases cmp x k <;> cases cmp k x <;> simp

/-- In the found case of `eraseFromTree` every one of the five shapes leaves the keys of the
left subtree followed by the keys of the right subtree. -/
theorem BSTNode.toList_eraseFromTree_found (data d : α) (lc rc : BSTNode α)
    (h1 : cmp data d = false) (h2 : cmp d data = false) :
    (BSTNode.eraseFromTree cmp data (BSTNode.node lc d rc)).toList
      = lc.toList ++ rc.toList := by
  simp only [BSTNode.eraseFromTree, h1, h2, and_self, if_true]
  split
  · simp [BSTNode.toList]
  · simp [BSTNode.toList]
  · simp [BSTNode.toList]
  · simp [BSTNode.toList]
  · rename_i ll ld rl rd rr a b c
    have hm := BSTNode.toList_eraseRmleaf rr ll ld rl rd
    rw [BSTNode.toList, hm]
    simp [BSTNode.toList]

theorem BSTNode.toList_eraseFromTree (hsw : StrictWeak cmp) (data : α) (t : BSTNode α)
    (h : BSTNode.Ordered cmp t) :
    (BSTNode.eraseFromTree cmp data t).toList = t.toList.filter (notEquivalent cmp data) := by
  obtain ⟨hirr, htrans, hsplit⟩ := hsw
  induction t with
  | nil => simp [BSTNode.eraseFromTree, BSTNode.toList]
  | node lc d rc ihl ihr =>
    obtain ⟨hl, hr, hlk, hrk⟩ := h
    by_cases hlt : cmp data d = true
    · -- go left
      have hgt : cmp d data = false := by
        by_contra hc
        have hc : cmp d data = true := by simpa using hc
        have := htrans _ _ _ hlt hc
        rw [hirr] at this
        exact absurd this (by simp)
      have hstep : BSTNode.eraseFromTree cmp data (BSTNode.node lc d rc)
          = BSTNode.node (BSTNode.eraseFromTree cmp data lc) d rc := by
        simp [BSTNode.eraseFromTree, hlt, hgt]
      rw [hstep, BSTNode.toList, ihl hl, BSTNode.toList, List.filter_append, List.filter_cons]
      have hd : notEquivalent cmp data d = true := by simp [notEquivalent, hlt]
      have hrc : rc.toList.filter (notEquivalent cmp data) = rc.toList := by
        rw [List.filter_eq_self]
        intro x hx
        simp [notEquivalent, htrans _ _ _ hlt (hrk x hx)]
      rw [if_pos hd, hrc]
    · have hlt : cmp data d = false := by simpa using hlt
      by_cases hgt : cmp d data = true
      · have hstep : BSTNode.eraseFromTree cmp data (BSTNode.node lc d rc)
            = BSTNode.node lc d (BSTNode.eraseFromTree cmp data rc) := by
          simp [BSTNode.eraseFromTree, hlt, hgt]
        rw [hstep, BSTNode.toList, ihr hr, BSTNode.toList, List.filter_append,
          List.filter_cons]
        have hd : notEquivalent cmp data d = true := by simp [notEquivalent, hgt]
        have hlc : lc.toList.filter (notEquivalent cmp data) = lc.toList := by
          rw [List.filter_eq_self]
          intro x hx
          simp [notEquivalent, htrans _ _ _ (hlk x hx) hgt]
        rw [if_pos hd, hlc]
      · have hgt : cmp d data = false := by simpa using hgt
        rw [BSTNode.toList_eraseFromTree_found cmp data d lc rc hlt hgt, BSTNode.toList,
          List.filter_append, List.filter_cons]
        have hd : ¬ notEquivalent cmp data d = true := by simp [notEquivalent, hlt, hgt]
        have hlc : lc.toList.filter (notEquivalent cmp data) = lc.toList := by
          rw [List.filter_eq_self]
          intro x hx
          rcases hsplit x d data (hlk x hx) with h | h
          · simp [notEquivalent, h]
          · rw [hlt] at h
            exact absurd h (by simp)
        have hrc : rc.toList.filter (notEquivalent cmp data) = rc.toList := by
          rw [List.filter_eq_self]
          intro x hx
          rcases hsplit d x data (hrk x hx) with h | h
          · rw [hgt] at h
            exact absurd h (by simp)
          · simp [notEquivalent, h]
        rw [if_neg hd, hlc, hrc]

theorem BSTNode.eraseFromTree_of_absent (data : α) (t : BSTNode α)
    (h : ∀ s ∈ t.toList, ¬ Equivalent cmp s data) :
    BSTNode.eraseFromTree cmp data t = t := by
  induction t with
  | nil => rfl
  | node lc d rc ihl ihr =>
    have hd : ¬ Equivalent cmp d data := h d (by simp [BSTNode.toList])
    have hl := ihl (fun s hs => h s (by simp [BSTNode.toList, hs]))
    have hr := ihr (fun s hs => h s (by simp [BSTNode.toList, hs]))
    have hnf : ¬ (cmp data d = false ∧ cmp d data = false) := fun hc => hd ⟨hc.2, hc.1⟩
    simp only [BSTNode.eraseFromTree, hnf, if_false, hl, hr]
    split_ifs <;> rfl

/-- On a tree with the search-tree invariant at most one stored key is equivalent to `k`. -/
theorem BSTNode.equivalent_unique (hsw : StrictWeak cmp) (k : α) (t : BSTNode α)
    (h : BSTNode.Ordered cmp t) :
    (t.toList.filter fun x => !(notEquivalent cmp k x)).length ≤ 1 := by
  obtain ⟨hirr, htrans, hsplit⟩ := hsw
  have hp := BSTNode.pairwise_toList cmp htrans t h
  generalize t.toList = l at hp
  induction l with
  | nil => simp
  | cons a l ih =>
    obtain ⟨ha, hl⟩ := List.pairwise_cons.1 hp
    rw [List.filter_cons]
    by_cases hak : notEquivalent cmp k a = true
    · simp only [hak, Bool.not_true, Bool.false_eq_true, if_false]
      exact ih hl
    · have hak' : notEquivalent cmp k a = false := by simpa using hak
      simp only [hak', Bool.not_false, if_true, List.length_cons]
      have hrest : l.filter (fun x => !(notEquivalent cmp k x)) = [] := by
        rw [List.filter_eq_nil_iff]
        intro x hx
        have hax := ha x hx
        simp only [notEquivalent, Bool.or_eq_false_iff] at hak'
        rcases hsplit a x k hax with h1 | h1
        · rw [hak'.1] at h1
          exact absurd h1 (by simp)
        · simp [notEquivalent, h1]
      rw [hrest]
      simp

/-- C12: on a tree with the search-tree invariant, under a strict weak order, `erase(k)`
leaves the in-order sequence with the keys equivalent to `k` filtered out, all other keys
kept in their order (whichever of the five cases applies at the node found); at most one
stored key is equivalent to `k`, so exactly that one is removed; the result keeps the
search-tree invariant; and when no stored key is equivalent to `k` the tree is unchanged. -/
theorem BST.erase_spec (t : BST α) (hsw : StrictWeak t.cmp)
    (hord : BSTNode.Ordered t.cmp t.root) (k : α) :
    (t.erase k).root.toList = t.root.toList.filter (notEquivalent t.cmp k) ∧
    (∀ x, notEquivalent t.cmp k x = true ↔ ¬ Equivalent t.cmp x k) ∧
    (t.root.toList.filter fun x => !(notEquivalent t.cmp k x)).length ≤ 1 ∧
    BSTNode.Ordered t.cmp (t.erase k).root ∧
    ((∀ s ∈ t.root.toList, ¬ Equivalent t.cmp s k) → t.erase k = t) := by
  refine ⟨BSTNode.toList_eraseFromTree t.cmp hsw k t.root hord, notEquivalent_iff t.cmp k,
    BSTNode.equivalent_unique t.cmp hsw k t.root hord,
    BSTNode.ordered_eraseFromTree t.cmp hsw.2.1 k t.root hord, ?_⟩
  intro h
  simp only [BST.erase]
  rw [BSTNode.eraseFromTree_of_absent t.cmp k t.root h]

theorem BSTNode.insertToTree_of_present
    (htrans : ∀ a b c, cmp a b = true → cmp b c = true → cmp a c = true)
    (data : α) (t : BSTNode α) (h : BSTNode.Ordered cmp t)
    (hex : ∃ s ∈ t.toList, Equivalent cmp s data) :
    BSTNode.insertToTree cmp data t = t := by
  induction t with
  | nil =>
    obtain ⟨s, hs, _⟩ := hex
    simp [BSTNode.toList] at hs
  | node lc d rc ihl ihr =>
    obtain ⟨hl, hr, hlk, hrk⟩ := h
    obtain ⟨s, hs, hse⟩ := hex
    simp only [BSTNode.insertToTree]
    by_cases hfound : cmp data d = false ∧ cmp d data = false
    · rw [if_pos hfound]
    · rw [if_neg hfound]
      simp only [BSTNode.toList, List.mem_append, List.mem_cons] at hs
      by_cases hlt : cmp data d = true
      · rw [if_pos hlt]
        have hin : s ∈ lc.toList := by
          rcases hs with hs | hs | hs
          · exact hs
          · subst hs
            rw [hse.2] at hlt
            exact absurd hlt (by simp)
          · have := htrans _ _ _ hlt (hrk s hs)
            rw [hse.2] at this
            exact absurd this (by simp)
        rw [ihl hl ⟨s, hin, hse⟩]
      · rw [if_neg hlt]
        by_cases hgt : cmp d data = true
        · rw [if_pos hgt]
          have hin : s ∈ rc.toList := by
            rcases hs with hs | hs | hs
            · have := htrans _ _ _ (hlk s hs) hgt
              rw [hse.1] at this
              exact absurd this (by simp)
            · subst hs
              rw [hse.1] at hgt
              exact absurd hgt (by simp)
            · exact hs
          rw [ihr hr ⟨s, hin, hse⟩]
        · rw [if_neg hgt]

theorem BSTNode.toList_insertToTree_of_absent (data : α) (t : BSTNode α)
    (h : ∀ s ∈ t.toList, ¬ Equivalent cmp s data) :
    ∃ l1 l2, t.toList = l1 ++ l2 ∧
      (BSTNode.insertToTree cmp data t).toList = l1 ++ data :: l2 := by
  induction t with
  | nil => exact ⟨[], [], rfl, rfl⟩
  | node lc d rc ihl ihr =>
    have hd : ¬ Equivalent cmp d data := h d (by simp [BSTNode.toList])
    have hnf : ¬ (cmp data d = false ∧ cmp d data = false) := fun hc => hd ⟨hc.2, hc.1⟩
    simp only [BSTNode.insertToTree, hnf, if_false]
    by_cases hlt : cmp data d = true
    · rw [if_pos hlt]
      obtain ⟨l1, l2, e1, e2⟩ := ihl (fun s hs => h s (by simp [BSTNode.toList, hs]))
      refine ⟨l1, l2 ++ d :: rc.toList, ?_, ?_⟩
      · rw [BSTNode.toList, e1, List.append_assoc]
      · rw [BSTNode.toList, e2]
        simp
    · rw [if_neg hlt]
      have hgt : cmp d data = true := by
        by_contra hc
        exact hnf ⟨by simpa using hlt, by simpa using hc⟩
      rw [if_pos hgt]
      obtain ⟨l1, l2, e1, e2⟩ := ihr (fun s hs => h s (by simp [BSTNode.toList, hs]))
      refine ⟨lc.toList ++ d :: l1, l2, ?_, ?_⟩
      · rw [BSTNode.toList, e1]
        simp
      · rw [BSTNode.toList, e2]
        simp

/-- C13: on a tree with the search-tree invariant (transitive comparator), `insert(k)` leaves
the tree as it is, shape and keys, when a stored key is equivalent to `k`; when none is, the
in-order sequence gains exactly `k` at one place and keeps every other key in its order. -/
theorem BST.insert_spec (t : BST α)
    (htrans : ∀ a b c, t.cmp a b = true → t.cmp b c = true → t.cmp a c = true)
    (hord : BSTNode.Ordered t.cmp t.root) (k : α) :
    ((∃ s ∈ t.root.toList, Equivalent t.cmp s k) → t.insert k = t) ∧
    ((∀ s ∈ t.root.toList, ¬ Equivalent t.cmp s k) →
      ∃ l1 l2, t.root.toList = l1 ++ l2 ∧ (t.insert k).root.toList = l1 ++ k :: l2) := by
  constructor
  · intro h
    simp only [BST.insert]
    rw [BSTNode.insertToTree_of_present t.cmp htrans k t.root hord h]
  · intro h
    exact BSTNode.toList_insertToTree_of_absent t.cmp k t.root h

theorem BSTNode.queryTreeEqual_spec
    (htrans : ∀ a b c, cmp a b = true → cmp b c = true → cmp a c = true)
    (data : α) (t : BSTNode α) (h : BSTNode.Ordered cmp t) :
    (∀ r, BSTNode.queryTreeEqual cmp data t = some r →
      r ∈ t.toList ∧ Equivalent cmp r data) ∧
    (BSTNode.queryTreeEqual cmp data t = none ↔ ∀ s ∈ t.toList, ¬ Equivalent cmp s data) := by
  induction t with
  | nil => simp [BSTNode.queryTreeEqual, BSTNode.toList]
  | node lc d rc ihl ihr =>
    obtain ⟨hl, hr, hlk, hrk⟩ := h
    have ihl := ihl hl
    have ihr := ihr hr
    simp only [BSTNode.queryTreeEqual]
    by_cases hfound : cmp data d = false ∧ cmp d data = false
    · rw [if_pos hfound]
      constructor
      · intro r hr'
        simp only [Option.some.injEq] at hr'
        subst hr'
        exact ⟨by simp [BSTNode.toList], hfound.2, hfound.1⟩
      · constructor
        · intro hc
          simp at hc
        · intro hall
          exact absurd ⟨hfound.2, hfound.1⟩ (hall d (by simp [BSTNode.toList]))
    · rw [if_neg hfound]
      have hd : ¬ Equivalent cmp d data := fun hc => hfound ⟨hc.2, hc.1⟩
      by_cases hlt : cmp data d = true
      · rw [if_pos hlt]
        have hrc : ∀ s ∈ rc.toList, ¬ Equivalent cmp s data := by
          intro s hs hc
          have := htrans _ _ _ hlt (hrk s hs)
          rw [hc.2] at this
          exact absurd this (by simp)
        constructor
        · intro r hr'
          obtain ⟨h1, h2⟩ := ihl.1 r hr'
          exact ⟨by simp [BSTNode.toList, h1], h2⟩
        · rw [ihl.2]
          constructor
          · intro hall s hs
            simp only [BSTNode.toList, List.mem_append, List.mem_cons] at hs
            rcases hs with hs | hs | hs
            · exact hall s hs
            · subst hs; exact hd
            · exact hrc s hs
          · intro hall s hs
            exact hall s (by simp [BSTNode.toList, hs])
      · rw [if_neg hlt]
        by_cases hgt : cmp d data = true
        · rw [if_pos hgt]
          have hlc : ∀ s ∈ lc.toList, ¬ Equivalent cmp s data := by
            intro s hs hc
            have := htrans _ _ _ (hlk s hs) hgt
            rw [hc.1] at this
            exact absurd this (by simp)
          constructor
          · intro r hr'
            obtain ⟨h1, h2⟩ := ihr.1 r hr'
            exact ⟨by simp [BSTNode.toList, h1], h2⟩
          · rw [ihr.2]
            constructor
            · intro hall s hs
              simp only [BSTNode.toList, List.mem_append, List.mem_cons] at hs
              rcases hs with hs | hs | hs
              · exact hlc s hs
              · subst hs; exact hd
              · exact hall s hs
            · intro hall s hs
              exact hall s (by simp [BSTNode.toList, hs])
        · exact absurd ⟨by simpa using hlt, by simpa using hgt⟩ hfound

theorem BSTNode.exists_equivalent_insertToTree (hirr : ∀ a, cmp a a = false) (data : α)
    (t : BSTNode α) :
    ∃ s ∈ (BSTNode.insertToTree cmp data t).toList, Equivalent cmp s data := by
  induction t with
  | nil => exact ⟨data, by simp [BSTNode.insertToTree, BSTNode.toList], hirr data, hirr data⟩
  | node lc d rc ihl ihr =>
    simp only [BSTNode.insertToTree]
    by_cases hfound : cmp data d = false ∧ cmp d data = false
    · rw [if_pos hfound]
      exact ⟨d, by simp [BSTNode.toList], hfound.2, hfound.1⟩
    · rw [if_neg hfound]
      by_cases hlt : cmp data d = true
      · rw [if_pos hlt]
        obtain ⟨s, hs, he⟩ := ihl
        exact ⟨s, by simp [BSTNode.toList, hs], he⟩
      · rw [if_neg hlt]
        by_cases hgt : cmp d data = true
        · rw [if_pos hgt]
          obtain ⟨s, hs, he⟩ := ihr
          exact ⟨s, by simp [BSTNode.toList, hs], he⟩
        · exact absurd ⟨by simpa using hlt, by simpa using hgt⟩ hfound

theorem BSTNode.mem_insertToTree_of_mem (data : α) (t : BSTNode α) (x : α)
    (h : x ∈ t.toList) : x ∈ (BSTNode.insertToTree cmp data t).toList := by
  induction t with
  | nil => simp [BSTNode.toList] at h
  | node lc d rc ihl ihr =>
    simp only [BSTNode.insertToTree]
    simp only [BSTNode.toList, List.mem_append, List.mem_cons] at h
    split_ifs
    · simp only [BSTNode.toList, List.mem_append, List.mem_cons]; exact h
    · simp only [BSTNode.toList, List.mem_append, List.mem_cons]
      rcases h with h | h | h
      · exact Or.inl (ihl h)
      · exact Or.inr (Or.inl h)
      · exact Or.inr (Or.inr h)
    · simp only [BSTNode.toList, List.mem_append, List.mem_cons]
      rcases h with h | h | h
      · exact Or.inl h
      · exact Or.inr (Or.inl h)
      · exact Or.inr (Or.inr (ihr h))
    · simp only [BSTNode.toList, List.mem_append, List.mem_cons]; exact h

theorem equivalent_trans (hsw : StrictWeak cmp) {a b c : α} (h1 : Equivalent cmp a b)
    (h2 : Equivalent cmp b c) : Equivalent cmp a c := by
  obtain ⟨_, _, hsplit⟩ := hsw
  constructor
  · by_contra hc
    have hc : cmp a c = true := by simpa using hc
    rcases hsplit a c b hc with h | h
    · rw [h1.1] at h; exact absurd h (by simp)
    · rw [h2.1] at h; exact absurd h (by simp)
  · by_contra hc
    have hc : cmp c a = true := by simpa using hc
    rcases hsplit c a b hc with h | h
    · rw [h2.2] at h; exact absurd h (by simp)
    · rw [h1.2] at h; exact absurd h (by simp)

theorem BST.runAll_keeps (hsw : StrictWeak cmp) (k : α) (later : List (BSTOp α)) :
    ∀ t : BST α, t.cmp = cmp → BSTNode.Ordered cmp t.root →
      (∀ op ∈ later, BSTOp.Keeps cmp k op) →
      (∃ s ∈ t.root.toList, Equivalent cmp s k) →
      (t.runAll later).cmp = cmp ∧ BSTNode.Ordered cmp (t.runAll later).root ∧
        ∃ s ∈ (t.runAll later).root.toList, Equivalent cmp s k := by
  induction later with
  | nil =>
    intro t hc ho _ hex
    exact ⟨hc, ho, hex⟩
  | cons op later ih =>
    intro t hc ho hkeep hex
    have hop := hkeep op (List.mem_cons_self _ _)
    have hstep : (t.run op).cmp = cmp ∧ BSTNode.Ordered cmp (t.run op).root ∧
        ∃ s ∈ (t.run op).root.toList, Equivalent cmp s k := by
      obtain ⟨s, hs, he⟩ := hex
      cases op with
      | insert data =>
        refine ⟨hc, ?_, s, ?_, he⟩
        · simp only [BST.run, BST.insert, hc]
          exact BSTNode.ordered_insertToTree cmp data t.root ho
        · simp only [BST.run, BST.insert, hc]
          exact BSTNode.mem_insertToTree_of_mem cmp data t.root s hs
      | erase data =>
        refine ⟨hc, ?_, s, ?_, he⟩
        · simp only [BST.run, BST.erase, hc]
          exact BSTNode.ordered_eraseFromTree cmp hsw.2.1 data t.root ho
        · simp only [BST.run, BST.erase, hc]
          rw [BSTNode.toList_eraseFromTree cmp hsw data t.root ho, List.mem_filter]
          refine ⟨hs, (notEquivalent_iff cmp data s).2 ?_⟩
          intro hsd
          have hds : Equivalent cmp data s := ⟨hsd.2, hsd.1⟩
          exact hop (equivalent_trans cmp hsw hds he)
    have := ih (t.run op) hstep.1 hstep.2.1
      (fun o ho' => hkeep o (List.mem_cons_of_mem _ ho')) hstep.2.2
    simpa [BST.runAll] using this

/-- C14: under a strict weak order, on every tree built from the empty tree by `insert` and
`erase` calls, `queryEqual(k)` returns a stored key equivalent to `k` when one is stored and
"not found" exactly when none is; after `insert(k)`, followed by any calls that are inserts or
erases of keys not equivalent to `k`, it returns a key equivalent to `k`; right after
`erase(k)` it returns "not found". -/
theorem BST.queryEqual_spec (hsw : StrictWeak cmp) (ops : List (BSTOp α)) (k : α) :
    (∀ r, ((BST.empty cmp).runAll ops).queryEqual k = some r →
      r ∈ ((BST.empty cmp).runAll ops).root.toList ∧ Equivalent cmp r k) ∧
    (((BST.empty cmp).runAll ops).queryEqual k = none ↔
      ∀ s ∈ ((BST.empty cmp).runAll ops).root.toList, ¬ Equivalent cmp s k) ∧
    (∀ later : List (BSTOp α), (∀ op ∈ later, BSTOp.Keeps cmp k op) →
      ∃ r, ((((BST.empty cmp).runAll ops).insert k).runAll later).queryEqual k = some r ∧
        Equivalent cmp r k) ∧
    (((BST.empty cmp).runAll ops).erase k).queryEqual k = none := by
  obtain ⟨hc, ho⟩ := BST.ordered_runAll cmp hsw.2.1 ops (BST.empty cmp) rfl trivial
  have hq := BSTNode.queryTreeEqual_spec cmp hsw.2.1 k _ ho
  refine ⟨?_, ?_, ?_, ?_⟩
  · intro r hr
    simp only [BST.queryEqual, hc] at hr
    exact hq.1 r hr
  · simp only [BST.queryEqual, hc]
    exact hq.2
  · intro later hkeep
    have hci : (((BST.empty cmp).runAll ops).insert k).cmp = cmp := hc
    have hoi : BSTNode.Ordered cmp (((BST.empty cmp).runAll ops).insert k).root := by
      simp only [BST.insert, hc]
      exact BSTNode.ordered_insertToTree cmp k _ ho
    have hex : ∃ s ∈ (((BST.empty cmp).runAll ops).insert k).root.toList,
        Equivalent cmp s k := by
      simp only [BST.insert, hc]
      exact BSTNode.exists_equivalent_insertToTree cmp hsw.1 k _
    obtain ⟨hc2, ho2, s, hs, he⟩ := BST.runAll_keeps cmp hsw k later _ hci hoi hkeep hex
    have hq2 := BSTNode.queryTreeEqual_spec cmp hsw.2.1 k _ ho2
    cases hres : ((((BST.empty cmp).runAll ops).insert k).runAll later).queryEqual k with
    | none =>
      simp only [BST.queryEqual, hc2] at hres
      exact absurd he (hq2.2.1 hres s hs)
    | some r =>
      simp only [BST.queryEqual, hc2] at hres
      exact ⟨r, rfl, (hq2.1 r hres).2⟩
  · have hoe : BSTNode.Ordered cmp (BSTNode.eraseFromTree cmp k
        ((BST.empty cmp).runAll ops).root) :=
      BSTNode.ordered_eraseFromTree cmp hsw.2.1 k _ ho
    have hq3 := BSTNode.queryTreeEqual_spec cmp hsw.2.1 k _ hoe
    simp only [BST.queryEqual, BST.erase, hc]
    rw [hq3.2]
    intro s hs
    rw [BSTNode.toList_eraseFromTree cmp hsw k _ ho, List.mem_filter] at hs
    exact (notEquivalent_iff cmp k s).1 hs.2

end BSTProofs2

theorem natLess_strictWeak : StrictWeak natLess := by
  refine ⟨natLess_irrefl, natLess_trans, ?_⟩
  intro a b c h
  simp only [natLess, decide_eq_true_eq] at *
  omega

theorem BST.erase_spec_witness :
    StrictWeak sampleTree.cmp ∧ BSTNode.Ordered sampleTree.cmp sampleTree.root ∧
    (sampleTree.erase 2).root.toList = [1, 3, 8, 9] ∧
    ((sampleTree.erase 2).root.toList
        = sampleTree.root.toList.filter (notEquivalent sampleTree.cmp 2) ∧
      (∀ x, notEquivalent sampleTree.cmp 2 x = true ↔ ¬ Equivalent sampleTree.cmp x 2) ∧
      (sampleTree.root.toList.filter fun x => !(notEquivalent sampleTree.cmp 2 x)).length ≤ 1 ∧
      BSTNode.Ordered sampleTree.cmp (sampleTree.erase 2).root ∧
      ((∀ s ∈ sampleTree.root.toList, ¬ Equivalent sampleTree.cmp s 2) →
        sampleTree.erase 2 = sampleTree)) :=
  ⟨by rw [sampleTree_cmp]; exact natLess_strictWeak, sampleTree_ordered, by decide,
    BST.erase_spec sampleTree (by rw [sampleTree_cmp]; exact natLess_strictWeak)
      sampleTree_ordered 2⟩

theorem BST.insert_spec_witness :
    BSTNode.Ordered sampleTree.cmp sampleTree.root ∧
    (sampleTree.insert 3).root = sampleTree.root ∧
    (sampleTree.insert 4).root.toList = [1, 2, 3, 4, 8, 9] ∧
    (((∃ s ∈ sampleTree.root.toList, Equivalent sampleTree.cmp s 4) →
        sampleTree.insert 4 = sampleTree) ∧
      ((∀ s ∈ sampleTree.root.toList, ¬ Equivalent sampleTree.cmp s 4) →
        ∃ l1 l2, sampleTree.root.toList = l1 ++ l2 ∧
          (sampleTree.insert 4).root.toList = l1 ++ 4 :: l2)) :=
  ⟨sampleTree_ordered, by decide, by decide,
    BST.insert_spec sampleTree (by rw [sampleTree_cmp]; exact natLess_trans)
      sampleTree_ordered 4⟩

theorem BST.queryEqual_spec_witness :
    StrictWeak natLess ∧
    ((BST.empty natLess).runAll sampleOps).queryEqual 3 = some 3 ∧
    ((BST.empty natLess).runAll sampleOps).queryEqual 5 = none ∧
    ((∀ r, ((BST.empty natLess).runAll sampleOps).queryEqual 3 = some r →
      r ∈ ((BST.empty natLess).runAll sampleOps).root.toList ∧ Equivalent natLess r 3) ∧
    (((BST.empty natLess).runAll sampleOps).queryEqual 3 = none ↔
      ∀ s ∈ ((BST.empty natLess).runAll sampleOps).root.toList, ¬ Equivalent natLess s 3) ∧
    (∀ later : List (BSTOp Nat), (∀ op ∈ later, BSTOp.Keeps natLess 3 op) →
      ∃ r, ((((BST.empty natLess).runAll sampleOps).insert 3).runAll later).queryEqual 3
          = some r ∧ Equivalent natLess r 3) ∧
    (((BST.empty natLess).runAll sampleOps).erase 3).queryEqual 3 = none) :=
  ⟨natLess_strictWeak, by decide, by decide,
    BST.queryEqual_spec natLess natLess_strictWeak sampleOps 3⟩


theorem BST.queryMinG_spec_witness :
    BSTNode.Ordered sampleTree.cmp sampleTree.root ∧
    sampleTree.queryMinG 4 = some 8 ∧
    ((∀ r, sampleTree.queryMinG 4 = some r →
      r ∈ sampleTree.root.toList ∧ sampleTree.cmp 4 r = true ∧ sampleTree.cmp r 4 = false ∧
        ∀ s ∈ sampleTree.root.toList, sampleTree.cmp 4 s = true →
          s = r ∨ sampleTree.cmp r s = true) ∧
    (sampleTree.queryMinG 4 = none ↔
      ∀ s ∈ sampleTree.root.toList, sampleTree.cmp 4 s = false)) :=
  ⟨sampleTree_ordered, by decide,
    BST.queryMinG_spec sampleTree
      (by rw [sampleTree_cmp]; exact natLess_irrefl)
      (by rw [sampleTree_cmp]; exact natLess_trans)
      sampleTree_ordered 4⟩

/-! ## Reachable states of the disjoint set -/

theorem checkRoot_some_lt {ds ds1 : DisjointSet} {x r : Nat}
    (h : ds.checkRoot x = some (r, ds1)) : x < ds.table.length := by
  by_contra hc
  rw [checkRoot_out_of_range ds x (by omega)] at h
  exact absurd h (by simp)

theorem unionSet_some_lt {ds ds1 : DisjointSet} {x y : Nat}
    (h : ds.unionSet x y = some ds1) : x < ds.table.length ∧ y < ds.table.length := by
  simp only [DisjointSet.unionSet] at h
  cases h1 : ds.checkRoot x with
  | none => simp [h1] at h
  | some res1 =>
    obtain ⟨rx, dsa⟩ := res1
    simp only [h1] at h
    cases h2 : dsa.checkRoot y with
    | none => simp [h2] at h
    | some res2 =>
      obtain ⟨ry, dsb⟩ := res2
      have hx := checkRoot_some_lt h1
      have hy := checkRoot_some_lt h2
      have hlen := checkRootAux_length _ _ _ _ _ h1
      exact ⟨hx, by rw [← hlen]; exact hy⟩

/-- Every reachable state is well formed and has `n` entries. -/
theorem reachable_inv {n : Nat} {ds : DisjointSet} (h : Reachable n ds) :
    ds.table.length = n ∧ ∃ ht, DSInv ds ht := by
  induction h with
  | init =>
    exact ⟨by simp [DisjointSet.makeSet], _, dsInv_makeSet n⟩
  | @checkRoot ds ds1 x r _ hc ih =>
    obtain ⟨hlen, ht, hinv⟩ := ih
    obtain ⟨r', ds1', he, _, hcomp, hinv1⟩ := checkRoot_spec ds ht hinv x (checkRoot_some_lt hc)
    rw [hc] at he
    simp only [Option.some.injEq, Prod.mk.injEq] at he
    obtain ⟨_, rfl⟩ := he
    exact ⟨by rw [hcomp.2.2.1, hlen], ht, hinv1⟩
  | @unionSet ds ds1 x y _ hu ih =>
    obtain ⟨hlen, ht, hinv⟩ := ih
    obtain ⟨hx, hy⟩ := unionSet_some_lt hu
    obtain ⟨rx, ry, ds1', _, _, he, hlen1, hinv1, _⟩ := unionSet_spec ds ht hinv x y hx hy
    rw [hu] at he
    simp only [Option.some.injEq] at he
    subst he
    exact ⟨by rw [hlen1, hlen], hinv1⟩

/-- C15: in every state reachable from `makeSet(n)` and for `x, y < n`, `unionSet(x, y)`
returns, and afterwards `checkRoot(x)` followed by `checkRoot(y)` return the same
representative (as does `checkRoot(y)` called first). -/
theorem unionSet_then_checkRoot (n : Nat) (ds : DisjointSet) (hr : Reachable n ds)
    (x y : Nat) (hx : x < n) (hy : y < n) :
    ∃ ds1 r ds2 ds3 ds4, ds.unionSet x y = some ds1 ∧
      ds1.checkRoot x = some (r, ds2) ∧ ds2.checkRoot y = some (r, ds3) ∧
      ds1.checkRoot y = some (r, ds4) := by
  obtain ⟨hlen, ht, hinv⟩ := reachable_inv hr
  obtain ⟨rx, ry, ds1, hrx, hry, hu, hlen1, ⟨h1, hinv1⟩, hsame, hdiff⟩ :=
    unionSet_spec ds ht hinv x y (by omega) (by omega)
  -- after the call `x` and `y` have one root `a`
  have hroot : ∃ a, RootOf ds1.table x a ∧ RootOf ds1.table y a := by
    by_cases hxy : rx = ry
    · obtain ⟨_, hiff⟩ := hsame hxy
      exact ⟨rx, (hiff x rx).2 hrx, (hiff y rx).2 (hxy ▸ hry)⟩
    · obtain ⟨_, a, b, hab, hiff⟩ := hdiff hxy
      rcases hab with ⟨rfl, rfl⟩ | ⟨rfl, rfl⟩
      · exact ⟨a, (hiff x a).2 (Or.inl ⟨hrx, hxy⟩), (hiff y a).2 (Or.inr ⟨hry, rfl⟩)⟩
      · exact ⟨a, (hiff x a).2 (Or.inr ⟨hrx, rfl⟩),
          (hiff y a).2 (Or.inl ⟨hry, fun hc => hxy hc.symm⟩)⟩
  obtain ⟨a, hxa, hya⟩ := hroot
  obtain ⟨r2, ds2, he2, hr2, hc2, hinv2⟩ :=
    checkRoot_spec ds1 h1 hinv1 x (by rw [hlen1]; omega)
  have e2 : r2 = a := RootOf.functional hr2 hxa
  subst e2
  obtain ⟨r3, ds3, he3, hr3, _, _⟩ :=
    checkRoot_spec ds2 h1 hinv2 y (by rw [hc2.2.2.1, hlen1]; omega)
  have e3 : r3 = r2 := RootOf.functional ((hc2.2.2.2.2.2 y r3).1 hr3) hya
  subst e3
  obtain ⟨r4, ds4, he4, hr4, _, _⟩ :=
    checkRoot_spec ds1 h1 hinv1 y (by rw [hlen1]; omega)
  have e4 : r4 = r3 := RootOf.functional hr4 hya
  subst e4
  exact ⟨ds1, r4, ds2, ds3, ds4, hu, he2, he3, he4⟩

theorem checkRoot_makeSet (n i : Nat) (hi : i < n) :
    (DisjointSet.makeSet n).checkRoot i = some (i, DisjointSet.makeSet n) := by
  have : (DisjointSet.makeSet n).table[i]? = some i := by
    simp [DisjointSet.makeSet, List.getElem?_range hi]
  simp [DisjointSet.checkRoot, DisjointSet.checkRootAux, this]

/-- The scenario of five singletons joined by `unionSet(0,1)`, `unionSet(1,2)`,
`unionSet(3,4)`, evaluated. -/
theorem five_scenario :
    ∃ ds, (((DisjointSet.makeSet 5).unionSet 0 1).bind fun d =>
        (d.unionSet 1 2).bind fun d => d.unionSet 3 4) = some ds ∧
      numRoots ds.table = 2 ∧
      (ds.checkRoot 0).map Prod.fst = (ds.checkRoot 2).map Prod.fst ∧
      (ds.checkRoot 3).map Prod.fst = (ds.checkRoot 4).map Prod.fst ∧
      (ds.checkRoot 0).map Prod.fst ≠ (ds.checkRoot 3).map Prod.fst ∧
      (ds.checkRoot 0).map Prod.fst = some 0 ∧ (ds.checkRoot 3).map Prod.fst = some 3 := by
  refine ⟨⟨5, [0, 0, 0, 3, 3], [0, 1, 1, 0, 1]⟩, by decide, by decide, by decide, by decide,
    by decide, by decide, by decide⟩

/-- C16: in every state reachable from `makeSet(n)` and for `x, y < n`, `unionSet(x, y)`
lowers the number of roots (identifiers `i` with `table[i] = i`) by exactly one when the
representatives `checkRoot` returns for `x` and `y` differ, and leaves it unchanged when they
are the same.  `makeSet(n)` has `n` roots and `checkRoot(i) = i`.  For `n = 5` the unions
`(0,1)`, `(1,2)`, `(3,4)` leave two roots, with `0` and `2` together, `3` and `4` together,
`0` and `3` apart. -/
theorem unionSet_root_count (n : Nat) (ds : DisjointSet) (hr : Reachable n ds)
    (x y : Nat) (hx : x < n) (hy : y < n) :
    (∃ rx ry dsx dsy ds1, ds.checkRoot x = some (rx, dsx) ∧ ds.checkRoot y = some (ry, dsy) ∧
      ds.unionSet x y = some ds1 ∧
      (rx ≠ ry → numRoots ds1.table + 1 = numRoots ds.table) ∧
      (rx = ry → numRoots ds1.table = numRoots ds.table)) ∧
    (numRoots (DisjointSet.makeSet n).table = n ∧
      ∀ i, i < n → (DisjointSet.makeSet n).checkRoot i = some (i, DisjointSet.makeSet n)) ∧
    (∃ d, (((DisjointSet.makeSet 5).unionSet 0 1).bind fun d =>
        (d.unionSet 1 2).bind fun d => d.unionSet 3 4) = some d ∧
      numRoots d.table = 2 ∧
      (d.checkRoot 0).map Prod.fst = (d.checkRoot 2).map Prod.fst ∧
      (d.checkRoot 3).map Prod.fst = (d.checkRoot 4).map Prod.fst ∧
      (d.checkRoot 0).map Prod.fst ≠ (d.checkRoot 3).map Prod.fst ∧
      (d.checkRoot 0).map Prod.fst = some 0 ∧ (d.checkRoot 3).map Prod.fst = some 3) := by
  obtain ⟨hlen, ht, hinv⟩ := reachable_inv hr
  refine ⟨?_, ⟨by simp [DisjointSet.makeSet, numRoots_range], checkRoot_makeSet n⟩,
    five_scenario⟩
  obtain ⟨rx, ry, ds1, hrx, hry, hu, _, _, hsame, hdiff⟩ :=
    unionSet_spec ds ht hinv x y (by omega) (by omega)
  obtain ⟨rx', dsx, hex, hrx', _, _⟩ := checkRoot_spec ds ht hinv x (by omega)
  obtain ⟨ry', dsy, hey, hry', _, _⟩ := checkRoot_spec ds ht hinv y (by omega)
  have e1 : rx' = rx := RootOf.functional hrx' hrx
  have e2 : ry' = ry := RootOf.functional hry' hry
  subst e1 e2
  exact ⟨rx', ry', dsx, dsy, ds1, hex, hey, hu, fun hne => (hdiff hne).1,
    fun heq => (hsame heq).1⟩

theorem parentOf_of_getElem {t : List Nat} {x p : Nat} (h : t[x]? = some p) :
    parentOf t x = p := by
  obtain ⟨hlt, hv⟩ := List.getElem?_eq_some_iff.1 h
  unfold parentOf
  rw [List.getD_eq_getElem _ _ hlt, hv]

theorem rootOf_iterate {t : List Nat} {x r : Nat} (h : RootOf t x r) :
    ∃ k, (parentOf t)^[k] x = r := by
  induction h with
  | root _ => exact ⟨0, rfl⟩
  | @step x p r hp _ _ ih =>
    obtain ⟨k, hk⟩ := ih
    refine ⟨k + 1, ?_⟩
    rw [Function.iterate_succ_apply, parentOf_of_getElem hp]
    exact hk

theorem height_iterate {t : List Nat} {h : Nat → Nat} (hok : HeightOK t h) :
    ∀ (k y : Nat), y < t.length →
      (parentOf t)^[k] y < t.length ∧ h y ≤ h ((parentOf t)^[k] y) := by
  intro k
  induction k with
  | zero => intro y hy; exact ⟨hy, le_refl _⟩
  | succ k ih =>
    intro y hy
    have hp : t[y]? = some t[y] := List.getElem?_eq_getElem hy
    have hpar : parentOf t y = t[y] := parentOf_of_getElem hp
    obtain ⟨hlt, hstep⟩ := hok y _ hp
    rw [Function.iterate_succ_apply, hpar]
    obtain ⟨h1, h2⟩ := ih t[y] hlt
    refine ⟨h1, le_trans ?_ h2⟩
    by_cases he : t[y] = y
    · rw [he]
    · exact le_of_lt (hstep he)

/-- The parent links have no cycle but the self-loops of the roots. -/
theorem no_cycle {t : List Nat} {h : Nat → Nat} (hok : HeightOK t h) (x : Nat)
    (hx : x < t.length) (k : Nat) (hk : 0 < k) (hcyc : (parentOf t)^[k] x = x) :
    parentOf t x = x := by
  obtain ⟨j, rfl⟩ : ∃ j, k = j + 1 := ⟨k - 1, by omega⟩
  have hp : t[x]? = some t[x] := List.getElem?_eq_getElem hx
  have hpar : parentOf t x = t[x] := parentOf_of_getElem hp
  obtain ⟨hlt, hstep⟩ := hok x _ hp
  rw [hpar]
  by_contra hne
  have h1 := hstep hne
  have h2 := (height_iterate hok j t[x] hlt).2
  rw [Function.iterate_succ_apply, hpar] at hcyc
  rw [hcyc] at h2
  omega

/-- C17: in every state reachable from `makeSet(n)` and for `x < n`, `checkRoot(x)` returns;
the value `r` it returns is where the parent links lead from `x` after finitely many steps,
and `r` is its own parent; no chain of one or more parent links leads from `x` back to `x`
unless `x` is a root; and after the call the same identifiers share a root as before. -/
theorem checkRoot_chain (n : Nat) (ds : DisjointSet) (hr : Reachable n ds) (x : Nat)
    (hx : x < n) :
    ∃ r ds1, ds.checkRoot x = some (r, ds1) ∧ RootOf ds.table x r ∧
      (∃ k, (parentOf ds.table)^[k] x = r ∧ parentOf ds.table r = r) ∧
      (∀ k, 0 < k → (parentOf ds.table)^[k] x = x → parentOf ds.table x = x) ∧
      (∀ y z, Same ds1.table y z ↔ Same ds.table y z) ∧
      ds1.table.length = n := by
  obtain ⟨hlen, ht, hinv⟩ := reachable_inv hr
  obtain ⟨r, ds1, he, hroot, hcomp, _⟩ := checkRoot_spec ds ht hinv x (by omega)
  obtain ⟨k, hk⟩ := rootOf_iterate hroot
  refine ⟨r, ds1, he, hroot, ⟨k, hk, parentOf_of_getElem hroot.is_root⟩, ?_, ?_, ?_⟩
  · intro j hj hcyc
    exact no_cycle hinv.2.2.1 x (by omega) j hj hcyc
  · intro y z
    constructor
    · rintro ⟨r', h1, h2⟩
      exact ⟨r', (hcomp.2.2.2.2.2 y r').1 h1, (hcomp.2.2.2.2.2 z r').1 h2⟩
    · rintro ⟨r', h1, h2⟩
      exact ⟨r', (hcomp.2.2.2.2.2 y r').2 h1, (hcomp.2.2.2.2.2 z r').2 h2⟩
  · rw [hcomp.2.2.1, hlen]

theorem joinedPair_eq : (DisjointSet.makeSet 2).unionSet 0 1 = some joinedPair := by
  decide

theorem joinedPair_reachable : Reachable 2 joinedPair :=
  Reachable.unionSet Reachable.init joinedPair_eq

theorem fiveJoined_reachable : Reachable 5 fiveJoined :=
  Reachable.unionSet (x := 0) (y := 1) Reachable.init (by decide)

/-- C18, at the failing input: from `makeSet(2)`, where both roots have rank `0`,
`unionSet(0, 1)` attaches root `1` under root `0` and increments the rank of `1`, the root
it has just attached; the rank of `0`, the root that remains, stays `0`. -/
theorem unionSet_increments_attached_root :
    (DisjointSet.makeSet 2).rank = [0, 0] ∧
    (DisjointSet.makeSet 2).checkRoot 0 = some (0, DisjointSet.makeSet 2) ∧
    (DisjointSet.makeSet 2).checkRoot 1 = some (1, DisjointSet.makeSet 2) ∧
    (DisjointSet.makeSet 2).unionSet 0 1
      = some { count := 2, table := [0, 0], rank := [0, 1] } := by
  decide

/-- C19, at the failing input: in the reachable state that `unionSet(0, 1)` leaves from
`makeSet(2)`, identifier `1` hangs below root `0`, so the subtree rooted at `0` has depth `1`,
while `rank[0]` is `0`. -/
theorem rank_below_depth :
    Reachable 2 joinedPair ∧ joinedPair.table[1]? = some 0 ∧
    joinedPair.table[0]? = some 0 ∧
    subtreeDepth joinedPair.table 0 = 1 ∧ joinedPair.rank[0]? = some 0 :=
  ⟨joinedPair_reachable, by decide, by decide, by decide, by decide⟩

theorem unionSet_then_checkRoot_witness :
    Reachable 5 fiveJoined ∧
    ∃ ds1 r ds2 ds3 ds4, fiveJoined.unionSet 1 2 = some ds1 ∧
      ds1.checkRoot 1 = some (r, ds2) ∧ ds2.checkRoot 2 = some (r, ds3) ∧
      ds1.checkRoot 2 = some (r, ds4) :=
  ⟨fiveJoined_reachable,
    unionSet_then_checkRoot 5 fiveJoined fiveJoined_reachable 1 2 (by decide) (by decide)⟩

theorem checkRoot_chain_witness :
    Reachable 5 fiveJoined ∧
    ∃ r ds1, fiveJoined.checkRoot 1 = some (r, ds1) ∧ RootOf fiveJoined.table 1 r ∧
      (∃ k, (parentOf fiveJoined.table)^[k] 1 = r ∧ parentOf fiveJoined.table r = r) ∧
      (∀ k, 0 < k → (parentOf fiveJoined.table)^[k] 1 = 1 → parentOf fiveJoined.table 1 = 1) ∧
      (∀ y z, Same ds1.table y z ↔ Same fiveJoined.table y z) ∧
      ds1.table.length = 5 :=
  ⟨fiveJoined_reachable, checkRoot_chain 5 fiveJoined fiveJoined_reachable 1 (by decide)⟩

theorem unionSet_root_count_witness :
    Reachable 5 fiveJoined ∧
    ((∃ rx ry dsx dsy ds1, fiveJoined.checkRoot 1 = some (rx, dsx) ∧
      fiveJoined.checkRoot 2 = some (ry, dsy) ∧ fiveJoined.unionSet 1 2 = some ds1 ∧
      (rx ≠ ry → numRoots ds1.table + 1 = numRoots fiveJoined.table) ∧
      (rx = ry → numRoots ds1.table = numRoots fiveJoined.table)) ∧
    (numRoots (DisjointSet.makeSet 5).table = 5 ∧
      ∀ i, i < 5 → (DisjointSet.makeSet 5).checkRoot i = some (i, DisjointSet.makeSet 5)) ∧
    (∃ d, (((DisjointSet.makeSet 5).unionSet 0 1).bind fun d =>
        (d.unionSet 1 2).bind fun d => d.unionSet 3 4) = some d ∧
      numRoots d.table = 2 ∧
      (d.checkRoot 0).map Prod.fst = (d.checkRoot 2).map Prod.fst ∧
      (d.checkRoot 3).map Prod.fst = (d.checkRoot 4).map Prod.fst ∧
      (d.checkRoot 0).map Prod.fst ≠ (d.checkRoot 3).map Prod.fst ∧
      (d.checkRoot 0).map Prod.fst = some 0 ∧ (d.checkRoot 3).map Prod.fst = some 3)) :=
  ⟨fiveJoined_reachable,
    unionSet_root_count 5 fiveJoined fiveJoined_reachable 1 2 (by decide) (by decide)⟩

/-! ## The sweep: termination and edge count -/

theorem XLess_irrefl (pts : List Coor) (a : Nat) : XLess pts a a = false := by
  simp [XLess]

theorem YLess_irrefl (pts : List Coor) (a : Nat) : YLess pts a a = false := by
  simp [YLess]

theorem YLarge_irrefl (pts : List Coor) (a : Nat) : YLarge pts a a = false := by
  simp [YLarge]

theorem XLess_trans (pts : List Coor) (a b c : Nat) (h1 : XLess pts a b = true)
    (h2 : XLess pts b c = true) : XLess pts a c = true := by
  unfold XLess at *
  simp only [ne_eq] at *
  split_ifs at h1 h2 ⊢ <;> simp only [decide_eq_true_eq] at * <;> omega

theorem YLess_trans (pts : List Coor) (a b c : Nat) (h1 : YLess pts a b = true)
    (h2 : YLess pts b c = true) : YLess pts a c = true := by
  unfold YLess at *
  simp only [ne_eq] at *
  split_ifs at h1 h2 ⊢ <;> simp only [decide_eq_true_eq] at * <;> omega

theorem YLarge_trans (pts : List Coor) (a b c : Nat) (h1 : YLarge pts a b = true)
    (h2 : YLarge pts b c = true) : YLarge pts a c = true := by
  unfold YLarge at *
  simp only [ne_eq, gt_iff_lt] at *
  split_ifs at h1 h2 ⊢ <;> simp only [decide_eq_true_eq] at * <;> omega

theorem BSTNode.size_eq_length {α : Type} (t : BSTNode α) : t.size = t.toList.length := by
  induction t with
  | nil => rfl
  | node lc d rc ihl ihr =>
    simp only [BSTNode.size, BSTNode.toList, List.length_append, List.length_cons, ihl, ihr]
    omega

theorem countP_lt_of_imp {α : Type} (p q : α → Bool) :
    ∀ (l : List α), (∀ x ∈ l, p x = true → q x = true) →
      (∃ x ∈ l, p x = false ∧ q x = true) → l.countP p < l.countP q := by
  intro l
  induction l with
  | nil => intro _ h; obtain ⟨x, hx, _⟩ := h; simp at hx
  | cons a l ih =>
    intro himp hex
    have hle : l.countP p ≤ l.countP q := by
      apply List.countP_mono_left
      intro x hx
      exact himp x (List.mem_cons_of_mem _ hx)
    have ha := himp a (List.mem_cons_self _ _)
    rw [List.countP_cons, List.countP_cons]
    obtain ⟨x, hx, hpx, hqx⟩ := hex
    rcases List.mem_cons.1 hx with rfl | hx
    · simp only [hpx, hqx, Bool.false_eq_true, if_false, if_true]
      omega
    · have := ih (fun y hy => himp y (List.mem_cons_of_mem _ hy)) ⟨x, hx, hpx, hqx⟩
      by_cases hpa : p a = true
      · simp only [hpa, ha hpa, if_true]
        omega
      · simp only [hpa, Bool.false_eq_true, if_false]
        split_ifs <;> omega

/-- The walk of one region returns: every step moves to a stored key that strictly precedes
the last one, so the number of stored keys is enough fuel. -/
theorem walk_spec (pts : List Coor) (rg : Region) (cmp : Nat → Nat → Bool)
    (as : BSTNode Nat) (a : Coor) (ai : Nat)
    (hirr : ∀ x, cmp x x = false)
    (htrans : ∀ x y z, cmp x y = true → cmp y z = true → cmp x z = true)
    (hord : BSTNode.Ordered cmp as) :
    ∀ (fuel : Nat) (pt : Option Nat) (best : Option Nat × Int),
      (∀ p, pt = some p →
        p ∈ as.toList ∧ cmp p ai = true ∧ (as.toList.countP fun s => cmp s p) < fuel) →
      GoodBest pts cmp as a ai best →
      ∃ res, walk pts rg cmp as a fuel pt best = some res ∧ GoodBest pts cmp as a ai res := by
  intro fuel
  induction fuel with
  | zero =>
    intro pt best hpt hbest
    cases pt with
    | none => exact ⟨best, by simp [walk], hbest⟩
    | some p => have := (hpt p rfl).2.2; omega
  | succ fuel ih =>
    intro pt best hpt hbest
    cases pt with
    | none => exact ⟨best, by simp [walk], hbest⟩
    | some p =>
      obtain ⟨hmem, hlt, hcount⟩ := hpt p rfl
      simp only [walk]
      by_cases hstop : rg.stop (pointAt pts p) a = true
      · rw [if_pos hstop]
        exact ⟨best, rfl, hbest⟩
      · rw [if_neg hstop]
        apply ih
        · intro r hr
          obtain ⟨h1, h2, _⟩ := (BSTNode.queryTreeMaxL_spec cmp hirr htrans p as hord).1 r hr
          refine ⟨h1, htrans _ _ _ h2 hlt, ?_⟩
          have : (as.toList.countP fun s => cmp s r) < (as.toList.countP fun s => cmp s p) := by
            apply countP_lt_of_imp
            · intro x _ hx
              exact htrans _ _ _ hx h2
            · exact ⟨r, h1, hirr r, h2⟩
          omega
        · intro m hm
          by_cases hin : rg.inside a (pointAt pts p) = true
          · rw [if_pos hin] at hm ⊢
            by_cases hupd : (best.1.isNone || decide (computeMD a.x a.y (pointAt pts p).x
                (pointAt pts p).y < best.2)) = true
            · rw [if_pos hupd] at hm ⊢
              simp only [Option.some.injEq] at hm
              subst hm
              exact ⟨hmem, hlt, rfl⟩
            · rw [if_neg hupd] at hm ⊢
              exact hbest m hm
          · rw [if_neg hin] at hm ⊢
            exact hbest m hm

/-- One region step returns; it keeps the active set a search tree with the same comparator
and appends no edge or exactly one edge, whose first endpoint is the swept identifier, whose
second endpoint was stored in the active set and precedes the swept identifier there, and
whose weight is the Manhattan distance between the two points. -/
theorem regionStep_spec (pts : List Coor) (rg : Region) (ai : Nat) (as : BST Nat)
    (edge_set : List EDGE)
    (hirr : ∀ x, as.cmp x x = false)
    (htrans : ∀ x y z, as.cmp x y = true → as.cmp y z = true → as.cmp x z = true)
    (hord : BSTNode.Ordered as.cmp as.root) :
    ∃ as1 e, regionStep pts rg ai as edge_set = some (as1, edge_set ++ e) ∧
      regionStep pts rg ai as [] = some (as1, e) ∧
      as1.cmp = as.cmp ∧ BSTNode.Ordered as.cmp as1.root ∧
      (∀ x ∈ as1.root.toList, x = ai ∨ x ∈ as.root.toList) ∧
      (e = [] ∨ ∃ m, e = [⟨ai, m, computeMD (pointAt pts ai).x (pointAt pts ai).y
        (pointAt pts m).x (pointAt pts m).y⟩] ∧ m ∈ as.root.toList ∧ as.cmp m ai = true) := by
  have hq := BSTNode.queryTreeMaxL_spec as.cmp hirr htrans ai as.root hord
  obtain ⟨res, hw, hgood⟩ := walk_spec pts rg as.cmp as.root (pointAt pts ai) ai hirr htrans
    hord as.root.size (as.queryMaxL ai) (none, 0)
    (by
      intro p hp
      obtain ⟨h1, h2, _⟩ := hq.1 p hp
      refine ⟨h1, h2, ?_⟩
      rw [BSTNode.size_eq_length]
      have : (as.root.toList.countP fun s => as.cmp s p)
          < as.root.toList.countP fun _ => true := by
        apply countP_lt_of_imp
        · intro _ _ _; rfl
        · exact ⟨p, h1, hirr p, rfl⟩
      simpa using this)
    (by intro m hm; simp at hm)
  obtain ⟨best, md⟩ := res
  cases best with
  | none =>
    refine ⟨as.insert ai, [], ?_, ?_, rfl, ?_, ?_, Or.inl rfl⟩
    · simp only [regionStep, hw, List.append_nil]
    · simp only [regionStep, hw]
    · exact BSTNode.ordered_insertToTree as.cmp ai as.root hord
    · intro x hx
      exact BSTNode.mem_insertToTree as.cmp ai as.root x hx
  | some m =>
    obtain ⟨h1, h2, h3⟩ := hgood m rfl
    simp only at h3
    refine ⟨(as.erase m).insert ai, [⟨ai, m, md⟩], ?_, ?_, rfl, ?_, ?_, Or.inr ⟨m, ?_, h1, h2⟩⟩
    · simp only [regionStep, hw]
    · simp only [regionStep, hw, List.nil_append]
    · exact BSTNode.ordered_insertToTree as.cmp ai _
        (BSTNode.ordered_eraseFromTree as.cmp htrans m as.root hord)
    · intro x hx
      rcases BSTNode.mem_insertToTree as.cmp ai _ x hx with h | h
      · exact Or.inl h
      · exact Or.inr (BSTNode.mem_eraseFromTree as.cmp m as.root x h)
    · rw [h3]

/-- The steps of one region over a whole pass return; each swept identifier contributes at
most one edge, with that identifier as first endpoint. -/
theorem regionEdges_spec (pts : List Coor) (rg : Region) (cmp : Nat → Nat → Bool)
    (hirr : ∀ x, cmp x x = false)
    (htrans : ∀ x y z, cmp x y = true → cmp y z = true → cmp x z = true) :
    ∀ (index : List Nat) (as : BST Nat), as.cmp = cmp → BSTNode.Ordered cmp as.root →
      ∃ E, regionEdges pts rg index as = some E ∧
        (∀ a, countFirst a E ≤ index.count a) ∧ E.length ≤ index.length ∧
        ∀ e ∈ E, e.p1 ∈ index ∧ (e.p2 ∈ index ∨ e.p2 ∈ as.root.toList) ∧
          cmp e.p2 e.p1 = true ∧
          e.weight = computeMD (pointAt pts e.p1).x (pointAt pts e.p1).y
            (pointAt pts e.p2).x (pointAt pts e.p2).y := by
  intro index
  induction index with
  | nil =>
    intro as _ _
    exact ⟨[], rfl, by intro a; simp [countFirst], by simp, by simp⟩
  | cons ai rest ih =>
    intro as hc ho
    subst hc
    obtain ⟨as1, e, _, hstep, hc1, ho1, hmem1, he⟩ :=
      regionStep_spec pts rg ai as [] hirr htrans ho
    obtain ⟨E, hE, hcount, hlen, hprop⟩ := ih as1 hc1 ho1
    refine ⟨e ++ E, ?_, ?_, ?_, ?_⟩
    · simp only [regionEdges, hstep, hE, Option.map_some']
    · intro a
      have h1 := hcount a
      rw [List.count_cons]
      unfold countFirst at h1 ⊢
      rw [List.countP_append]
      rcases he with rfl | ⟨m, rfl, _, _⟩
      · simp only [List.countP_nil, Nat.zero_add]
        omega
      · simp only [List.countP_cons, List.countP_nil, Nat.zero_add]
        by_cases hai : ai = a
        · subst hai
          simp
          omega
        · have h2 : (ai == a) = false := by simpa using hai
          simp only [h2, Bool.false_eq_true, if_false]
          omega
    · rw [List.length_append, List.length_cons]
      rcases he with rfl | ⟨m, rfl, _, _⟩
      · simp only [List.length_nil]
        omega
      · simp only [List.length_cons, List.length_nil]
        omega
    · intro f hf
      rcases List.mem_append.1 hf with hf | hf
      · rcases he with rfl | ⟨m, rfl, hm1, hm2⟩
        · simp at hf
        · simp only [List.mem_singleton] at hf
          subst hf
          exact ⟨List.mem_cons_self _ _, Or.inr hm1, hm2, rfl⟩
      · obtain ⟨p1, p2, p3, p4⟩ := hprop f hf
        refine ⟨List.mem_cons_of_mem _ p1, ?_, p3, p4⟩
        rcases p2 with p2 | p2
        · exact Or.inl (List.mem_cons_of_mem _ p2)
        · rcases hmem1 _ p2 with h | h
          · rw [h]
            exact Or.inl (List.mem_cons_self _ _)
          · exact Or.inr h

/-- A pass returns, and what it appends is, up to the order of the edges, what its two
regions contribute. -/
theorem sweepPass_spec (pts : List Coor) (rgA rgB : Region) (cmpA cmpB : Nat → Nat → Bool)
    (hirrA : ∀ x, cmpA x x = false)
    (htransA : ∀ x y z, cmpA x y = true → cmpA y z = true → cmpA x z = true)
    (hirrB : ∀ x, cmpB x x = false)
    (htransB : ∀ x y z, cmpB x y = true → cmpB y z = true → cmpB x z = true) :
    ∀ (index : List Nat) (asA asB : BST Nat) (edge_set : List EDGE),
      asA.cmp = cmpA → BSTNode.Ordered cmpA asA.root →
      asB.cmp = cmpB → BSTNode.Ordered cmpB asB.root →
      ∃ EA EB out, regionEdges pts rgA index asA = some EA ∧
        regionEdges pts rgB index asB = some EB ∧
        sweepPass pts rgA rgB index asA asB edge_set = some (edge_set ++ out) ∧
        List.Perm out (EA ++ EB) := by
  intro index
  induction index with
  | nil =>
    intro asA asB edge_set _ _ _ _
    exact ⟨[], [], [], rfl, rfl, by simp [sweepPass], List.Perm.refl _⟩
  | cons ai rest ih =>
    intro asA asB edge_set hcA hoA hcB hoB
    subst hcA hcB
    obtain ⟨asA1, eA, hstepA, hstepA0, hcA1, hoA1, _, _⟩ :=
      regionStep_spec pts rgA ai asA edge_set hirrA htransA hoA
    obtain ⟨asB1, eB, hstepB, hstepB0, hcB1, hoB1, _, _⟩ :=
      regionStep_spec pts rgB ai asB (edge_set ++ eA) hirrB htransB hoB
    obtain ⟨EA, EB, out, hEA, hEB, hpass, hperm⟩ :=
      ih asA1 asB1 (edge_set ++ eA ++ eB) hcA1 hoA1 hcB1 hoB1
    refine ⟨eA ++ EA, eB ++ EB, eA ++ eB ++ out, ?_, ?_, ?_, ?_⟩
    · simp only [regionEdges, hstepA0, hEA, Option.map_some']
    · simp only [regionEdges, hstepB0, hEB, Option.map_some']
    · simp only [sweepPass, hstepA, hstepB]
      rw [hpass]
      simp only [List.append_assoc]
    · have h1 : List.Perm (eA ++ eB ++ out) (eA ++ (eB ++ (EA ++ EB))) := by
        rw [List.append_assoc]
        exact (hperm.append_left eB).append_left eA
      have h2 : List.Perm (eB ++ (EA ++ EB)) (EA ++ (eB ++ EB)) := by
        rw [← List.append_assoc, ← List.append_assoc]
        exact List.Perm.append_right EB List.perm_append_comm
      rw [List.append_assoc eA EA]
      exact h1.trans (h2.append_left eA)

theorem countFirst_perm {a : Nat} {E F : List EDGE} (h : List.Perm E F) :
    countFirst a E = countFirst a F := by
  unfold countFirst
  exact h.countP_eq _

theorem countFirst_append (a : Nat) (E F : List EDGE) :
    countFirst a (E ++ F) = countFirst a E + countFirst a F := by
  unfold countFirst
  exact List.countP_append _ _ _

theorem count_le_one_of_perm_range {index : List Nat} {n : Nat}
    (h : List.Perm index (List.range n)) (a : Nat) : index.count a ≤ 1 := by
  rw [h.count_eq]
  exact List.nodup_iff_count_le_one.1 (List.nodup_range n) a

/-- The two passes, on any arrangement of the identifiers `0 .. n-1` for each pass: the sweep
returns, its output is, up to order, what the four regions contribute, and each region
contributes at most one edge per first endpoint. -/
theorem sweepWith_edge_bound (pts : List Coor) (idxA idxB : List Nat)
    (hA : List.Perm idxA (List.range pts.length))
    (hB : List.Perm idxB (List.range pts.length)) :
    ∃ es E1 E2 E3 E4, sweepWith pts idxA idxB [] = some es ∧
      regionEdges pts R1 idxA (BST.empty (XLess pts)) = some E1 ∧
      regionEdges pts R2 idxA (BST.empty (YLess pts)) = some E2 ∧
      regionEdges pts R3 idxB (BST.empty (YLarge pts)) = some E3 ∧
      regionEdges pts R4 idxB (BST.empty (XLess pts)) = some E4 ∧
      List.Perm es (E1 ++ E2 ++ E3 ++ E4) ∧
      (∀ a, countFirst a E1 ≤ 1 ∧ countFirst a E2 ≤ 1 ∧
        countFirst a E3 ≤ 1 ∧ countFirst a E4 ≤ 1) ∧
      (∀ a, countFirst a es ≤ 4) ∧ es.length ≤ 4 * pts.length := by
  obtain ⟨E1, E2, outA, h1, h2, hpA, hpermA⟩ :=
    sweepPass_spec pts R1 R2 (XLess pts) (YLess pts) (XLess_irrefl pts) (XLess_trans pts)
      (YLess_irrefl pts) (YLess_trans pts) idxA (BST.empty (XLess pts))
      (BST.empty (YLess pts)) [] rfl trivial rfl trivial
  obtain ⟨E3, E4, outB, h3, h4, hpB, hpermB⟩ :=
    sweepPass_spec pts R3 R4 (YLarge pts) (XLess pts) (YLarge_irrefl pts) (YLarge_trans pts)
      (XLess_irrefl pts) (XLess_trans pts) idxB (BST.empty (YLarge pts))
      (BST.empty (XLess pts)) ([] ++ outA) rfl trivial rfl trivial
  obtain ⟨F1, g1, c1, l1, _⟩ := regionEdges_spec pts R1 (XLess pts) (XLess_irrefl pts)
    (XLess_trans pts) idxA (BST.empty (XLess pts)) rfl trivial
  obtain ⟨F2, g2, c2, l2, _⟩ := regionEdges_spec pts R2 (YLess pts) (YLess_irrefl pts)
    (YLess_trans pts) idxA (BST.empty (YLess pts)) rfl trivial
  obtain ⟨F3, g3, c3, l3, _⟩ := regionEdges_spec pts R3 (YLarge pts) (YLarge_irrefl pts)
    (YLarge_trans pts) idxB (BST.empty (YLarge pts)) rfl trivial
  obtain ⟨F4, g4, c4, l4, _⟩ := regionEdges_spec pts R4 (XLess pts) (XLess_irrefl pts)
    (XLess_trans pts) idxB (BST.empty (XLess pts)) rfl trivial
  have e1 : F1 = E1 := by
    rw [h1] at g1
    exact (Option.some.inj g1).symm
  have e2 : F2 = E2 := by
    rw [h2] at g2
    exact (Option.some.inj g2).symm
  have e3 : F3 = E3 := by
    rw [h3] at g3
    exact (Option.some.inj g3).symm
  have e4 : F4 = E4 := by
    rw [h4] at g4
    exact (Option.some.inj g4).symm
  subst e1 e2 e3 e4
  have hperm : List.Perm (outA ++ outB) (F1 ++ F2 ++ F3 ++ F4) := by
    rw [List.append_assoc (F1 ++ F2)]
    exact hpermA.append hpermB
  have hk1 : ∀ a, countFirst a F1 ≤ 1 := fun a =>
    le_trans (c1 a) (count_le_one_of_perm_range hA a)
  have hk2 : ∀ a, countFirst a F2 ≤ 1 := fun a =>
    le_trans (c2 a) (count_le_one_of_perm_range hA a)
  have hk3 : ∀ a, countFirst a F3 ≤ 1 := fun a =>
    le_trans (c3 a) (count_le_one_of_perm_range hB a)
  have hk4 : ∀ a, countFirst a F4 ≤ 1 := fun a =>
    le_trans (c4 a) (count_le_one_of_perm_range hB a)
  have hlenA : idxA.length = pts.length := by rw [hA.length_eq, List.length_range]
  have hlenB : idxB.length = pts.length := by rw [hB.length_eq, List.length_range]
  refine ⟨outA ++ outB, F1, F2, F3, F4, ?_, h1, h2, h3, h4, hperm,
    fun a => ⟨hk1 a, hk2 a, hk3 a, hk4 a⟩, ?_, ?_⟩
  · simp only [sweepWith, hpA]
    rw [hpB]
    simp
  · intro a
    rw [countFirst_perm hperm, countFirst_append, countFirst_append, countFirst_append]
    have := hk1 a
    have := hk2 a
    have := hk3 a
    have := hk4 a
    omega
  · rw [hperm.length_eq]
    simp only [List.length_append]
    omega

theorem indexA_perm (pts : List Coor) : List.Perm (indexA pts) (List.range pts.length) :=
  stdSort_perm _ _

theorem indexB_perm (pts : List Coor) : List.Perm (indexB pts) (List.range pts.length) :=
  (stdSort_perm _ _).trans (indexA_perm pts)

theorem sweepRSG_eq (pts : List Coor) (edge_set : List EDGE) :
    sweepRSG pts edge_set = sweepWith pts (indexA pts) (indexB pts) edge_set := rfl

/-- C20: for more than 25 points `buildRSG` returns; its output is, up to the order of the
edges, what the four regions R1..R4 contribute over their passes; each region contributes,
for each point `a`, at most one edge whose first endpoint is `a`; so each point is the first
endpoint of at most 4 edges and the output has at most `4 n` edges. -/
theorem buildRSG_edge_bound (pts : List Coor) (hn : 25 < pts.length) :
    ∃ es E1 E2 E3 E4, buildRSG pts [] = some es ∧
      regionEdges pts R1 (indexA pts) (BST.empty (XLess pts)) = some E1 ∧
      regionEdges pts R2 (indexA pts) (BST.empty (YLess pts)) = some E2 ∧
      regionEdges pts R3 (indexB pts) (BST.empty (YLarge pts)) = some E3 ∧
      regionEdges pts R4 (indexB pts) (BST.empty (XLess pts)) = some E4 ∧
      List.Perm es (E1 ++ E2 ++ E3 ++ E4) ∧
      (∀ a, countFirst a E1 ≤ 1 ∧ countFirst a E2 ≤ 1 ∧
        countFirst a E3 ≤ 1 ∧ countFirst a E4 ≤ 1) ∧
      (∀ a, countFirst a es ≤ 4) ∧ es.length ≤ 4 * pts.length := by
  have hb : buildRSG pts [] = sweepWith pts (indexA pts) (indexB pts) [] := by
    unfold buildRSG
    rw [if_neg (by omega), sweepRSG_eq]
  rw [hb]
  exact sweepWith_edge_bound pts (indexA pts) (indexB pts) (indexA_perm pts) (indexB_perm pts)

theorem buildRSG_edge_bound_witness :
    25 < line26.length ∧
    ∃ es E1 E2 E3 E4, buildRSG line26 [] = some es ∧
      regionEdges line26 R1 (indexA line26) (BST.empty (XLess line26)) = some E1 ∧
      regionEdges line26 R2 (indexA line26) (BST.empty (YLess line26)) = some E2 ∧
      regionEdges line26 R3 (indexB line26) (BST.empty (YLarge line26)) = some E3 ∧
      regionEdges line26 R4 (indexB line26) (BST.empty (XLess line26)) = some E4 ∧
      List.Perm es (E1 ++ E2 ++ E3 ++ E4) ∧
      (∀ a, countFirst a E1 ≤ 1 ∧ countFirst a E2 ≤ 1 ∧
        countFirst a E3 ≤ 1 ∧ countFirst a E4 ≤ 1) ∧
      (∀ a, countFirst a es ≤ 4) ∧ es.length ≤ 4 * line26.length :=
  ⟨by decide, buildRSG_edge_bound line26 (by decide)⟩

/-! ## Roots keep rank zero -/

/-- A call of `checkRoot` keeps the roots and their ranks. -/
theorem checkRoot_rank_zero (ds : DisjointSet) (h : Nat → Nat) (hinv : DSInv ds h)
    (hz : ∀ i : Nat, ds.table[i]? = some i → ds.rank[i]? = some 0) (x : Nat)
    (hx : x < ds.table.length) :
    ∃ r ds1, ds.checkRoot x = some (r, ds1) ∧ RootOf ds.table x r ∧ Compressed ds ds1 h ∧
      DSInv ds1 h ∧ (∀ i : Nat, ds1.table[i]? = some i → ds1.rank[i]? = some 0) := by
  obtain ⟨r, ds1, he, hr, hc, hi⟩ := checkRoot_spec ds h hinv x hx
  refine ⟨r, ds1, he, hr, hc, hi, ?_⟩
  intro i hi1
  rw [hc.1]
  exact hz i ((hc.2.2.2.2.2 i i).1 (RootOf.root hi1)).is_root

/-- With every root at rank zero, `unionSet(x, y)` finds both roots at rank zero, takes the
`else` branch when the roots differ, and leaves every root at rank zero. -/
theorem unionSet_rank_zero (ds : DisjointSet) (h : Nat → Nat) (hinv : DSInv ds h)
    (hz : ∀ i : Nat, ds.table[i]? = some i → ds.rank[i]? = some 0) (x y : Nat)
    (hx : x < ds.table.length) (hy : y < ds.table.length) :
    ∃ rx dsa ry dsb, ds.checkRoot x = some (rx, dsa) ∧ dsa.checkRoot y = some (ry, dsb) ∧
      RootOf ds.table x rx ∧ RootOf ds.table y ry ∧
      dsb.rank[rx]? = some 0 ∧ dsb.rank[ry]? = some 0 ∧
      (rx = ry → ds.unionSet x y = some dsb) ∧
      (rx ≠ ry → ds.unionSet x y =
        some { dsb with table := dsb.table.set ry rx, rank := dsb.rank.set ry (0 + 1) }) ∧
      (∀ ds1, ds.unionSet x y = some ds1 → ∀ i : Nat, ds1.table[i]? = some i → ds1.rank[i]? = some 0)
      := by
  obtain ⟨rx, dsa, hea, hrx, hca, hia, hza⟩ := checkRoot_rank_zero ds h hinv hz x hx
  have hy1 : y < dsa.table.length := by rw [hca.2.2.1]; exact hy
  obtain ⟨ry, dsb, heb, hry, hcb, hib, hzb⟩ := checkRoot_rank_zero dsa h hia hza y hy1
  have hry0 : RootOf ds.table y ry := (hca.2.2.2.2.2 y ry).1 hry
  have hrxb : RootOf dsb.table x rx := by
    rw [hcb.2.2.2.2.2, hca.2.2.2.2.2]; exact hrx
  have hkx : dsb.rank[rx]? = some 0 := hzb rx hrxb.is_root
  have hky : dsb.rank[ry]? = some 0 := hzb ry ((hcb.2.2.2.2.2 y ry).2 hry).is_root
  have hsame : rx = ry → ds.unionSet x y = some dsb := by
    intro hxy
    simp only [DisjointSet.unionSet, hea, heb, ne_eq, hxy, not_true_eq_false, if_false]
  have hdiff : rx ≠ ry → ds.unionSet x y =
      some { dsb with table := dsb.table.set ry rx, rank := dsb.rank.set ry (0 + 1) } := by
    intro hxy
    simp only [DisjointSet.unionSet, hea, heb, ne_eq, hxy, not_false_eq_true, if_true, hkx, hky,
      lt_self_iff_false, if_false]
  refine ⟨rx, dsa, ry, dsb, hea, heb, hrx, hry0, hkx, hky, hsame, hdiff, ?_⟩
  intro ds1 hu i hi
  by_cases hxy : rx = ry
  · rw [hsame hxy] at hu
    obtain rfl := Option.some.inj hu
    exact hzb i hi
  · rw [hdiff hxy] at hu
    obtain rfl := Option.some.inj hu
    simp only at hi ⊢
    by_cases hiy : ry = i
    · subst hiy
      have hlt : ry < dsb.table.length := by
        rw [hib.1, ← hib.2.1]
        exact (List.getElem?_eq_some_iff.1 hky).1
      rw [List.getElem?_set_self hlt] at hi
      exact absurd (Option.some.inj hi) hxy
    · rw [List.getElem?_set_ne hiy] at hi ⊢
      exact hzb i hi

/-- In every reachable state every root has rank zero. -/
theorem reachable_rank_zero {n : Nat} {ds : DisjointSet} (hr : Reachable n ds) :
    ∀ i : Nat, ds.table[i]? = some i → ds.rank[i]? = some 0 := by
  induction hr with
  | init =>
    intro i hi
    have hlt : i < n := by
      have := (List.getElem?_eq_some_iff.1 hi).1
      simpa [DisjointSet.makeSet] using this
    simp [DisjointSet.makeSet, hlt]
  | @checkRoot ds ds1 x r hprev hc ih =>
    obtain ⟨_, ht, hinv⟩ := reachable_inv hprev
    obtain ⟨r1, ds2, he, _, _, _, hz⟩ :=
      checkRoot_rank_zero ds ht hinv ih x (checkRoot_some_lt hc)
    rw [hc] at he
    simp only [Option.some.injEq, Prod.mk.injEq] at he
    obtain ⟨_, rfl⟩ := he
    exact hz
  | @unionSet ds ds1 x y hprev hu ih =>
    obtain ⟨_, ht, hinv⟩ := reachable_inv hprev
    obtain ⟨hx, hy⟩ := unionSet_some_lt hu
    obtain ⟨_, _, _, _, _, _, _, _, _, _, _, _, hz⟩ := unionSet_rank_zero ds ht hinv ih x y hx hy
    exact hz ds1 hu

/-- C24: in every state reachable from `makeSet(n)` by calls of `checkRoot` and `unionSet`,
every root (`table[i] = i`) has rank `0`.  So in `unionSet(x, y)` with `x, y < n` the two
`checkRoot` calls return, both ranks read for the comparison `rank[root_x] < rank[root_y]`
are `0` and the comparison is false; when the roots differ the call returns and has stored
`root_x` in `table[root_y]` (with `root_x` still a root and no other entry changed). -/
theorem roots_have_rank_zero (n : Nat) (ds : DisjointSet) (hr : Reachable n ds) :
    (∀ i : Nat, ds.table[i]? = some i → ds.rank[i]? = some 0) ∧
    ∀ x y, x < n → y < n →
      ∃ rx dsa ry dsb, ds.checkRoot x = some (rx, dsa) ∧ dsa.checkRoot y = some (ry, dsb) ∧
        RootOf ds.table x rx ∧ RootOf ds.table y ry ∧
        dsb.rank[rx]? = some 0 ∧ dsb.rank[ry]? = some 0 ∧
        (∀ a b, dsb.rank[rx]? = some a → dsb.rank[ry]? = some b → ¬ a < b) ∧
        (rx ≠ ry → ∃ ds1, ds.unionSet x y = some ds1 ∧
          ds1.table[ry]? = some rx ∧ ds1.table[rx]? = some rx ∧
          ∀ i : Nat, i ≠ ry → ds1.table[i]? = dsb.table[i]?) := by
  have hz := reachable_rank_zero hr
  refine ⟨hz, ?_⟩
  intro x y hx hy
  obtain ⟨hlen, ht, hinv⟩ := reachable_inv hr
  obtain ⟨rx, dsa, ry, dsb, hea, heb, hrx, hry, hkx, hky, _, hdiff, _⟩ :=
    unionSet_rank_zero ds ht hinv hz x y (by omega) (by omega)
  refine ⟨rx, dsa, ry, dsb, hea, heb, hrx, hry, hkx, hky, ?_, ?_⟩
  · intro a b ha hb
    rw [hkx] at ha
    rw [hky] at hb
    obtain rfl := Option.some.inj ha
    obtain rfl := Option.some.inj hb
    exact lt_irrefl 0
  · intro hxy
    refine ⟨_, hdiff hxy, ?_, ?_, ?_⟩
    · have hlt : ry < dsb.table.length := by
        have h1 := checkRootAux_length _ _ _ _ _ hea
        have h2 := checkRootAux_length _ _ _ _ _ heb
        have := hry.root_lt_length
        omega
      simp only
      rw [List.getElem?_set_self hlt]
    · have hroot : dsb.table[rx]? = some rx := by
        obtain ⟨r1, d1, e1, _, c1, i1⟩ := checkRoot_spec ds ht hinv x (by omega)
        rw [hea] at e1
        simp only [Option.some.injEq, Prod.mk.injEq] at e1
        obtain ⟨rfl, rfl⟩ := e1
        obtain ⟨r2, d2, e2, _, c2, _⟩ := checkRoot_spec dsa ht i1 y (by rw [c1.2.2.1]; omega)
        rw [heb] at e2
        simp only [Option.some.injEq, Prod.mk.injEq] at e2
        obtain ⟨rfl, rfl⟩ := e2
        have : RootOf dsb.table x rx := by
          rw [c2.2.2.2.2.2, c1.2.2.2.2.2]; exact hrx
        exact this.is_root
      simp only
      rw [List.getElem?_set_ne (fun hc => hxy hc.symm)]
      exact hroot
    · intro i hi
      simp only
      rw [List.getElem?_set_ne (fun hc => hi hc.symm)]

theorem roots_have_rank_zero_witness :
    Reachable 5 fiveJoined ∧
    (∀ i : Nat, fiveJoined.table[i]? = some i → fiveJoined.rank[i]? = some 0) ∧
    ∀ x y, x < 5 → y < 5 →
      ∃ rx dsa ry dsb, fiveJoined.checkRoot x = some (rx, dsa) ∧
        dsa.checkRoot y = some (ry, dsb) ∧
        RootOf fiveJoined.table x rx ∧ RootOf fiveJoined.table y ry ∧
        dsb.rank[rx]? = some 0 ∧ dsb.rank[ry]? = some 0 ∧
        (∀ a b, dsb.rank[rx]? = some a → dsb.rank[ry]? = some b → ¬ a < b) ∧
        (rx ≠ ry → ∃ ds1, fiveJoined.unionSet x y = some ds1 ∧
          ds1.table[ry]? = some rx ∧ ds1.table[rx]? = some rx ∧
          ∀ i : Nat, i ≠ ry → ds1.table[i]? = dsb.table[i]?) :=
  ⟨fiveJoined_reachable, roots_have_rank_zero 5 fiveJoined fiveJoined_reachable⟩

/-! ## The sweep: vertical pairs, emitted edges, and the size of the disjoint set -/

/-- What `regionEdges_spec` gives for an empty active set at the start and an index array that
is an arrangement of `0 .. n-1`. -/
theorem regionEdges_wellformed (pts : List Coor) (rg : Region) (cmp : Nat → Nat → Bool)
    (hirr : ∀ x, cmp x x = false)
    (htrans : ∀ x y z, cmp x y = true → cmp y z = true → cmp x z = true)
    (index : List Nat) (hperm : List.Perm index (List.range pts.length))
    (E : List EDGE) (hE : regionEdges pts rg index (BST.empty cmp) = some E) :
    ∀ e ∈ E, e.p1 < pts.length ∧ e.p2 < pts.length ∧ e.p1 ≠ e.p2 ∧
      e.weight = computeMD (pointAt pts e.p1).x (pointAt pts e.p1).y
        (pointAt pts e.p2).x (pointAt pts e.p2).y := by
  obtain ⟨F, hF, _, _, hprop⟩ := regionEdges_spec pts rg cmp hirr htrans index (BST.empty cmp)
    rfl trivial
  rw [hE] at hF
  obtain rfl := Option.some.inj hF
  intro e he
  obtain ⟨h1, h2, h3, h4⟩ := hprop e he
  have hin : ∀ k, k ∈ index → k < pts.length := fun k hk =>
    List.mem_range.1 (hperm.mem_iff.1 hk)
  refine ⟨hin _ h1, ?_, ?_, h4⟩
  · rcases h2 with h2 | h2
    · exact hin _ h2
    · simp [BST.empty, BSTNode.toList] at h2
  · intro hc
    rw [hc, hirr] at h3
    exact Bool.false_ne_true h3

/-- C22: for more than 25 points `buildRSG` returns, and every edge of its output has both
endpoints in `[0, n)`, two different endpoints, and as weight the Manhattan distance
`|x1 - x2| + |y1 - y2|` of the two points they name, which is not negative.  (The points need
not be duplicate-free for this.) -/
theorem buildRSG_edges_wellformed (pts : List Coor) (hn : 25 < pts.length) :
    ∃ es, buildRSG pts [] = some es ∧
      ∀ e ∈ es, e.p1 < pts.length ∧ e.p2 < pts.length ∧ e.p1 ≠ e.p2 ∧
        (∃ a b, pts[e.p1]? = some a ∧ pts[e.p2]? = some b ∧
          e.weight = |a.x - b.x| + |a.y - b.y|) ∧
        0 ≤ e.weight := by
  have hb : buildRSG pts [] = sweepWith pts (indexA pts) (indexB pts) [] := by
    unfold buildRSG
    rw [if_neg (by omega), sweepRSG_eq]
  obtain ⟨es, E1, E2, E3, E4, hes, h1, h2, h3, h4, hperm, _⟩ :=
    sweepWith_edge_bound pts (indexA pts) (indexB pts) (indexA_perm pts) (indexB_perm pts)
  have w1 := regionEdges_wellformed pts R1 (XLess pts) (XLess_irrefl pts) (XLess_trans pts)
    (indexA pts) (indexA_perm pts) E1 h1
  have w2 := regionEdges_wellformed pts R2 (YLess pts) (YLess_irrefl pts) (YLess_trans pts)
    (indexA pts) (indexA_perm pts) E2 h2
  have w3 := regionEdges_wellformed pts R3 (YLarge pts) (YLarge_irrefl pts) (YLarge_trans pts)
    (indexB pts) (indexB_perm pts) E3 h3
  have w4 := regionEdges_wellformed pts R4 (XLess pts) (XLess_irrefl pts) (XLess_trans pts)
    (indexB pts) (indexB_perm pts) E4 h4
  refine ⟨es, by rw [hb]; exact hes, ?_⟩
  intro e he
  have hmem := hperm.mem_iff.1 he
  simp only [List.mem_append] at hmem
  have hw : e.p1 < pts.length ∧ e.p2 < pts.length ∧ e.p1 ≠ e.p2 ∧
      e.weight = computeMD (pointAt pts e.p1).x (pointAt pts e.p1).y
        (pointAt pts e.p2).x (pointAt pts e.p2).y := by
    rcases hmem with ((hm | hm) | hm) | hm
    · exact w1 e hm
    · exact w2 e hm
    · exact w3 e hm
    · exact w4 e hm
  obtain ⟨l1, l2, l3, l4⟩ := hw
  refine ⟨l1, l2, l3, ⟨pointAt pts e.p1, pointAt pts e.p2, ?_, ?_, ?_⟩, ?_⟩
  · simp [pointAt, List.getD, List.getElem?_eq_getElem l1]
  · simp [pointAt, List.getD, List.getElem?_eq_getElem l2]
  · rw [l4]; rfl
  · rw [l4]
    unfold computeMD
    positivity

theorem buildRSG_edges_wellformed_witness :
    25 < line26.length ∧
    ∃ es, buildRSG line26 [] = some es ∧
      ∀ e ∈ es, e.p1 < line26.length ∧ e.p2 < line26.length ∧ e.p1 ≠ e.p2 ∧
        (∃ a b, line26[e.p1]? = some a ∧ line26[e.p2]? = some b ∧
          e.weight = |a.x - b.x| + |a.y - b.y|) ∧
        0 ≤ e.weight :=
  ⟨by decide, buildRSG_edges_wellformed line26 (by decide)⟩

theorem line26_nodup : line26.Nodup := by
  decide

/-- C23, at the failing input: the twenty-six points `(0,0), ..., (25,0)` are duplicate-free
and `n = 26 >= 3`; `buildRSG` produces twenty-five edges, among them `(25, 24)`, whose
endpoint `25` is not smaller than the number of edges; `findMST` on that list allocates its
disjoint set with twenty-five slots, `checkRoot(25)` reads outside it, and the run is
undefined. -/
theorem buildRSG_endpoint_reaches_edge_count :
    line26.Nodup ∧ 3 ≤ line26.length ∧
    buildRSG line26 [] = some chain25 ∧ chain25.length = 25 ∧
    (∃ e ∈ chain25, chain25.length ≤ e.p1) ∧
    (mstInit chain25.length).ds.table.length = 25 ∧
    (mstInit chain25.length).ds.checkRoot 25 = none ∧
    findMST chain25 = none :=
  ⟨line26_nodup, by decide, line26_rsg, by decide, ⟨⟨25, 24, 1⟩, by decide, by decide⟩,
    by decide, checkRoot_out_of_range _ _ (by decide), line26_mst_undefined⟩

end RSG
